import Mathlib

/-!
Shallow embedding of the postgresql-hll sketch core (src/hll.c) and proofs
about it.  C machine integers are modeled as Nat (with explicit `% 2^w`
wherever the C code can wrap), C `int64`/`int32` values that can be negative
as Int, byte buffers as `List Nat` (each entry one byte) or, for the
bit-packing writer which addresses raw memory, as functions `Nat -> Nat`
from byte addresses to byte values.  `ereport(ERROR, ...)` paths are modeled
with `Except`.  Doubles in the cardinality estimator are modeled as real
numbers.
-/

-- ----------------------------------------------------------------
-- Error channel (ereport error codes used by the core)
-- ----------------------------------------------------------------

inductive HErr where
  | data
  | invalidParameter
deriving DecidableEq, Repr

instance {α : Type} [DecidableEq α] : DecidableEq (Except HErr α) := fun a b =>
  match a, b with
  | .ok x, .ok y =>
    if h : x = y then .isTrue (by rw [h]) else .isFalse (by intro hc; cases hc; exact h rfl)
  | .error x, .error y =>
    if h : x = y then .isTrue (by rw [h]) else .isFalse (by intro hc; cases hc; exact h rfl)
  | .ok _, .error _ => .isFalse (by intro hc; cases hc)
  | .error _, .ok _ => .isFalse (by intro hc; cases hc)

-- ----------------------------------------------------------------
-- Constants from hll.c
-- ----------------------------------------------------------------

def MST_UNDEFINED : Nat := 0x0
def MST_EMPTY : Nat := 0x1
def MST_EXPLICIT : Nat := 0x2
def MST_SPARSE : Nat := 0x3
def MST_COMPRESSED : Nat := 0x4

def MS_MAXDATA : Nat := 128 * 1024

def DEFAULT_LOG2M : Nat := 11
def DEFAULT_REGWIDTH : Nat := 5
def DEFAULT_EXPTHRESH : Int := -1
def DEFAULT_SPARSEON : Nat := 1

-- ----------------------------------------------------------------
-- expthresh codec (decode_expthresh / integer_log2 / encode_expthresh)
-- ----------------------------------------------------------------

/-- Embeds `decode_expthresh` (hll.c:109): 63 -> -1, 0 -> 0, k -> 2^(k-1). -/
def decode_expthresh (encoded_expthresh : Nat) : Int :=
  if encoded_expthresh = 63 then -1
  else if encoded_expthresh = 0 then 0
  else (2 : Int) ^ (encoded_expthresh - 1)

/-- Number of iterations of the halving loop in `integer_log2` (hll.c:122),
i.e. the bit length of `v`. -/
def integer_log2_count (v : Nat) : Nat :=
  if h : v = 0 then 0 else integer_log2_count (v / 2) + 1
termination_by v
decreasing_by exact Nat.div_lt_self (Nat.pos_of_ne_zero h) Nat.one_lt_two

/-- Embeds `integer_log2` (hll.c:122): bit length minus one. -/
def integer_log2 (v : Int) : Int :=
  (integer_log2_count v.toNat : Int) - 1

/-- Embeds `encode_expthresh` (hll.c:141). -/
def encode_expthresh (expthresh : Int) : Nat :=
  if expthresh = -1 then 63
  else if expthresh = 0 then 0
  else (integer_log2 expthresh + 1).toNat

/-- Embeds `expthresh_value` (hll.c:157): effective explicit capacity; for
auto (-1) the number of 8-byte elements fitting in the compressed size. -/
def expthresh_value (expthresh : Int) (nbits nregs : Nat) : Nat :=
  if expthresh ≠ -1 then
    expthresh.toNat
  else
    ((nbits * nregs + 7) / 8) / 8

/-- Embeds `check_modifiers` (hll.c:1584). -/
def check_modifiers (log2m regwidth : Int) (expthresh : Int) (sparseon : Int) :
    Except HErr Unit :=
  if log2m < 0 ∨ log2m > 31 then .error .invalidParameter
  else if regwidth < 0 ∨ regwidth > 7 then .error .invalidParameter
  else if expthresh < -1 ∨ expthresh > 4294967296 then .error .invalidParameter
  else if expthresh > 0 ∧ (2 : Int) ^ (integer_log2 expthresh).toNat ≠ expthresh then
    .error .invalidParameter
  else if sparseon < 0 ∨ sparseon > 1 then .error .invalidParameter
  else .ok ()

-- ----------------------------------------------------------------
-- Data model: multiset_t as a sum type (the C discriminated union
-- ms_type/ms_data; MST_SPARSE exists only on the wire, never in memory)
-- ----------------------------------------------------------------

inductive MSData where
  | undefinedD
  | emptyD
  | expl (elems : List Nat)
  | comp (regs : List Nat)
deriving DecidableEq, Repr

structure Multiset_t where
  ms_nbits : Nat
  ms_nregs : Nat
  ms_log2nregs : Nat
  ms_expthresh : Int
  ms_sparseon : Nat
  ms_data : MSData
deriving DecidableEq, Repr

attribute [ext] Multiset_t

/-- The numeric MST code stored in `ms_type` for each in-memory variant. -/
def ms_type (ms : Multiset_t) : Nat :=
  match ms.ms_data with
  | .undefinedD => MST_UNDEFINED
  | .emptyD => MST_EMPTY
  | .expl _ => MST_EXPLICIT
  | .comp _ => MST_COMPRESSED

-- ----------------------------------------------------------------
-- Signed 64-bit element comparator and sorting (element_compare, qsort)
-- ----------------------------------------------------------------

/-- Value of a 64-bit token reinterpreted as a signed int64 (the cast in
`element_compare`, hll.c:586). -/
def sigKey (a : Nat) : Int :=
  if a < 2 ^ 63 then (a : Int) else (a : Int) - 2 ^ 64

/-- Embeds `element_compare` (hll.c:586): signed comparison returning
-1 / 1 / 0. -/
def element_compare (a b : Nat) : Int :=
  if sigKey a < sigKey b then -1 else if sigKey a > sigKey b then 1 else 0

def sigLe (a b : Nat) : Prop := sigKey a ≤ sigKey b

instance : DecidableRel sigLe := fun a b =>
  inferInstanceAs (Decidable (sigKey a ≤ sigKey b))

instance : IsTotal Nat sigLe := ⟨fun a b => le_total (sigKey a) (sigKey b)⟩

instance : IsTrans Nat sigLe := ⟨fun _ _ _ h h' => le_trans h h'⟩

/-- Models the `qsort(..., element_compare)` calls: the elements rearranged
into ascending signed order.  On every call site the array holds pairwise
distinct signed keys, so the sorted arrangement is unique and any
comparison sort computes it; we use insertion sort. -/
def qsort_elements (l : List Nat) : List Nat := List.insertionSort sigLe l

/-- Models the `bsearch(..., element_compare)` membership tests: whether
some element compares equal to `x`.  On sorted input this is exactly what
C `bsearch` reports. -/
def bsearch_found (l : List Nat) (x : Nat) : Bool :=
  l.any (fun e => element_compare x e == 0)

/-- Embeds the adjacent-pairs check of `explicit_validate` (hll.c:730):
every adjacent pair must compare strictly ascending. -/
def ascending_pairs : List Nat → Bool
  | a :: b :: rest => (element_compare a b == -1) && ascending_pairs (b :: rest)
  | _ => true

-- ----------------------------------------------------------------
-- Insertion (compressed_add, explicit_to_compressed, multiset_add)
-- ----------------------------------------------------------------

/-- Fuel-bounded count of trailing zero bits; with fuel 64 this embeds
`__builtin_ctzll` on nonzero 64-bit values (its only defined inputs). -/
def ctz_rec : Nat → Nat → Nat
  | 0, _ => 0
  | f + 1, v => if v % 2 = 1 then 0 else ctz_rec f (v / 2) + 1

def ctzll (v : Nat) : Nat := ctz_rec 64 v

/-- Embeds `compressed_add` (hll.c:532).  Registers of a non-compressed
multiset are untouched (the C callers only invoke it on MST_COMPRESSED). -/
def compressed_add (o : Multiset_t) (elem : Nat) : Multiset_t :=
  match o.ms_data with
  | .comp regs =>
    let nbits := o.ms_nbits
    let nregs := o.ms_nregs
    let log2nregs := o.ms_log2nregs
    let mask := nregs - 1
    let maxregval := 2 ^ nbits - 1
    let ndx := elem &&& mask
    let ss_val := elem >>> log2nregs
    let p_w0 := if ss_val = 0 then 0 else ctzll ss_val + 1
    let p_w := if p_w0 > maxregval then maxregval else p_w0
    if regs.getD ndx 0 < p_w then { o with ms_data := .comp (regs.set ndx p_w) } else o
  | _ => o

/-- Embeds `compressed_explicit_union` (hll.c:558): fold each explicit
element into the compressed target. -/
def compressed_explicit_union (o : Multiset_t) (elems : List Nat) : Multiset_t :=
  elems.foldl compressed_add o

/-- Embeds `explicit_to_compressed` (hll.c:566): clear to an all-zero
compressed register bank (same metadata) and re-add all elements. -/
def explicit_to_compressed (msp : Multiset_t) : Multiset_t :=
  let elems := match msp.ms_data with
               | .expl es => es
               | _ => []
  compressed_explicit_union
    { msp with ms_data := .comp (List.replicate msp.ms_nregs 0) } elems

/-- Embeds `multiset_add` (hll.c:755).  This can change the type of the
multiset (promotion Empty -> Explicit -> Compressed). -/
def multiset_add (o : Multiset_t) (element : Nat) : Multiset_t :=
  let expval := expthresh_value o.ms_expthresh o.ms_nbits o.ms_nregs
  match o.ms_data with
  | .emptyD =>
    if expval = 0 then
      compressed_add (explicit_to_compressed { o with ms_data := .expl [] }) element
    else
      { o with ms_data := .expl [element] }
  | .expl elems =>
    if bsearch_found elems element then o
    else if elems.length = expval then
      compressed_add (explicit_to_compressed o) element
    else
      { o with ms_data := .expl (qsort_elements (elems ++ [element])) }
  | .comp _ => compressed_add o element
  | .undefinedD => o

-- ----------------------------------------------------------------
-- Metadata compatibility and union
-- ----------------------------------------------------------------

/-- Embeds `numfilled` (hll.c:598): count of non-zero registers. -/
def numfilled (regs : List Nat) : Nat :=
  regs.foldl (fun n r => if r > 0 then n + 1 else n) 0

/-- Embeds `check_metadata` (hll.c:480): the four parameter fields must
match, in this order (nbits, nregs, expthresh, sparseon); log2nregs is
implied by nregs. -/
def check_metadata (o_msp i_msp : Multiset_t) : Except HErr Unit :=
  if o_msp.ms_nbits ≠ i_msp.ms_nbits then .error .data
  else if o_msp.ms_nregs ≠ i_msp.ms_nregs then .error .data
  else if o_msp.ms_expthresh ≠ i_msp.ms_expthresh then .error .data
  else if o_msp.ms_sparseon ≠ i_msp.ms_sparseon then .error .data
  else .ok ()

/-- Embeds `explicit_union` (hll.c:840): batch-add B's elements into an
explicit target, deduping against the original sorted prefix, promoting to
compressed on overflow, and re-sorting at the end if still explicit. -/
def explicit_union (o : Multiset_t) (ielems : List Nat) : Multiset_t :=
  let expval := expthresh_value o.ms_expthresh o.ms_nbits o.ms_nregs
  let orig := match o.ms_data with
              | .expl es => es
              | _ => []
  let st := ielems.foldl (fun st element =>
    match st.ms_data with
    | .expl cur =>
      if bsearch_found orig element then st
      else if cur.length < expval then { st with ms_data := .expl (cur ++ [element]) }
      else compressed_add (explicit_to_compressed st) element
    | .comp _ => compressed_add st element
    | _ => st) o
  match st.ms_data with
  | .expl cur => { st with ms_data := .expl (qsort_elements cur) }
  | _ => st

/-- Embeds `multiset_union` (hll.c:1735), mutating A.  The B-empty case
leaves A unchanged; the A-empty case copies B (`memcpy` of the whole
struct, metadata included); compressed x compressed requires identical
register counts. -/
def multiset_union (msa : Multiset_t) (msb : Multiset_t) : Except HErr Multiset_t :=
  match msa.ms_data, msb.ms_data with
  | .undefinedD, _ => .ok { msa with ms_data := .undefinedD }
  | _, .undefinedD => .ok { msa with ms_data := .undefinedD }
  | _, .emptyD => .ok msa
  | .emptyD, _ => .ok msb
  | .expl _, .expl eb => .ok (explicit_union msa eb)
  | .expl ea, .comp _ => .ok (compressed_explicit_union msb ea)
  | .comp _, .expl eb => .ok (compressed_explicit_union msa eb)
  | .comp ra, .comp rb =>
    if msa.ms_nregs ≠ msb.ms_nregs then .error .data
    else .ok { msa with
               ms_data := .comp ((List.range msa.ms_nregs).map
                 (fun i => max (ra.getD i 0) (rb.getD i 0))) }

-- ----------------------------------------------------------------
-- Cardinality estimator (gamma_register_count_squared, multiset_card)
-- ----------------------------------------------------------------

/-- Embeds `gamma_register_count_squared` (hll.c:1846): alpha(m) * m^2 with
an error for m <= 8. -/
noncomputable def gamma_register_count_squared (nregs : Nat) : Except HErr ℝ :=
  if nregs ≤ 8 then .error .data
  else if nregs = 16 then .ok (0.673 * (nregs : ℝ) * (nregs : ℝ))
  else if nregs = 32 then .ok (0.697 * (nregs : ℝ) * (nregs : ℝ))
  else if nregs = 64 then .ok (0.709 * (nregs : ℝ) * (nregs : ℝ))
  else .ok ((0.7213 / (1 + 1.079 / (nregs : ℝ))) * (nregs : ℝ) * (nregs : ℝ))

/-- Embeds `multiset_card` (hll.c:1864) over ideal reals.  `1ULL <<
total_bits` and `1L << rval` are taken at their mathematical value
2^total_bits and 2^rval; in C these shifts are undefined for counts >= 64
(resp. produce negative values at 63), so theorems restrict to the defined
range.  In the large-range branch (hll.c:1921) the C multiplies the int
`-1` by the uint64 `two_to_l` under the usual arithmetic conversions, so
the product is computed modulo 2^64 and wraps to `2^64 - two_to_l`
(`neg_two_to_l` below, then converted to double); only the division
`estimator / two_to_l` and the cutoff use the unwrapped value.  The C
routine returns -1.0 for MST_UNDEFINED (mapped to NULL by the caller). -/
noncomputable def multiset_card (ms : Multiset_t) : Except HErr ℝ :=
  let nbits := ms.ms_nbits
  let log2m := ms.ms_log2nregs
  let max_register_value : Nat := 2 ^ nbits - 1
  let pw_bits : Nat := (max_register_value + (2 ^ 64 - 1)) % 2 ^ 64
  let total_bits : Nat := pw_bits + log2m
  let two_to_l : ℝ := (2 : ℝ) ^ total_bits
  let neg_two_to_l : Nat := (2 ^ 64 - 2 ^ total_bits % 2 ^ 64) % 2 ^ 64
  let large_estimator_cutoff : ℝ := two_to_l / 30
  match ms.ms_data with
  | .emptyD => .ok 0
  | .expl elems => .ok (elems.length : ℝ)
  | .comp regs =>
    let sz := regs.foldl
      (fun (p : ℝ × Nat) rval =>
        (p.1 + 1 / ((2 : ℝ) ^ rval), if rval = 0 then p.2 + 1 else p.2))
      ((0 : ℝ), (0 : Nat))
    match gamma_register_count_squared ms.ms_nregs with
    | .error e => .error e
    | .ok g =>
      let estimator := g / sz.1
      if sz.2 ≠ 0 ∧ estimator < 5 * (ms.ms_nregs : ℝ) / 2 then
        .ok ((ms.ms_nregs : ℝ) * Real.log ((ms.ms_nregs : ℝ) / (sz.2 : ℝ)))
      else if estimator ≤ large_estimator_cutoff then
        .ok estimator
      else
        .ok ((neg_two_to_l : ℝ) * Real.log (1 - estimator / two_to_l))
  | .undefinedD => .ok (-1)

-- ----------------------------------------------------------------
-- Bitstream codec (bitstream_pack / bitstream_unpack and cursors)
-- ----------------------------------------------------------------

/-- Byte-addressed memory: the byte buffers the bit-packing code writes
into and reads from.  Reads beyond the caller's buffer are modeled as 0;
the C code's 8-byte windows do read allocation slack there, but those
bytes are masked or shifted away before use, so the observable values
agree. -/
def Mem : Type := Nat → Nat

def memOf (l : List Nat) : Mem := fun i => l.getD i 0

/-- Load of the quadword at byte address `p` followed by `bswap_64`
(hll.c:247-250 and 364-368): the 8 bytes interpreted big-endian. -/
def load64be (m : Mem) (p : Nat) : Nat :=
  m p * 2 ^ 56 + m (p + 1) * 2 ^ 48 + m (p + 2) * 2 ^ 40 + m (p + 3) * 2 ^ 32 +
  m (p + 4) * 2 ^ 24 + m (p + 5) * 2 ^ 16 + m (p + 6) * 2 ^ 8 + m (p + 7)

/-- Store of `bswap_64(qw)` at byte address `p` (hll.c:374-377): the 8
bytes of `qw`, big-endian. -/
def store64be (m : Mem) (p : Nat) (qw : Nat) : Mem :=
  fun i =>
    if i = p then qw / 2 ^ 56 % 256
    else if i = p + 1 then qw / 2 ^ 48 % 256
    else if i = p + 2 then qw / 2 ^ 40 % 256
    else if i = p + 3 then qw / 2 ^ 32 % 256
    else if i = p + 4 then qw / 2 ^ 24 % 256
    else if i = p + 5 then qw / 2 ^ 16 % 256
    else if i = p + 6 then qw / 2 ^ 8 % 256
    else if i = p + 7 then qw % 256
    else m i

/-- Write cursor `bitstream_write_cursor_t` (hll.c:353); `bwc_curp` is a
byte offset into the output region. -/
structure BWC where
  bwc_nbits : Nat
  bwc_curp : Nat
  bwc_used : Nat
deriving Repr

/-- Embeds `bitstream_pack` (hll.c:361).  The while-loop normalization of
the cursor is the div/mod below.  The `% 2 ^ 64` is the uint64 store. -/
def bitstream_pack (m : Mem) (c : BWC) (val : Nat) : Mem × BWC :=
  let qw := load64be m c.bwc_curp
  let qw2 := (qw ||| (val <<< (64 - c.bwc_nbits - c.bwc_used))) % 2 ^ 64
  let m2 := store64be m c.bwc_curp qw2
  let used := c.bwc_used + c.bwc_nbits
  (m2, ⟨c.bwc_nbits, c.bwc_curp + used / 8, used % 8⟩)

/-- Read cursor `bitstream_read_cursor_t` (hll.c:232). -/
structure BRC where
  brc_nbits : Nat
  brc_mask : Nat
  brc_curp : Nat
  brc_used : Nat
deriving Repr

/-- Embeds `bitstream_unpack` (hll.c:241).  The `&&& 0xffffffff` is the
uint32 cast. -/
def bitstream_unpack (m : Mem) (c : BRC) : Nat × BRC :=
  let qw := load64be m c.brc_curp
  let qw2 := qw >>> (64 - c.brc_nbits - c.brc_used)
  let retval := (qw2 &&& 0xffffffff) &&& c.brc_mask
  let used := c.brc_used + c.brc_nbits
  (retval, ⟨c.brc_nbits, c.brc_mask, c.brc_curp + used / 8, used % 8⟩)

-- ----------------------------------------------------------------
-- Register-bank (un)packing (compressed_pack/unpack, sparse_pack/unpack)
-- ----------------------------------------------------------------

/-- Embeds `compressed_pack` (hll.c:391): zero the output region (the
writer or-accumulates), check sizes, then pack each register.  Returns
the output region's memory. -/
def compressed_pack (regs : List Nat) (i_width : Nat) (i_size : Nat) :
    Except HErr Mem :=
  let bitsz := i_width * regs.length
  if i_size * 8 < bitsz then .error .data
  else if i_size * 8 - bitsz ≥ 8 then .error .data
  else
    .ok (regs.foldl (fun (mc : Mem × BWC) r => bitstream_pack mc.1 mc.2 r)
      ((fun _ => 0), ⟨i_width, 0, 0⟩)).1

/-- Embeds `sparse_pack` (hll.c:432): pack a chunk `(ndx << width) | reg`
for every non-zero register, in index order.  The `% 2 ^ 32` is the
uint32 `buffer` variable. -/
def sparse_pack (regs : List Nat) (i_width i_nregs i_log2nregs i_nfilled : Nat)
    (i_size : Nat) : Except HErr Mem :=
  let bitsz := i_nfilled * (i_log2nregs + i_width)
  if i_size * 8 < bitsz then .error .data
  else if i_size * 8 - bitsz ≥ 8 then .error .data
  else
    .ok ((List.range i_nregs).foldl (fun (mc : Mem × BWC) ndx =>
      if regs.getD ndx 0 ≠ 0 then
        bitstream_pack mc.1 mc.2 (((ndx <<< i_width) ||| regs.getD ndx 0) % 2 ^ 32)
      else mc)
      ((fun _ => 0), ⟨i_log2nregs + i_width, 0, 0⟩)).1

/-- Embeds `compressed_unpack` (hll.c:271): size checks then one
bitstream read per register.  Returns the register list the C code writes
into the caller's array. -/
def compressed_unpack (i_width i_nregs : Nat) (body : List Nat) :
    Except HErr (List Nat) :=
  let bitsz := i_width * i_nregs
  if body.length * 8 < bitsz then .error .data
  else if body.length * 8 - bitsz ≥ 8 then .error .data
  else
    .ok ((List.range i_nregs).foldl (fun (ac : List Nat × BRC) _ =>
      let r := bitstream_unpack (memOf body) ac.2
      (ac.1 ++ [r.1], r.2))
      ([], ⟨i_width, 2 ^ i_width - 1, 0, 0⟩)).1

/-- Embeds `sparse_unpack` (hll.c:312): pad check, then for each of the
`i_nfilled` chunks split it into `(ndx, val)` and store `val` at `ndx` in
the caller's (pre-zeroed) register array `regs0`.  (When `bitsz` exceeds
the buffer the C size_t subtraction wraps and the pad check fails; the
callers guarantee `bitsz <= 8 * body.length`, where Nat subtraction
agrees.) -/
def sparse_unpack (i_width i_log2nregs i_nfilled : Nat) (regs0 : List Nat)
    (body : List Nat) : Except HErr (List Nat) :=
  let chunksz := i_log2nregs + i_width
  let bitsz := chunksz * i_nfilled
  if body.length * 8 - bitsz ≥ 8 then .error .data
  else
    let regmask := 2 ^ i_width - 1
    .ok ((List.range i_nfilled).foldl (fun (ac : List Nat × BRC) _ =>
      let r := bitstream_unpack (memOf body) ac.2
      let val := r.1 &&& regmask
      let ndx := r.1 >>> i_width
      (ac.1.set ndx val, r.2))
      (regs0, ⟨chunksz, 2 ^ chunksz - 1, 0, 0⟩)).1

-- ----------------------------------------------------------------
-- Version-1 framing (pack_header, multiset_pack, multiset_packed_size,
-- multiset_unpack)
-- ----------------------------------------------------------------

/-- Embeds `pack_header` (hll.c:1161), returning the three header bytes.
`nbits - 1` is a size_t subtraction, hence the explicit wraparound (the
C code underflows for nbits = 0); each byte assignment truncates mod 256. -/
def pack_header (vers type nbits log2nregs : Nat) (expthresh : Int)
    (sparseon : Nat) : List Nat :=
  [ ((vers <<< 4) ||| type) % 256,
    (((((nbits + (2 ^ 64 - 1)) % 2 ^ 64) <<< 5) % 2 ^ 64) ||| log2nregs) % 256,
    ((sparseon <<< 6) ||| encode_expthresh expthresh) % 256 ]

/-- Big-endian 8-byte encoding of one explicit element (hll.c:1206-1215). -/
def writeBE8 (val : Nat) : List Nat :=
  [ (val >>> 56) &&& 0xff, (val >>> 48) &&& 0xff, (val >>> 40) &&& 0xff,
    (val >>> 32) &&& 0xff, (val >>> 24) &&& 0xff, (val >>> 16) &&& 0xff,
    (val >>> 8) &&& 0xff, (val >>> 0) &&& 0xff ]

/-- Big-endian 8-byte decoding of one explicit element (hll.c:993-1001). -/
def readBE8 (l : List Nat) (ndx : Nat) : Nat :=
  (l.getD ndx 0 <<< 56) ||| (l.getD (ndx + 1) 0 <<< 48) |||
  (l.getD (ndx + 2) 0 <<< 40) ||| (l.getD (ndx + 3) 0 <<< 32) |||
  (l.getD (ndx + 4) 0 <<< 24) ||| (l.getD (ndx + 5) 0 <<< 16) |||
  (l.getD (ndx + 6) 0 <<< 8) ||| (l.getD (ndx + 7) 0 <<< 0)

/-- Embeds `multiset_pack` (hll.c:1179) with `g_output_version = 1` (the
only value `hll_set_output_version` admits) and the process-wide
`g_max_sparse` passed explicitly.  The result is the content of the
caller's `i_size`-byte output buffer.  For the register-bank cases the
body region is the bit-packed memory; `i_size - 3` is the size passed to
the body packer (the C size_t expression; all callers pass
`i_size >= 3`). -/
def multiset_pack (max_sparse : Int) (ms : Multiset_t) (i_size : Nat) :
    Except HErr (List Nat) :=
  match ms.ms_data with
  | .emptyD =>
    .ok (pack_header 1 MST_EMPTY ms.ms_nbits ms.ms_log2nregs ms.ms_expthresh
      ms.ms_sparseon)
  | .undefinedD =>
    .ok (pack_header 1 MST_UNDEFINED ms.ms_nbits ms.ms_log2nregs ms.ms_expthresh
      ms.ms_sparseon)
  | .expl elems =>
    .ok (pack_header 1 MST_EXPLICIT ms.ms_nbits ms.ms_log2nregs ms.ms_expthresh
      ms.ms_sparseon ++ elems.flatMap writeBE8)
  | .comp regs =>
    let nfilled := numfilled regs
    let sparsebitsz := nfilled * (ms.ms_log2nregs + ms.ms_nbits)
    let cmprssbitsz := ms.ms_nregs * ms.ms_nbits
    if ms.ms_sparseon ≠ 0 ∧
        ((max_sparse ≠ -1 ∧ (nfilled : Int) ≤ max_sparse) ∨
         (max_sparse = -1 ∧ sparsebitsz < cmprssbitsz)) then
      (sparse_pack regs ms.ms_nbits ms.ms_nregs ms.ms_log2nregs nfilled
          (i_size - 3)).map
        (fun mem => pack_header 1 MST_SPARSE ms.ms_nbits ms.ms_log2nregs
          ms.ms_expthresh ms.ms_sparseon ++ (List.range (i_size - 3)).map mem)
    else
      (compressed_pack regs ms.ms_nbits (i_size - 3)).map
        (fun mem => pack_header 1 MST_COMPRESSED ms.ms_nbits ms.ms_log2nregs
          ms.ms_expthresh ms.ms_sparseon ++ (List.range (i_size - 3)).map mem)

/-- Embeds `multiset_packed_size` (hll.c:1327) with `g_output_version = 1`
and explicit `g_max_sparse`; its Sparse/Dense decision mirrors
`multiset_pack`. -/
def multiset_packed_size (max_sparse : Int) (ms : Multiset_t) : Nat :=
  match ms.ms_data with
  | .emptyD => 3
  | .undefinedD => 3
  | .expl elems => 3 + 8 * elems.length
  | .comp regs =>
    let nfilled := numfilled regs
    let sparsebitsz := nfilled * (ms.ms_log2nregs + ms.ms_nbits)
    let cmprssbitsz := ms.ms_nregs * ms.ms_nbits
    if ms.ms_sparseon ≠ 0 ∧
        ((max_sparse ≠ -1 ∧ (nfilled : Int) ≤ max_sparse) ∨
         (max_sparse = -1 ∧ sparsebitsz < cmprssbitsz)) then
      3 + (sparsebitsz + 7) / 8
    else
      3 + (cmprssbitsz + 7) / 8

/-- Embeds `unpack_header` (hll.c:904): recover the parameter fields from
header bytes 1 and 2. -/
def unpack_header (l : List Nat) (d : MSData) : Multiset_t :=
  { ms_nbits := (l.getD 1 0 >>> 5) + 1
    ms_log2nregs := l.getD 1 0 &&& 0x1f
    ms_nregs := 2 ^ (l.getD 1 0 &&& 0x1f)
    ms_expthresh := decode_expthresh (l.getD 2 0 &&& 0x3f)
    ms_sparseon := (l.getD 2 0 >>> 6) &&& 0x1
    ms_data := d }

/-- Embeds `multiset_unpack` (hll.c:916).  Version must be 1; an
MST_SPARSE frame is materialized as MST_COMPRESSED.  `l` is the full
packed value (header plus body). -/
def multiset_unpack (l : List Nat) : Except HErr Multiset_t :=
  let vers := (l.getD 0 0 >>> 4) &&& 0xf
  let type := l.getD 0 0 &&& 0xf
  if vers ≠ 1 then .error .data
  else if type = MST_EMPTY then
    if l.length ≠ 3 then .error .data
    else .ok (unpack_header l .emptyD)
  else if type = MST_EXPLICIT then
    let nelem := (l.length - 3) / 8
    if (l.length - 3) % 8 ≠ 0 then .error .data
    else if l.length - 3 > MS_MAXDATA then .error .data
    else
      let elems := (List.range nelem).map (fun ii => readBE8 l (3 + 8 * ii))
      if ascending_pairs elems then .ok (unpack_header l (.expl elems))
      else .error .data
  else if type = MST_COMPRESSED then
    let param := l.getD 1 0
    let nbits := (param >>> 5) + 1
    let log2nregs := param &&& 0x1f
    let nregs := 2 ^ log2nregs
    let packedbytesz := (nbits * nregs + 7) / 8
    if l.length - 3 ≠ packedbytesz then .error .data
    else if nregs > MS_MAXDATA then .error .data
    else
      (compressed_unpack nbits nregs (l.drop 3)).map
        (fun regs => unpack_header l (.comp regs))
  else if type = MST_UNDEFINED then
    if l.length ≠ 3 then .error .data
    else .ok (unpack_header l .undefinedD)
  else if type = MST_SPARSE then
    if l.length < 3 then .error .data
    else
      let param := l.getD 1 0
      let nbits := (param >>> 5) + 1
      let log2nregs := param &&& 0x1f
      let nregs := 2 ^ log2nregs
      let bitsz := (l.length - 3) * 8
      let chunksz := log2nregs + nbits
      let nfilled := bitsz / chunksz
      if nregs > MS_MAXDATA then .error .data
      else
        (sparse_unpack nbits log2nregs nfilled (List.replicate nregs 0)
            (l.drop 3)).map
          (fun regs => unpack_header l (.comp regs))
  else .error .data

-- ----------------------------------------------------------------
-- Byte-level operators and entry points (hll_eq, hll_ne, hll_union,
-- hll_empty4)
-- ----------------------------------------------------------------

/-- The `memcmp(ap, bp, asz) == 0` test on two same-length byte strings. -/
def memcmp_eq : List Nat → List Nat → Bool
  | [], [] => true
  | x :: xrest, y :: yrest => (x == y) && memcmp_eq xrest yrest
  | _, _ => false

/-- Embeds `hll_eq` (hll.c:2567): false on length mismatch, else byte
comparison. -/
def hll_eq (a b : List Nat) : Bool :=
  if a.length ≠ b.length then false
  else memcmp_eq a b

/-- Embeds `hll_ne` (hll.c:2601): true on length mismatch, else negated
byte comparison. -/
def hll_ne (a b : List Nat) : Bool :=
  if a.length ≠ b.length then true
  else !(memcmp_eq a b)

/-- Embeds `hll_union` (hll.c:1970): unpack both arguments, check the
metadata, union, and repack at the packed size. -/
def hll_union_bytes (max_sparse : Int) (a b : List Nat) :
    Except HErr (List Nat) := do
  let msa ← multiset_unpack a
  let msb ← multiset_unpack b
  let _ ← check_metadata msa msb
  let msc ← multiset_union msa msb
  multiset_pack max_sparse msc (multiset_packed_size max_sparse msc)

/-- Embeds the multiset construction of `hll_empty4` (hll.c:2100) after
`check_modifiers` has passed. -/
def multiset_empty (log2m regwidth : Nat) (expthresh : Int) (sparseon : Nat) :
    Multiset_t :=
  { ms_nbits := regwidth
    ms_nregs := 2 ^ log2m
    ms_log2nregs := log2m
    ms_expthresh := expthresh
    ms_sparseon := sparseon
    ms_data := .emptyD }

-- ----------------------------------------------------------------
-- Well-formedness of in-memory multisets (the states reachable through
-- hll_empty/add/union/unpack)
-- ----------------------------------------------------------------

/-- Well-formed parameters: coherent register count, in-range fields, and
an expthresh of the legal shape (-1, 0 or a power of two up to 2^32). -/
def wf_params (ms : Multiset_t) : Prop :=
  ms.ms_nregs = 2 ^ ms.ms_log2nregs ∧
  ms.ms_log2nregs ≤ 31 ∧
  1 ≤ ms.ms_nbits ∧ ms.ms_nbits ≤ 8 ∧
  ms.ms_sparseon ≤ 1 ∧
  (ms.ms_expthresh = -1 ∨ ms.ms_expthresh = 0 ∨
    ∃ k, k ≤ 32 ∧ ms.ms_expthresh = (2 : Int) ^ k)

/-- Well-formed representation payload per type tag. -/
def wf_data (ms : Multiset_t) : Prop :=
  match ms.ms_data with
  | .expl es =>
    es.length * 8 ≤ MS_MAXDATA ∧ ascending_pairs es = true ∧
    ∀ e ∈ es, e < 2 ^ 64
  | .comp rs =>
    rs.length = ms.ms_nregs ∧ ms.ms_nregs ≤ MS_MAXDATA ∧
    ∀ r ∈ rs, r < 2 ^ ms.ms_nbits
  | _ => True

def wf (ms : Multiset_t) : Prop := wf_params ms ∧ wf_data ms

instance (ms : Multiset_t) : Decidable (wf_params ms) := by
  unfold wf_params
  have : Decidable (∃ k, k ≤ 32 ∧ ms.ms_expthresh = (2 : Int) ^ k) :=
    decidable_of_iff
      (∃ k, k ∈ List.range 33 ∧ ms.ms_expthresh = (2 : Int) ^ k)
      (by constructor
          · rintro ⟨k, hk, he⟩
            have := List.mem_range.mp hk
            exact ⟨k, by omega, he⟩
          · rintro ⟨k, hk, he⟩
            exact ⟨k, List.mem_range.mpr (by omega), he⟩)
  exact inferInstance

instance (ms : Multiset_t) : Decidable (wf_data ms) := by
  unfold wf_data
  cases ms.ms_data <;> exact inferInstance

instance (ms : Multiset_t) : Decidable (wf ms) := by
  unfold wf; exact inferInstance

-- ----------------------------------------------------------------
-- Proof-side characterizations (ideal bit-stream memory, canonical add
-- state) and spec-side definitions used by refinement claims
-- ----------------------------------------------------------------

/-- The memory holding the big-endian bit string of value `V` and length
`S` bits starting at byte 0, all later bits zero: byte `i` covers stream
bits `[8i, 8i+8)`. -/
def idealMem (V S : Nat) : Mem := fun i => V * 2 ^ (8 * (i + 1)) / 2 ^ S % 256

/-- The value of fields `vs`, each `w` bits wide, concatenated big-endian. -/
def concatV (w : Nat) (vs : List Nat) : Nat :=
  vs.foldl (fun acc v => acc * 2 ^ w + v) 0

/-- The register value a single token contributes at its index: the
clamped trailing-zero count of the token shifted down by log2nregs. -/
def reg_contrib (nbits log2nregs : Nat) (t : Nat) : Nat :=
  min (if t >>> log2nregs = 0 then 0 else ctzll (t >>> log2nregs) + 1)
    (2 ^ nbits - 1)

/-- Canonical state of a sketch after adding the tokens `ts` to an empty
sketch `ms0`: still empty for no tokens, an explicit sorted duplicate-free
list while it fits, otherwise the compressed fold. -/
def canonState (ms0 : Multiset_t) (ts : List Nat) : Multiset_t :=
  let expval := expthresh_value ms0.ms_expthresh ms0.ms_nbits ms0.ms_nregs
  if ts = [] then ms0
  else if expval = 0 ∨ expval < ts.dedup.length then
    compressed_explicit_union
      { ms0 with ms_data := .comp (List.replicate ms0.ms_nregs 0) } ts
  else
    { ms0 with ms_data := .expl (qsort_elements ts.dedup) }

/-- Modelled from the spec (section 4.7, Sparse vs Dense selection): write
Sparse iff sparseon and either a non-auto max_sparse admits n_filled, or
max_sparse is auto and the sparse encoding is strictly smaller. -/
def spec_write_sparse (max_sparse : Int) (sparseon : Nat)
    (n_filled log2m regwidth m : Nat) : Prop :=
  sparseon ≠ 0 ∧
  ((max_sparse ≠ -1 ∧ (n_filled : Int) ≤ max_sparse) ∨
   (max_sparse = -1 ∧ n_filled * (log2m + regwidth) < m * regwidth))

instance (max_sparse : Int) (sparseon n_filled log2m regwidth m : Nat) :
    Decidable (spec_write_sparse max_sparse sparseon n_filled log2m regwidth m) := by
  unfold spec_write_sparse; exact inferInstance

/-- The alpha constant of the claim C4 formula. -/
noncomputable def alpha_m (m : Nat) : ℝ :=
  if m = 16 then 0.673
  else if m = 32 then 0.697
  else if m = 64 then 0.709
  else 0.7213 / (1 + 1.079 / (m : ℝ))

/-- The claim C4 estimator formula for a Dense sketch, stated from the
spec text: raw estimate, linear counting below 5m/2 with zero registers,
large-range rescue above 2^L/30 with the claimed coefficient -2^L. -/
noncomputable def card_dense_spec (m log2m regwidth : Nat) (regs : List Nat) : ℝ :=
  let S : ℝ := (regs.map (fun r => ((2 : ℝ) ^ r)⁻¹)).sum
  let E : ℝ := alpha_m m * (m : ℝ) ^ 2 / S
  let z : Nat := regs.count 0
  let L : Nat := (2 ^ regwidth - 1 - 1) + log2m
  if 0 < z ∧ E < 5 * (m : ℝ) / 2 then (m : ℝ) * Real.log ((m : ℝ) / (z : ℝ))
  else if E ≤ 2 ^ L / 30 then E
  else -((2 : ℝ) ^ L) * Real.log (1 - E / 2 ^ L)

/-- The amended claim C4 estimator formula: identical to `card_dense_spec`
except in the large-range branch, whose coefficient is the value the
program actually computes, `-1 * two_to_l` wrapped in uint64 arithmetic
to 2^64 - 2^L. -/
noncomputable def card_dense_amended (m log2m regwidth : Nat)
    (regs : List Nat) : ℝ :=
  let S : ℝ := (regs.map (fun r => ((2 : ℝ) ^ r)⁻¹)).sum
  let E : ℝ := alpha_m m * (m : ℝ) ^ 2 / S
  let z : Nat := regs.count 0
  let L : Nat := (2 ^ regwidth - 1 - 1) + log2m
  if 0 < z ∧ E < 5 * (m : ℝ) / 2 then (m : ℝ) * Real.log ((m : ℝ) / (z : ℝ))
  else if E ≤ 2 ^ L / 30 then E
  else ((2 : ℝ) ^ 64 - (2 : ℝ) ^ L) * Real.log (1 - E / 2 ^ L)

-- ----------------------------------------------------------------
-- General arithmetic helper lemmas (powers of two, disjoint or, masks)
-- ----------------------------------------------------------------

theorem mul_pow_div_pow_le (a : Nat) {x y : Nat} (h : y ≤ x) :
    a * 2 ^ x / 2 ^ y = a * 2 ^ (x - y) := by
  have hx : a * 2 ^ x = a * 2 ^ (x - y) * 2 ^ y := by
    rw [mul_assoc, ← pow_add]; congr 2; omega
  rw [hx, Nat.mul_div_cancel _ (Nat.two_pow_pos y)]

theorem mul_pow_div_pow_ge (a : Nat) {x y : Nat} (h : x ≤ y) :
    a * 2 ^ x / 2 ^ y = a / 2 ^ (y - x) := by
  rw [show y = x + (y - x) by omega, pow_add, ← Nat.div_div_eq_div_mul,
    Nat.mul_div_cancel _ (Nat.two_pow_pos x), Nat.add_sub_cancel_left]

theorem add_mul_pow_div_pow (a b : Nat) {x y : Nat} (h : y ≤ x) :
    (a * 2 ^ x + b) / 2 ^ y = a * 2 ^ (x - y) + b / 2 ^ y := by
  have hx : 2 ^ y * (a * 2 ^ (x - y)) = a * 2 ^ x := by
    rw [mul_comm, mul_assoc, ← pow_add]; congr 2; omega
  rw [← hx]
  exact Nat.mul_add_div (Nat.two_pow_pos y) _ _

theorem mul_pow_mod_two_eq_zero (a : Nat) {x : Nat} (h : 0 < x) :
    a * 2 ^ x % 2 = 0 := by
  rw [show x = (x - 1) + 1 by omega, pow_succ, ← mul_assoc]
  exact Nat.mul_mod_left _ 2

theorem lor_mul_pow_eq_add (a : Nat) {b k : Nat} (hb : b < 2 ^ k) :
    (a * 2 ^ k) ||| b = a * 2 ^ k + b := by
  apply Nat.eq_of_testBit_eq
  intro i
  rw [Nat.testBit_lor]
  rcases lt_or_ge i k with h | h
  · have h1 : (a * 2 ^ k).testBit i = false := by
      rw [Nat.testBit_to_div_mod, mul_pow_div_pow_le a (le_of_lt h)]
      simp [mul_pow_mod_two_eq_zero a (x := k - i) (by omega)]
    have h2 : (a * 2 ^ k + b).testBit i = b.testBit i := by
      rw [Nat.testBit_to_div_mod, Nat.testBit_to_div_mod,
        add_mul_pow_div_pow a b (le_of_lt h)]
      obtain ⟨d, hd⟩ : ∃ d, k - i = d + 1 := ⟨k - i - 1, by omega⟩
      rw [hd, pow_succ, show a * (2 ^ d * 2) = 2 * (a * 2 ^ d) by ring,
        Nat.mul_add_mod 2 _ _]
    rw [h1, h2, Bool.false_or]
  · have h1 : b.testBit i = false :=
      Nat.testBit_eq_false_of_lt
        (lt_of_lt_of_le hb (Nat.pow_le_pow_right (by norm_num) h))
    have h2 : (a * 2 ^ k + b).testBit i = (a * 2 ^ k).testBit i := by
      rw [Nat.testBit_to_div_mod, Nat.testBit_to_div_mod]
      have hsplit : (2 : Nat) ^ i = 2 ^ k * 2 ^ (i - k) := by
        rw [← pow_add]; congr 1; omega
      rw [hsplit, ← Nat.div_div_eq_div_mul, ← Nat.div_div_eq_div_mul]
      have hl : (a * 2 ^ k + b) / 2 ^ k = a := by
        rw [mul_comm, Nat.mul_add_div (Nat.two_pow_pos k),
          Nat.div_eq_of_lt hb, add_zero]
      have hr : a * 2 ^ k / 2 ^ k = a := Nat.mul_div_cancel _ (Nat.two_pow_pos k)
      rw [hl, hr]
    rw [h1, h2, Bool.or_false]

theorem shiftLeft_lor_eq_add (a : Nat) {b k : Nat} (hb : b < 2 ^ k) :
    (a <<< k) ||| b = a * 2 ^ k + b := by
  rw [Nat.shiftLeft_eq]; exact lor_mul_pow_eq_add a hb

theorem and_mask_eq_mod (x m : Nat) : x &&& (2 ^ m - 1) = x % 2 ^ m :=
  Nat.and_pow_two_sub_one_eq_mod x m

theorem mod_pow_div_pow (x : Nat) {a b : Nat} (h : b ≤ a) :
    x % 2 ^ a / 2 ^ b = x / 2 ^ b % 2 ^ (a - b) := by
  rw [show (2 : Nat) ^ a = 2 ^ b * 2 ^ (a - b) from by rw [← pow_add]; congr 1; omega,
    Nat.mod_mul_right_div_self]

theorem mod_pow_mod_pow (x : Nat) {a b : Nat} (h : b ≤ a) :
    x % 2 ^ a % 2 ^ b = x % 2 ^ b :=
  Nat.mod_mod_of_dvd x (pow_dvd_pow 2 h)

theorem mul_pow_mod_pow (a : Nat) {x y : Nat} (h : x ≤ y) :
    a * 2 ^ x % 2 ^ y = a % 2 ^ (y - x) * 2 ^ x := by
  rw [show (2 : Nat) ^ y = 2 ^ (y - x) * 2 ^ x by rw [← pow_add]; congr 1; omega]
  exact Nat.mul_mod_mul_right _ _ _

theorem getD_set_ne {l : List Nat} {i j : Nat} (v d : Nat) (h : i ≠ j) :
    (l.set i v).getD j d = l.getD j d := by
  simp [List.getD, List.getElem?_set_ne h]

theorem getD_set_self {l : List Nat} {i : Nat} (v d : Nat) (h : i < l.length) :
    (l.set i v).getD i d = v := by
  simp [List.getD, List.getElem?_set_self, h]

theorem set_getD_self {l : List Nat} {i : Nat} (h : i < l.length) :
    l.set i (l.getD i 0) = l := by
  apply List.ext_get (by simp)
  intro n h1 h2
  rw [List.get_set]
  split
  · next heq => subst heq; simp [List.getD, List.getElem?_eq_getElem, h]
  · rfl

-- ----------------------------------------------------------------
-- Claim C10: byte-string equality and inequality operators
-- ----------------------------------------------------------------

theorem memcmp_eq_iff : ∀ a b : List Nat, memcmp_eq a b = true ↔ a = b := by
  intro a
  induction a with
  | nil => intro b; cases b <;> simp [memcmp_eq]
  | cons x xs ih =>
    intro b
    cases b with
    | nil => simp [memcmp_eq]
    | cons y ys => simp [memcmp_eq, ih ys]

/-- Claim C10: `hll_eq` returns true iff the two packed byte strings have
the same length and identical byte content (i.e. are equal as byte
strings, so behaviorally identical sketches with different framings
compare unequal), and `hll_ne` is its exact negation on the same
inputs. -/
theorem C10_eq_ne (a b : List Nat) :
    (hll_eq a b = true ↔ a = b) ∧ hll_ne a b = !hll_eq a b := by
  constructor
  · unfold hll_eq
    split
    · next h => simp only [Bool.false_eq_true, false_iff]; intro hc; exact h (by rw [hc])
    · exact memcmp_eq_iff a b
  · unfold hll_eq hll_ne
    split <;> rfl

-- ----------------------------------------------------------------
-- Claims C2 and C9: parameter compatibility checking in union
-- ----------------------------------------------------------------

/-- Claim C2: on any two decoded sketches, checked union (the
`check_metadata` then `multiset_union` sequence run by `hll_union`) raises
a Data error whenever any of the four parameter fields (regwidth,
register count, expthresh, sparseon) differs, and succeeds whenever all
four agree. -/
theorem C2_union_param_check (msa msb : Multiset_t) :
    ((msa.ms_nbits ≠ msb.ms_nbits ∨ msa.ms_nregs ≠ msb.ms_nregs ∨
      msa.ms_expthresh ≠ msb.ms_expthresh ∨ msa.ms_sparseon ≠ msb.ms_sparseon) →
      ((check_metadata msa msb).bind (fun _ => multiset_union msa msb)
        = .error .data)) ∧
    ((msa.ms_nbits = msb.ms_nbits ∧ msa.ms_nregs = msb.ms_nregs ∧
      msa.ms_expthresh = msb.ms_expthresh ∧ msa.ms_sparseon = msb.ms_sparseon) →
      ∃ msc, (check_metadata msa msb).bind (fun _ => multiset_union msa msb)
        = .ok msc) := by
  constructor
  · intro hdiff
    have hck : check_metadata msa msb = .error .data := by
      unfold check_metadata
      by_cases h1 : msa.ms_nbits = msb.ms_nbits <;>
        by_cases h2 : msa.ms_nregs = msb.ms_nregs <;>
        by_cases h3 : msa.ms_expthresh = msb.ms_expthresh <;>
        by_cases h4 : msa.ms_sparseon = msb.ms_sparseon <;>
        simp [h1, h2, h3, h4] <;> tauto
    rw [hck]; rfl
  · rintro ⟨h1, h2, h3, h4⟩
    have hck : check_metadata msa msb = .ok () := by
      unfold check_metadata; simp [h1, h2, h3, h4]
    rw [hck]
    show ∃ msc, multiset_union msa msb = .ok msc
    rcases hda : msa.ms_data with _ | _ | ea | ra <;>
      rcases hdb : msb.ms_data with _ | _ | eb | rb <;>
      simp only [multiset_union, hda, hdb] <;>
      first
        | exact ⟨_, rfl⟩
        | (rw [if_neg (fun hc => hc h2)]; exact ⟨_, rfl⟩)

theorem C2_union_param_check_witness :
    ((check_metadata (multiset_empty 11 5 (-1) 1) (multiset_empty 10 5 (-1) 1)).bind
      (fun _ => multiset_union (multiset_empty 11 5 (-1) 1) (multiset_empty 10 5 (-1) 1))
      = .error .data) ∧
    (∃ msc, (check_metadata (multiset_empty 11 5 (-1) 1) (multiset_empty 11 5 (-1) 1)).bind
      (fun _ => multiset_union (multiset_empty 11 5 (-1) 1) (multiset_empty 11 5 (-1) 1))
      = .ok msc) :=
  ⟨(C2_union_param_check (multiset_empty 11 5 (-1) 1) (multiset_empty 10 5 (-1) 1)).1
      (by right; left; decide),
   (C2_union_param_check (multiset_empty 11 5 (-1) 1) (multiset_empty 11 5 (-1) 1)).2
      (by refine ⟨rfl, rfl, rfl, rfl⟩)⟩

/-- Claim C9: on encoded inputs whose four parameter fields differ, the
two-argument `hll_union` raises a Data error no matter what the two type
tags are — in particular even when one operand is Undefined, because
`check_metadata` runs before `multiset_union`'s Undefined-absorption rule,
so no Undefined result is produced from mismatched operands. -/
theorem C9_union_mismatch_undefined (max_sparse : Int) (a b : List Nat)
    (msa msb : Multiset_t)
    (ha : multiset_unpack a = .ok msa) (hb : multiset_unpack b = .ok msb)
    (hdiff : msa.ms_nbits ≠ msb.ms_nbits ∨ msa.ms_nregs ≠ msb.ms_nregs ∨
      msa.ms_expthresh ≠ msb.ms_expthresh ∨ msa.ms_sparseon ≠ msb.ms_sparseon) :
    hll_union_bytes max_sparse a b = .error .data := by
  have hck : check_metadata msa msb = .error .data := by
    unfold check_metadata
    by_cases h1 : msa.ms_nbits = msb.ms_nbits <;>
      by_cases h2 : msa.ms_nregs = msb.ms_nregs <;>
      by_cases h3 : msa.ms_expthresh = msb.ms_expthresh <;>
      by_cases h4 : msa.ms_sparseon = msb.ms_sparseon <;>
      simp [h1, h2, h3, h4] <;> tauto
  unfold hll_union_bytes
  rw [ha, hb]
  show (check_metadata msa msb).bind _ = _
  rw [hck]
  rfl

theorem C9_union_mismatch_undefined_witness :
    hll_union_bytes (-1) [0x10, 0x8B, 0x7F] [0x11, 0x8A, 0x7F] = .error .data :=
  C9_union_mismatch_undefined (-1) [0x10, 0x8B, 0x7F] [0x11, 0x8A, 0x7F]
    { ms_nbits := 5, ms_nregs := 2048, ms_log2nregs := 11, ms_expthresh := -1,
      ms_sparseon := 1, ms_data := .undefinedD }
    { ms_nbits := 5, ms_nregs := 1024, ms_log2nregs := 10, ms_expthresh := -1,
      ms_sparseon := 1, ms_data := .emptyD }
    (by decide) (by decide) (by right; left; decide)

-- ----------------------------------------------------------------
-- Claim C3: the Dense add rule
-- ----------------------------------------------------------------

/-- Claim C3: adding a 64-bit token to a Dense sketch computes
idx = token AND (m-1), w = token >> log2m, p = 0 when w = 0 and
otherwise count-trailing-zeros(w)+1 clamped to maxreg = 2^regwidth - 1,
replaces register idx by the max of its old value and p, and leaves every
other register unchanged. -/
theorem C3_dense_add (ms : Multiset_t) (regs : List Nat) (token : Nat)
    (hdata : ms.ms_data = .comp regs)
    (hlen : regs.length = ms.ms_nregs)
    (hm : ms.ms_nregs = 2 ^ ms.ms_log2nregs)
    (htok : token < 2 ^ 64) :
    ∃ regs2,
      multiset_add ms token = { ms with ms_data := .comp regs2 } ∧
      regs2.length = regs.length ∧
      regs2.getD (token &&& (2 ^ ms.ms_log2nregs - 1)) 0 =
        max (regs.getD (token &&& (2 ^ ms.ms_log2nregs - 1)) 0)
          (if token >>> ms.ms_log2nregs = 0 then 0
           else min (ctzll (token >>> ms.ms_log2nregs) + 1) (2 ^ ms.ms_nbits - 1)) ∧
      (∀ j, j ≠ token &&& (2 ^ ms.ms_log2nregs - 1) →
        regs2.getD j 0 = regs.getD j 0) := by
  have hidx : token &&& (2 ^ ms.ms_log2nregs - 1) < regs.length := by
    rw [hlen, hm, and_mask_eq_mod]
    exact Nat.mod_lt _ (Nat.two_pow_pos _)
  have hadd : multiset_add ms token = compressed_add ms token := by
    unfold multiset_add; rw [hdata]
  -- the code's clamp agrees with the claim's min form
  have hp : (if (if token >>> ms.ms_log2nregs = 0 then 0
                 else ctzll (token >>> ms.ms_log2nregs) + 1) > 2 ^ ms.ms_nbits - 1
             then 2 ^ ms.ms_nbits - 1
             else (if token >>> ms.ms_log2nregs = 0 then 0
                   else ctzll (token >>> ms.ms_log2nregs) + 1)) =
      (if token >>> ms.ms_log2nregs = 0 then 0
       else min (ctzll (token >>> ms.ms_log2nregs) + 1) (2 ^ ms.ms_nbits - 1)) := by
    by_cases hw : token >>> ms.ms_log2nregs = 0
    · simp [hw]
    · simp only [hw, if_false]
      rw [Nat.min_def]
      split <;> split <;> omega
  refine ⟨regs.set (token &&& (2 ^ ms.ms_log2nregs - 1))
    (max (regs.getD (token &&& (2 ^ ms.ms_log2nregs - 1)) 0)
      (if token >>> ms.ms_log2nregs = 0 then 0
       else min (ctzll (token >>> ms.ms_log2nregs) + 1) (2 ^ ms.ms_nbits - 1))),
    ?_, by simp, getD_set_self _ _ hidx, fun j hj => getD_set_ne _ _ (fun hc => hj hc.symm)⟩
  have hc : compressed_add ms token =
      (if regs.getD (token &&& (ms.ms_nregs - 1)) 0 <
          (if (if token >>> ms.ms_log2nregs = 0 then 0
               else ctzll (token >>> ms.ms_log2nregs) + 1) > 2 ^ ms.ms_nbits - 1
           then 2 ^ ms.ms_nbits - 1
           else (if token >>> ms.ms_log2nregs = 0 then 0
                 else ctzll (token >>> ms.ms_log2nregs) + 1))
       then { ms with ms_data := .comp (regs.set (token &&& (ms.ms_nregs - 1))
          (if (if token >>> ms.ms_log2nregs = 0 then 0
               else ctzll (token >>> ms.ms_log2nregs) + 1) > 2 ^ ms.ms_nbits - 1
           then 2 ^ ms.ms_nbits - 1
           else (if token >>> ms.ms_log2nregs = 0 then 0
                 else ctzll (token >>> ms.ms_log2nregs) + 1))) }
       else ms) := by
    unfold compressed_add
    rw [hdata]
  rw [hadd, hc, hp, hm]
  by_cases hlt : regs.getD (token &&& (2 ^ ms.ms_log2nregs - 1)) 0 <
      (if token >>> ms.ms_log2nregs = 0 then 0
       else min (ctzll (token >>> ms.ms_log2nregs) + 1) (2 ^ ms.ms_nbits - 1))
  · rw [if_pos hlt]
    have hmax : max (regs.getD (token &&& (2 ^ ms.ms_log2nregs - 1)) 0)
        (if token >>> ms.ms_log2nregs = 0 then 0
         else min (ctzll (token >>> ms.ms_log2nregs) + 1) (2 ^ ms.ms_nbits - 1)) =
        (if token >>> ms.ms_log2nregs = 0 then 0
         else min (ctzll (token >>> ms.ms_log2nregs) + 1) (2 ^ ms.ms_nbits - 1)) := by
      omega
    rw [hmax]
  · rw [if_neg hlt]
    have hmax : max (regs.getD (token &&& (2 ^ ms.ms_log2nregs - 1)) 0)
        (if token >>> ms.ms_log2nregs = 0 then 0
         else min (ctzll (token >>> ms.ms_log2nregs) + 1) (2 ^ ms.ms_nbits - 1)) =
        regs.getD (token &&& (2 ^ ms.ms_log2nregs - 1)) 0 := by
      omega
    rw [hmax, set_getD_self hidx, ← hdata, ← hm]

theorem C3_dense_add_witness :
    ∃ regs2,
      multiset_add
        { ms_nbits := 3, ms_nregs := 4, ms_log2nregs := 2,
          ms_expthresh := 0, ms_sparseon := 0,
          ms_data := .comp [0, 0, 0, 0] } 5 =
        { ms_nbits := 3, ms_nregs := 4, ms_log2nregs := 2, ms_expthresh := 0,
          ms_sparseon := 0, ms_data := .comp regs2 } ∧
      regs2.length = 4 ∧
      regs2.getD (5 &&& (2 ^ 2 - 1)) 0 =
        max (List.getD [0, 0, 0, 0] (5 &&& (2 ^ 2 - 1)) 0)
          (if 5 >>> 2 = 0 then 0 else min (ctzll (5 >>> 2) + 1) (2 ^ 3 - 1)) ∧
      (∀ j, j ≠ 5 &&& (2 ^ 2 - 1) →
        regs2.getD j 0 = List.getD [0, 0, 0, 0] j 0) :=
  C3_dense_add _ [0, 0, 0, 0] 5 rfl rfl rfl (by decide)

-- ----------------------------------------------------------------
-- Claim C6: wire bytes of the default Empty sketch
-- ----------------------------------------------------------------

/-- Claim C6 counterexample: an Empty sketch with the default parameters
(log2m=11, regwidth=5, expthresh=-1, sparseon=1) encodes to
0x11 0x8B 0x7F — the third byte is (sparseon << 6) | 63 = 0x7F, not the
0x7E the claim states. -/
theorem C6_counterexample :
    multiset_pack (-1)
        (multiset_empty DEFAULT_LOG2M DEFAULT_REGWIDTH DEFAULT_EXPTHRESH
          DEFAULT_SPARSEON) 3 = .ok [0x11, 0x8B, 0x7F] ∧
      ([0x11, 0x8B, 0x7F] : List Nat) ≠ [0x11, 0x8B, 0x7E] := by
  constructor
  · decide
  · decide

/-- Claim C6 amended: an Empty sketch constructed with the default
parameters encodes, under output version 1, to exactly the three bytes
0x11 0x8B 0x7F with no body, and its cardinality is 0. -/
theorem C6_amended :
    multiset_pack (-1) (multiset_empty 11 5 (-1) 1)
        (multiset_packed_size (-1) (multiset_empty 11 5 (-1) 1))
      = .ok [0x11, 0x8B, 0x7F] ∧
    multiset_card (multiset_empty 11 5 (-1) 1) = .ok 0 := by
  refine ⟨by decide, ?_⟩
  show multiset_card _ = _
  unfold multiset_card multiset_empty
  norm_num

-- ----------------------------------------------------------------
-- Claim C5: Sparse/Dense selection and packed size
-- ----------------------------------------------------------------

theorem length_flatMap_writeBE8 (l : List Nat) :
    (l.flatMap writeBE8).length = 8 * l.length := by
  induction l with
  | nil => rfl
  | cons x xs ih =>
    simp only [List.flatMap_cons, List.length_append, ih, List.length_cons]
    show (writeBE8 x).length + 8 * xs.length = 8 * (xs.length + 1)
    simp [writeBE8]; omega

theorem getD_zero_pack_header_append (vers type nbits log2 : Nat) (e : Int)
    (sp : Nat) (rest : List Nat) :
    (pack_header vers type nbits log2 e sp ++ rest).getD 0 0 =
      ((vers <<< 4) ||| type) % 256 := rfl

/-- Claim C5: for every well-formed in-memory sketch, `multiset_pack` at
`multiset_packed_size` bytes succeeds and writes exactly that many bytes;
for a Dense (compressed) sketch the emitted frame is Sparse iff sparseon
is set and either a non-auto max_sparse admits n_filled or auto max_sparse
finds the sparse bit count strictly smaller, and the packed size is
3 + ceil(n_filled*(log2m+regwidth)/8) for a Sparse frame and
3 + ceil(m*regwidth/8) for a Dense frame. -/
theorem C5_pack_size_selection (max_sparse : Int) (ms : Multiset_t)
    (hwf : wf ms) :
    ∃ out,
      multiset_pack max_sparse ms (multiset_packed_size max_sparse ms) = .ok out ∧
      out.length = multiset_packed_size max_sparse ms ∧
      (∀ regs, ms.ms_data = .comp regs →
        ((out.getD 0 0 &&& 0xf = MST_SPARSE ↔
          spec_write_sparse max_sparse ms.ms_sparseon (numfilled regs)
            ms.ms_log2nregs ms.ms_nbits ms.ms_nregs) ∧
         multiset_packed_size max_sparse ms =
          (if spec_write_sparse max_sparse ms.ms_sparseon (numfilled regs)
              ms.ms_log2nregs ms.ms_nbits ms.ms_nregs
           then 3 + (numfilled regs * (ms.ms_log2nregs + ms.ms_nbits) + 7) / 8
           else 3 + (ms.ms_nregs * ms.ms_nbits + 7) / 8))) := by
  rcases hd : ms.ms_data with _ | _ | elems | regs
  · refine ⟨pack_header 1 MST_UNDEFINED ms.ms_nbits ms.ms_log2nregs
      ms.ms_expthresh ms.ms_sparseon, ?_, ?_, ?_⟩
    · simp [multiset_pack, hd]
    · simp [multiset_packed_size, hd, pack_header]
    · intro regs2 hregs2
      exact absurd hregs2 (by simp [hd])
  · refine ⟨pack_header 1 MST_EMPTY ms.ms_nbits ms.ms_log2nregs
      ms.ms_expthresh ms.ms_sparseon, ?_, ?_, ?_⟩
    · simp [multiset_pack, hd]
    · simp [multiset_packed_size, hd, pack_header]
    · intro regs2 hregs2
      exact absurd hregs2 (by simp [hd])
  · refine ⟨pack_header 1 MST_EXPLICIT ms.ms_nbits ms.ms_log2nregs
      ms.ms_expthresh ms.ms_sparseon ++ elems.flatMap writeBE8, ?_, ?_, ?_⟩
    · simp [multiset_pack, hd]
    · simp only [multiset_packed_size, hd, List.length_append,
        length_flatMap_writeBE8]
      show 3 + 8 * elems.length = 3 + 8 * elems.length
      rfl
    · intro regs2 hregs2
      exact absurd hregs2 (by simp [hd])
  · have hlen : regs.length = ms.ms_nregs := by
      rcases hwf with ⟨_, hwd⟩
      unfold wf_data at hwd
      rw [hd] at hwd
      exact hwd.1
    by_cases hcond : ms.ms_sparseon ≠ 0 ∧
        ((max_sparse ≠ -1 ∧ ((numfilled regs : Int)) ≤ max_sparse) ∨
         (max_sparse = -1 ∧
          numfilled regs * (ms.ms_log2nregs + ms.ms_nbits) <
            ms.ms_nregs * ms.ms_nbits))
    · -- sparse frame is emitted
      have hsz : multiset_packed_size max_sparse ms =
          3 + (numfilled regs * (ms.ms_log2nregs + ms.ms_nbits) + 7) / 8 := by
        simp only [multiset_packed_size, hd, if_pos hcond]
      have hok : sparse_pack regs ms.ms_nbits ms.ms_nregs ms.ms_log2nregs
          (numfilled regs) (multiset_packed_size max_sparse ms - 3) =
          .ok ((List.range ms.ms_nregs).foldl (fun (mc : Mem × BWC) ndx =>
            if regs.getD ndx 0 ≠ 0 then
              bitstream_pack mc.1 mc.2
                (((ndx <<< ms.ms_nbits) ||| regs.getD ndx 0) % 2 ^ 32)
            else mc)
            ((fun _ => 0), ⟨ms.ms_log2nregs + ms.ms_nbits, 0, 0⟩)).1 := by
        unfold sparse_pack
        rw [hsz]
        rw [if_neg (by omega), if_neg (by omega)]
      refine ⟨pack_header 1 MST_SPARSE ms.ms_nbits ms.ms_log2nregs
          ms.ms_expthresh ms.ms_sparseon ++
          (List.range (multiset_packed_size max_sparse ms - 3)).map
            ((List.range ms.ms_nregs).foldl (fun (mc : Mem × BWC) ndx =>
              if regs.getD ndx 0 ≠ 0 then
                bitstream_pack mc.1 mc.2
                  (((ndx <<< ms.ms_nbits) ||| regs.getD ndx 0) % 2 ^ 32)
              else mc)
              ((fun _ => 0), ⟨ms.ms_log2nregs + ms.ms_nbits, 0, 0⟩)).1, ?_, ?_, ?_⟩
      · simp only [multiset_pack, hd, if_pos hcond, hok, Except.map]
      · simp only [List.length_append, List.length_map, List.length_range,
          pack_header, List.length_cons, List.length_nil]
        rw [hsz]
        omega
      · intro regs2 hregs2
        obtain rfl : regs = regs2 := by injection hregs2
        constructor
        · rw [getD_zero_pack_header_append]
          constructor
          · intro _; exact hcond
          · intro _; decide
        · rw [if_pos (show spec_write_sparse max_sparse ms.ms_sparseon
            (numfilled regs) ms.ms_log2nregs ms.ms_nbits ms.ms_nregs from hcond), hsz]
    · -- dense frame is emitted
      have hsz : multiset_packed_size max_sparse ms =
          3 + (ms.ms_nregs * ms.ms_nbits + 7) / 8 := by
        simp only [multiset_packed_size, hd, if_neg hcond]
      have hok : compressed_pack regs ms.ms_nbits
          (multiset_packed_size max_sparse ms - 3) =
          .ok (regs.foldl (fun (mc : Mem × BWC) r => bitstream_pack mc.1 mc.2 r)
            ((fun _ => 0), ⟨ms.ms_nbits, 0, 0⟩)).1 := by
        unfold compressed_pack
        rw [hsz, hlen]
        rw [if_neg (by rw [mul_comm ms.ms_nbits ms.ms_nregs]; omega),
          if_neg (by rw [mul_comm ms.ms_nbits ms.ms_nregs]; omega)]
      refine ⟨pack_header 1 MST_COMPRESSED ms.ms_nbits ms.ms_log2nregs
          ms.ms_expthresh ms.ms_sparseon ++
          (List.range (multiset_packed_size max_sparse ms - 3)).map
            (regs.foldl (fun (mc : Mem × BWC) r => bitstream_pack mc.1 mc.2 r)
              ((fun _ => 0), ⟨ms.ms_nbits, 0, 0⟩)).1, ?_, ?_, ?_⟩
      · simp only [multiset_pack, hd, if_neg hcond, hok, Except.map]
      · simp only [List.length_append, List.length_map, List.length_range,
          pack_header, List.length_cons, List.length_nil]
        rw [hsz]
        omega
      · intro regs2 hregs2
        obtain rfl : regs = regs2 := by injection hregs2
        constructor
        · rw [getD_zero_pack_header_append]
          constructor
          · intro hc
            exact absurd hc (by decide)
          · intro hc; exact absurd hc hcond
        · rw [if_neg (fun hc : spec_write_sparse max_sparse ms.ms_sparseon
            (numfilled regs) ms.ms_log2nregs ms.ms_nbits ms.ms_nregs => hcond hc), hsz]

theorem C5_pack_size_selection_witness :
    ∃ out,
      multiset_pack (-1)
          { ms_nbits := 5, ms_nregs := 8, ms_log2nregs := 3, ms_expthresh := 0,
            ms_sparseon := 1, ms_data := .comp [0, 3, 0, 0, 7, 0, 0, 1] }
          (multiset_packed_size (-1)
            { ms_nbits := 5, ms_nregs := 8, ms_log2nregs := 3, ms_expthresh := 0,
              ms_sparseon := 1, ms_data := .comp [0, 3, 0, 0, 7, 0, 0, 1] })
        = .ok out ∧
      out.length = multiset_packed_size (-1)
          { ms_nbits := 5, ms_nregs := 8, ms_log2nregs := 3, ms_expthresh := 0,
            ms_sparseon := 1, ms_data := .comp [0, 3, 0, 0, 7, 0, 0, 1] } ∧
      (∀ regs, MSData.comp [0, 3, 0, 0, 7, 0, 0, 1] = .comp regs →
        ((out.getD 0 0 &&& 0xf = MST_SPARSE ↔
          spec_write_sparse (-1) 1 (numfilled regs) 3 5 8) ∧
         multiset_packed_size (-1)
            { ms_nbits := 5, ms_nregs := 8, ms_log2nregs := 3, ms_expthresh := 0,
              ms_sparseon := 1, ms_data := .comp [0, 3, 0, 0, 7, 0, 0, 1] } =
          (if spec_write_sparse (-1) 1 (numfilled regs) 3 5 8
           then 3 + (numfilled regs * (3 + 5) + 7) / 8
           else 3 + (8 * 5 + 7) / 8))) :=
  C5_pack_size_selection (-1)
    { ms_nbits := 5, ms_nregs := 8, ms_log2nregs := 3, ms_expthresh := 0,
      ms_sparseon := 1, ms_data := .comp [0, 3, 0, 0, 7, 0, 0, 1] }
    (by constructor
        · exact ⟨by decide, by decide, by decide, by decide, by decide,
            Or.inr (Or.inl rfl)⟩
        · show wf_data _
          unfold wf_data
          simp only
          exact ⟨by decide, by decide, by decide⟩)

-- ----------------------------------------------------------------
-- Case characterizations of multiset_add and field preservation
-- ----------------------------------------------------------------

theorem multiset_add_empty (o : Multiset_t) (h : o.ms_data = .emptyD) (x : Nat) :
    multiset_add o x =
      (if expthresh_value o.ms_expthresh o.ms_nbits o.ms_nregs = 0
       then compressed_add (explicit_to_compressed { o with ms_data := .expl [] }) x
       else { o with ms_data := .expl [x] }) := by
  unfold multiset_add; rw [h]

theorem multiset_add_expl (o : Multiset_t) (es : List Nat)
    (h : o.ms_data = .expl es) (x : Nat) :
    multiset_add o x =
      (if bsearch_found es x then o
       else if es.length = expthresh_value o.ms_expthresh o.ms_nbits o.ms_nregs
       then compressed_add (explicit_to_compressed o) x
       else { o with ms_data := .expl (qsort_elements (es ++ [x])) }) := by
  unfold multiset_add; rw [h]

theorem multiset_add_comp (o : Multiset_t) (rs : List Nat)
    (h : o.ms_data = .comp rs) (x : Nat) :
    multiset_add o x = compressed_add o x := by
  unfold multiset_add; rw [h]

theorem multiset_add_undef (o : Multiset_t) (h : o.ms_data = .undefinedD) (x : Nat) :
    multiset_add o x = o := by
  unfold multiset_add; rw [h]

theorem compressed_add_fields (o : Multiset_t) (x : Nat) :
    (compressed_add o x).ms_nbits = o.ms_nbits ∧
    (compressed_add o x).ms_nregs = o.ms_nregs ∧
    (compressed_add o x).ms_log2nregs = o.ms_log2nregs ∧
    (compressed_add o x).ms_expthresh = o.ms_expthresh ∧
    (compressed_add o x).ms_sparseon = o.ms_sparseon := by
  unfold compressed_add
  rcases h : o.ms_data with _ | _ | es | rs <;> simp only [h] <;>
    (try split_ifs) <;> simp

theorem compressed_add_comp (o : Multiset_t) (x : Nat) (rs : List Nat)
    (h : o.ms_data = .comp rs) :
    ∃ rs2, (compressed_add o x).ms_data = .comp rs2 := by
  unfold compressed_add
  simp only [h]
  split_ifs <;> first | exact ⟨_, rfl⟩ | exact ⟨rs, h⟩

theorem compressed_explicit_union_fields (elems : List Nat) : ∀ (o : Multiset_t),
    (compressed_explicit_union o elems).ms_nbits = o.ms_nbits ∧
    (compressed_explicit_union o elems).ms_nregs = o.ms_nregs ∧
    (compressed_explicit_union o elems).ms_log2nregs = o.ms_log2nregs ∧
    (compressed_explicit_union o elems).ms_expthresh = o.ms_expthresh ∧
    (compressed_explicit_union o elems).ms_sparseon = o.ms_sparseon ∧
    (∀ rs, o.ms_data = .comp rs →
      ∃ rs2, (compressed_explicit_union o elems).ms_data = .comp rs2) := by
  induction elems with
  | nil =>
    intro o
    exact ⟨rfl, rfl, rfl, rfl, rfl, fun rs h => ⟨rs, h⟩⟩
  | cons e es ih =>
    intro o
    have hstep : compressed_explicit_union o (e :: es) =
        compressed_explicit_union (compressed_add o e) es := rfl
    obtain ⟨h1, h2, h3, h4, h5⟩ := compressed_add_fields o e
    obtain ⟨g1, g2, g3, g4, g5, g6⟩ := ih (compressed_add o e)
    rw [hstep]
    refine ⟨by rw [g1, h1], by rw [g2, h2], by rw [g3, h3], by rw [g4, h4],
      by rw [g5, h5], ?_⟩
    intro rs h
    obtain ⟨rs2, hrs2⟩ := compressed_add_comp o e rs h
    exact g6 rs2 hrs2

theorem explicit_to_compressed_fields (o : Multiset_t) :
    (explicit_to_compressed o).ms_nbits = o.ms_nbits ∧
    (explicit_to_compressed o).ms_nregs = o.ms_nregs ∧
    (explicit_to_compressed o).ms_log2nregs = o.ms_log2nregs ∧
    (explicit_to_compressed o).ms_expthresh = o.ms_expthresh ∧
    (explicit_to_compressed o).ms_sparseon = o.ms_sparseon ∧
    (∃ rs2, (explicit_to_compressed o).ms_data = .comp rs2) := by
  unfold explicit_to_compressed
  obtain ⟨h1, h2, h3, h4, h5, h6⟩ :=
    compressed_explicit_union_fields
      (match o.ms_data with
       | .expl es => es
       | _ => [])
      { o with ms_data := .comp (List.replicate o.ms_nregs 0) }
  exact ⟨h1, h2, h3, h4, h5, h6 _ rfl⟩

theorem multiset_add_fields (o : Multiset_t) (x : Nat) :
    (multiset_add o x).ms_nbits = o.ms_nbits ∧
    (multiset_add o x).ms_nregs = o.ms_nregs ∧
    (multiset_add o x).ms_log2nregs = o.ms_log2nregs ∧
    (multiset_add o x).ms_expthresh = o.ms_expthresh ∧
    (multiset_add o x).ms_sparseon = o.ms_sparseon := by
  rcases h : o.ms_data with _ | _ | es | rs
  · rw [multiset_add_undef o h x]
    exact ⟨rfl, rfl, rfl, rfl, rfl⟩
  · rw [multiset_add_empty o h x]
    split
    · obtain ⟨c1, c2, c3, c4, c5⟩ :=
        compressed_add_fields (explicit_to_compressed { o with ms_data := .expl [] }) x
      obtain ⟨e1, e2, e3, e4, e5, _⟩ :=
        explicit_to_compressed_fields { o with ms_data := .expl [] }
      exact ⟨by rw [c1, e1], by rw [c2, e2], by rw [c3, e3], by rw [c4, e4],
        by rw [c5, e5]⟩
    · exact ⟨rfl, rfl, rfl, rfl, rfl⟩
  · rw [multiset_add_expl o es h x]
    split
    · exact ⟨rfl, rfl, rfl, rfl, rfl⟩
    · split
      · obtain ⟨c1, c2, c3, c4, c5⟩ :=
          compressed_add_fields (explicit_to_compressed o) x
        obtain ⟨e1, e2, e3, e4, e5, _⟩ := explicit_to_compressed_fields o
        exact ⟨by rw [c1, e1], by rw [c2, e2], by rw [c3, e3], by rw [c4, e4],
          by rw [c5, e5]⟩
      · exact ⟨rfl, rfl, rfl, rfl, rfl⟩
  · rw [multiset_add_comp o rs h x]
    exact compressed_add_fields o x

theorem qsort_elements_length (l : List Nat) :
    (qsort_elements l).length = l.length :=
  (List.perm_insertionSort sigLe l).length_eq

-- ----------------------------------------------------------------
-- Claim C8: Explicit length versus the effective explicit capacity
-- ----------------------------------------------------------------

/-- Claim C8 counterexample: decoding a version-1 Explicit frame enforces
only ordering and size, not the effective explicit capacity.  The frame
below declares log2m=0, regwidth=1, expthresh=-1, sparseon=1 (capacity
floor(((1*1+7)/8)/8) = 0) yet decodes to an Explicit sketch holding one
token, exceeding the capacity. -/
theorem C8_counterexample :
    multiset_unpack [0x12, 0x00, 0x7F, 0, 0, 0, 0, 0, 0, 0, 1] =
      .ok { ms_nbits := 1, ms_nregs := 1, ms_log2nregs := 0, ms_expthresh := -1,
            ms_sparseon := 1, ms_data := .expl [1] } ∧
    ¬(([1] : List Nat).length ≤ expthresh_value (-1) 1 1) := by
  constructor
  · decide
  · decide

/-- Claim C8 amended: every Explicit sketch built by add operations from a
fresh Empty sketch has a token-list length at most the effective explicit
capacity; Explicit sketches obtained by decoding a version-1 Explicit
frame are validated only for ordering and total size and can exceed the
capacity. -/
theorem C8_add_capacity (log2m regwidth : Nat) (expthresh : Int) (sparseon : Nat)
    (ts : List Nat) :
    ∀ es, (ts.foldl multiset_add
        (multiset_empty log2m regwidth expthresh sparseon)).ms_data = .expl es →
      es.length ≤ expthresh_value expthresh regwidth (2 ^ log2m) := by
  suffices h :
      (ts.foldl multiset_add
        (multiset_empty log2m regwidth expthresh sparseon)).ms_nbits = regwidth ∧
      (ts.foldl multiset_add
        (multiset_empty log2m regwidth expthresh sparseon)).ms_nregs = 2 ^ log2m ∧
      (ts.foldl multiset_add
        (multiset_empty log2m regwidth expthresh sparseon)).ms_expthresh = expthresh ∧
      (∀ es, (ts.foldl multiset_add
          (multiset_empty log2m regwidth expthresh sparseon)).ms_data = .expl es →
        es.length ≤ expthresh_value expthresh regwidth (2 ^ log2m)) by
    exact h.2.2.2
  induction ts using List.reverseRecOn with
  | nil =>
    refine ⟨rfl, rfl, rfl, ?_⟩
    intro es hes
    exact absurd hes (by simp [multiset_empty])
  | append_singleton ts x ih =>
    simp only [List.foldl_append, List.foldl_cons, List.foldl_nil] at *
    obtain ⟨h1, h2, h3, hbound⟩ := ih
    obtain ⟨f1, f2, f3, f4, f5⟩ :=
      multiset_add_fields
        (ts.foldl multiset_add (multiset_empty log2m regwidth expthresh sparseon)) x
    refine ⟨by rw [f1, h1], by rw [f2, h2], by rw [f4, h3], ?_⟩
    intro es hes
    rcases hd : (ts.foldl multiset_add
        (multiset_empty log2m regwidth expthresh sparseon)).ms_data
      with _ | _ | es0 | rs
    · rw [multiset_add_undef _ hd x, hd] at hes
      cases hes
    · rw [multiset_add_empty _ hd x] at hes
      by_cases hz : expthresh_value
          (ts.foldl multiset_add
            (multiset_empty log2m regwidth expthresh sparseon)).ms_expthresh
          (ts.foldl multiset_add
            (multiset_empty log2m regwidth expthresh sparseon)).ms_nbits
          (ts.foldl multiset_add
            (multiset_empty log2m regwidth expthresh sparseon)).ms_nregs = 0
      · rw [if_pos hz] at hes
        obtain ⟨rs0, hrs0⟩ :=
          (explicit_to_compressed_fields _).2.2.2.2.2
        obtain ⟨rs1, hrs1⟩ := compressed_add_comp _ x rs0 hrs0
        rw [hrs1] at hes
        cases hes
      · rw [if_neg hz] at hes
        have hxes : [x] = es := by injection hes
        rw [h1, h2, h3] at hz
        rw [← hxes]
        show 1 ≤ expthresh_value expthresh regwidth (2 ^ log2m)
        omega
    · rw [multiset_add_expl _ es0 hd x] at hes
      by_cases hf : bsearch_found es0 x
      · rw [if_pos hf, hd] at hes
        have : es0 = es := by injection hes
        exact this ▸ hbound es0 hd
      · rw [if_neg hf] at hes
        by_cases hful : es0.length = expthresh_value
            (ts.foldl multiset_add
              (multiset_empty log2m regwidth expthresh sparseon)).ms_expthresh
            (ts.foldl multiset_add
              (multiset_empty log2m regwidth expthresh sparseon)).ms_nbits
            (ts.foldl multiset_add
              (multiset_empty log2m regwidth expthresh sparseon)).ms_nregs
        · rw [if_pos hful] at hes
          obtain ⟨rs0, hrs0⟩ := (explicit_to_compressed_fields _).2.2.2.2.2
          obtain ⟨rs1, hrs1⟩ := compressed_add_comp _ x rs0 hrs0
          rw [hrs1] at hes
          cases hes
        · rw [if_neg hful] at hes
          have hqes : qsort_elements (es0 ++ [x]) = es := by injection hes
          have hlen : es.length = es0.length + 1 := by
            rw [← hqes, qsort_elements_length, List.length_append]
            rfl
          have hb : es0.length ≤ expthresh_value expthresh regwidth (2 ^ log2m) :=
            hbound es0 hd
          rw [h1, h2, h3] at hful
          omega
    · rw [multiset_add_comp _ rs hd x] at hes
      obtain ⟨rs2, hrs2⟩ := compressed_add_comp _ x rs hd
      rw [hrs2] at hes
      cases hes

theorem C8_add_capacity_witness :
    ([1, 2] : List Nat).length ≤ expthresh_value (-1) 5 (2 ^ 11) :=
  C8_add_capacity 11 5 (-1) 1 [1, 2] [1, 2] (by decide)

-- ----------------------------------------------------------------
-- Claim C4: the cardinality estimator on Dense sketches
-- ----------------------------------------------------------------

theorem card_fold (regs : List Nat) : ∀ (a : ℝ) (b : Nat),
    regs.foldl (fun (p : ℝ × Nat) rval =>
      (p.1 + 1 / ((2 : ℝ) ^ rval), if rval = 0 then p.2 + 1 else p.2)) (a, b) =
    (a + (regs.map (fun r => ((2 : ℝ) ^ r)⁻¹)).sum, b + regs.count 0) := by
  induction regs with
  | nil => intro a b; simp
  | cons r rest ih =>
    intro a b
    rw [List.foldl_cons, ih, Prod.mk.injEq]
    constructor
    · show a + 1 / 2 ^ r + (List.map (fun r => ((2:ℝ) ^ r)⁻¹) rest).sum =
        a + (List.map (fun r => ((2:ℝ) ^ r)⁻¹) (r :: rest)).sum
      simp [one_div]
      ring
    · show (if r = 0 then b + 1 else b) + rest.count 0 = b + (r :: rest).count 0
      rw [List.count_cons]
      by_cases hr : r = 0
      · simp [hr]
        omega
      · have h0r : ¬((0 : Nat) = r) := fun hc => hr hc.symm
        simp [hr, h0r]

theorem gamma_eq_alpha (m : Nat) (h : 8 < m) :
    gamma_register_count_squared m = .ok (alpha_m m * (m : ℝ) ^ 2) := by
  unfold gamma_register_count_squared alpha_m
  rw [if_neg (by omega)]
  by_cases h16 : m = 16
  · rw [if_pos h16, if_pos h16, pow_two]; ring_nf
  · rw [if_neg h16, if_neg h16]
    by_cases h32 : m = 32
    · rw [if_pos h32, if_pos h32, pow_two]; ring_nf
    · rw [if_neg h32, if_neg h32]
      by_cases h64 : m = 64
      · rw [if_pos h64, if_pos h64, pow_two]; ring_nf
      · rw [if_neg h64, if_neg h64, pow_two]; ring_nf

/-- Evaluation of `multiset_card` on a Dense sketch: Data error iff the
register count m is at most 8, and otherwise the value of
`card_dense_amended`.  The hypotheses r <= 62, regwidth in [1,8] and
L < 64 delimit the range in which the C shifts `1L << rval` and
`1ULL << total_bits` are defined.  Shared by the C4 counterexample and
the amended C4 theorem. -/
theorem multiset_card_dense_eval (ms : Multiset_t) (regs : List Nat)
    (hdata : ms.ms_data = .comp regs)
    (hlen : regs.length = ms.ms_nregs)
    (hr : ∀ r ∈ regs, r ≤ 62)
    (hnb : 1 ≤ ms.ms_nbits) (hnb8 : ms.ms_nbits ≤ 8)
    (hL : (2 ^ ms.ms_nbits - 1 - 1) + ms.ms_log2nregs < 64) :
    (ms.ms_nregs ≤ 8 → multiset_card ms = .error .data) ∧
    (8 < ms.ms_nregs → multiset_card ms =
      .ok (card_dense_amended ms.ms_nregs ms.ms_log2nregs ms.ms_nbits regs)) := by
  have hpw : (2 ^ ms.ms_nbits - 1 + (2 ^ 64 - 1)) % 2 ^ 64 =
      2 ^ ms.ms_nbits - 1 - 1 := by
    have h1 : (2 : Nat) ^ ms.ms_nbits ≤ 256 :=
      le_trans (Nat.pow_le_pow_right (by norm_num) hnb8) (by norm_num)
    have h2 : (2 : Nat) ≤ 2 ^ ms.ms_nbits := by
      calc (2 : Nat) = 2 ^ 1 := by norm_num
      _ ≤ 2 ^ ms.ms_nbits := Nat.pow_le_pow_right (by norm_num) hnb
    generalize hgen : (2 : Nat) ^ ms.ms_nbits = P at h1 h2 ⊢
    omega
  constructor
  · intro hm8
    have hg : gamma_register_count_squared ms.ms_nregs = .error .data := by
      unfold gamma_register_count_squared
      rw [if_pos hm8]
    unfold multiset_card
    simp only [hdata, card_fold, hg]
  · intro hm8
    have hg := gamma_eq_alpha ms.ms_nregs hm8
    unfold multiset_card
    simp only [hdata, card_fold, hg, zero_add]
    unfold card_dense_amended
    rw [hpw]
    by_cases hc1 : regs.count 0 ≠ 0 ∧
        alpha_m ms.ms_nregs * (ms.ms_nregs : ℝ) ^ 2 /
          (regs.map (fun r => ((2 : ℝ) ^ r)⁻¹)).sum < 5 * (ms.ms_nregs : ℝ) / 2
    · have hcS : 0 < regs.count 0 ∧
          alpha_m ms.ms_nregs * (ms.ms_nregs : ℝ) ^ 2 /
            (regs.map (fun r => ((2 : ℝ) ^ r)⁻¹)).sum < 5 * (ms.ms_nregs : ℝ) / 2 :=
        ⟨Nat.pos_of_ne_zero hc1.1, hc1.2⟩
      rw [if_pos hc1, if_pos hcS]
    · have hcS : ¬(0 < regs.count 0 ∧
          alpha_m ms.ms_nregs * (ms.ms_nregs : ℝ) ^ 2 /
            (regs.map (fun r => ((2 : ℝ) ^ r)⁻¹)).sum < 5 * (ms.ms_nregs : ℝ) / 2) :=
        fun hc => hc1 ⟨Nat.pos_iff_ne_zero.mp hc.1, hc.2⟩
      rw [if_neg hc1, if_neg hcS]
      split_ifs
      · rfl
      · have hLlt : (2 : Nat) ^ (2 ^ ms.ms_nbits - 1 - 1 + ms.ms_log2nregs) < 2 ^ 64 :=
          Nat.pow_lt_pow_right (by norm_num) hL
        have h1p : (1 : Nat) ≤ 2 ^ (2 ^ ms.ms_nbits - 1 - 1 + ms.ms_log2nregs) :=
          Nat.one_le_two_pow
        have hnegNat : (2 ^ 64 -
            2 ^ (2 ^ ms.ms_nbits - 1 - 1 + ms.ms_log2nregs) % 2 ^ 64) % 2 ^ 64 =
            2 ^ 64 - 2 ^ (2 ^ ms.ms_nbits - 1 - 1 + ms.ms_log2nregs) := by
          generalize (2 : Nat) ^ (2 ^ ms.ms_nbits - 1 - 1 + ms.ms_log2nregs) = Q
            at hLlt h1p
          omega
        rw [hnegNat, Except.ok.injEq, Nat.cast_sub hLlt.le]
        push_cast
        ring_nf

/-- Claim C4 counterexample: the large-range rescue branch is reachable
inside the theorem's defined range (m = 16, regwidth = 2, every register
2: E = 43.072 > 2^6/30 with no zero registers), and there the program
multiplies the int -1 by the uint64 two_to_l, so the coefficient wraps to
2^64 - 2^6 instead of the claimed -2^6: the returned value differs from
the claim's formula `card_dense_spec`. -/
theorem C4_counterexample :
    multiset_card
        { ms_nbits := 2, ms_nregs := 16, ms_log2nregs := 4, ms_expthresh := 0,
          ms_sparseon := 0, ms_data := .comp (List.replicate 16 2) } =
      .ok (card_dense_amended 16 4 2 (List.replicate 16 2)) ∧
    multiset_card
        { ms_nbits := 2, ms_nregs := 16, ms_log2nregs := 4, ms_expthresh := 0,
          ms_sparseon := 0, ms_data := .comp (List.replicate 16 2) } ≠
      .ok (card_dense_spec 16 4 2 (List.replicate 16 2)) := by
  have hprog := (multiset_card_dense_eval
    { ms_nbits := 2, ms_nregs := 16, ms_log2nregs := 4, ms_expthresh := 0,
      ms_sparseon := 0, ms_data := .comp (List.replicate 16 2) }
    (List.replicate 16 2) rfl (by decide) (by decide) (by decide) (by decide)
    (by decide)).2 (by decide)
  refine ⟨hprog, ?_⟩
  rw [hprog]
  intro hEq
  rw [Except.ok.injEq] at hEq
  have hS : ((List.replicate 16 (2 : Nat)).map (fun r => ((2 : ℝ) ^ r)⁻¹)).sum =
      4 := by
    rw [List.map_replicate, List.sum_replicate]
    norm_num
  have hz : (List.replicate 16 (2 : Nat)).count 0 = 0 := by decide
  have halpha : alpha_m 16 = 673 / 1000 := by
    unfold alpha_m
    norm_num
  have hamd : card_dense_amended 16 4 2 (List.replicate 16 2) =
      ((2 : ℝ) ^ 64 - 2 ^ 6) * Real.log (1 - 673 / 1000 * 16 ^ 2 / 4 / 2 ^ 6) := by
    simp only [card_dense_amended]
    rw [hS, hz, halpha, if_neg (by norm_num), if_neg (by norm_num)]
    norm_num
  have hspec : card_dense_spec 16 4 2 (List.replicate 16 2) =
      -((2 : ℝ) ^ 6) * Real.log (1 - 673 / 1000 * 16 ^ 2 / 4 / 2 ^ 6) := by
    simp only [card_dense_spec]
    rw [hS, hz, halpha, if_neg (by norm_num), if_neg (by norm_num)]
    norm_num
  rw [hamd, hspec] at hEq
  have hXneg : Real.log (1 - 673 / 1000 * 16 ^ 2 / 4 / 2 ^ 6) < 0 :=
    Real.log_neg (by norm_num) (by norm_num)
  have hcancel := mul_right_cancel₀ (ne_of_lt hXneg) hEq
  norm_num at hcancel

/-- Claim C4 (amended): on a Dense sketch the estimator raises a Data
error iff the register count m is at most 8; otherwise, with alpha(m) as
claimed, raw estimate E = alpha(m)*m^2 / sum of 2^(-r[i]), z the number
of zero registers and L = (2^regwidth - 1 - 1) + log2m, it returns
m*ln(m/z) iff z > 0 and E < 5m/2, else E iff E <= 2^L/30, else
(2^64 - 2^L) * ln(1 - E/2^L): in the rescue branch the C multiplies the
int -1 by the uint64 two_to_l, so the coefficient is the wrapped
2^64 - 2^L, not the -2^L of the claim.  The hypotheses r <= 62, regwidth
in [1,8] and L < 64 delimit the range in which the C shifts `1L << rval`
and `1ULL << total_bits` are defined. -/
theorem C4_card_estimator (ms : Multiset_t) (regs : List Nat)
    (hdata : ms.ms_data = .comp regs)
    (hlen : regs.length = ms.ms_nregs)
    (hr : ∀ r ∈ regs, r ≤ 62)
    (hnb : 1 ≤ ms.ms_nbits) (hnb8 : ms.ms_nbits ≤ 8)
    (hL : (2 ^ ms.ms_nbits - 1 - 1) + ms.ms_log2nregs < 64) :
    (ms.ms_nregs ≤ 8 → multiset_card ms = .error .data) ∧
    (8 < ms.ms_nregs → multiset_card ms =
      .ok (card_dense_amended ms.ms_nregs ms.ms_log2nregs ms.ms_nbits regs)) :=
  multiset_card_dense_eval ms regs hdata hlen hr hnb hnb8 hL

/-- Concrete instantiation of the amended C4 on a 16-register Dense
sketch. -/
theorem C4_card_estimator_witness :
    multiset_card
      { ms_nbits := 5, ms_nregs := 16, ms_log2nregs := 4, ms_expthresh := 0,
        ms_sparseon := 0,
        ms_data := .comp [0, 1, 2, 3, 0, 1, 2, 3, 0, 1, 2, 3, 0, 1, 2, 3] } =
    .ok (card_dense_amended 16 4 5 [0, 1, 2, 3, 0, 1, 2, 3, 0, 1, 2, 3, 0, 1, 2, 3]) :=
  (C4_card_estimator
    { ms_nbits := 5, ms_nregs := 16, ms_log2nregs := 4, ms_expthresh := 0,
      ms_sparseon := 0,
      ms_data := .comp [0, 1, 2, 3, 0, 1, 2, 3, 0, 1, 2, 3, 0, 1, 2, 3] }
    [0, 1, 2, 3, 0, 1, 2, 3, 0, 1, 2, 3, 0, 1, 2, 3]
    rfl (by decide) (by decide) (by decide) (by decide) (by decide)).2 (by decide)

-- ----------------------------------------------------------------
-- Signed-comparator toolkit (towards claim C7)
-- ----------------------------------------------------------------

theorem sigKey_inj {a b : Nat} (ha : a < 2 ^ 64) (hb : b < 2 ^ 64)
    (h : sigKey a = sigKey b) : a = b := by
  unfold sigKey at h
  split_ifs at h <;> omega

theorem element_compare_eq_zero_iff {a b : Nat} (ha : a < 2 ^ 64)
    (hb : b < 2 ^ 64) : element_compare a b = 0 ↔ a = b := by
  unfold element_compare
  constructor
  · intro h
    by_cases h1 : sigKey a < sigKey b
    · rw [if_pos h1] at h
      exact absurd h (by decide)
    · rw [if_neg h1] at h
      by_cases h2 : sigKey a > sigKey b
      · rw [if_pos h2] at h
        exact absurd h (by decide)
      · exact sigKey_inj ha hb (le_antisymm (not_lt.mp h2) (not_lt.mp h1))
  · intro h
    subst h
    simp

theorem bsearch_found_iff {l : List Nat} {x : Nat}
    (hl : ∀ e ∈ l, e < 2 ^ 64) (hx : x < 2 ^ 64) :
    bsearch_found l x = true ↔ x ∈ l := by
  unfold bsearch_found
  rw [List.any_eq_true]
  constructor
  · rintro ⟨e, he, hc⟩
    have : element_compare x e = 0 := by simpa using hc
    rw [(element_compare_eq_zero_iff hx (hl e he)).mp this]
    exact he
  · intro hm
    exact ⟨x, hm, by simp [element_compare]⟩

theorem qsort_elements_sorted (l : List Nat) :
    List.Sorted sigLe (qsort_elements l) :=
  List.sorted_insertionSort sigLe l

theorem qsort_elements_perm (l : List Nat) : List.Perm (qsort_elements l) l :=
  List.perm_insertionSort sigLe l

theorem eq_of_map_sigKey_eq : ∀ l₁ l₂ : List Nat, (∀ e ∈ l₁, e < 2 ^ 64) →
    (∀ e ∈ l₂, e < 2 ^ 64) → l₁.map sigKey = l₂.map sigKey → l₁ = l₂ := by
  intro l₁
  induction l₁ with
  | nil =>
    intro l₂ _ _ h
    cases l₂ with
    | nil => rfl
    | cons b bs => simp at h
  | cons a as ih =>
    intro l₂ h1 h2 h
    cases l₂ with
    | nil => simp at h
    | cons b bs =>
      simp only [List.map_cons, List.cons.injEq] at h
      obtain ⟨hab, ht⟩ := h
      have hae : a = b :=
        sigKey_inj (h1 a (by simp)) (h2 b (by simp)) hab
      rw [hae, ih bs (fun e he => h1 e (by simp [he]))
        (fun e he => h2 e (by simp [he])) ht]

theorem sorted_perm_unique {l₁ l₂ : List Nat} (hp : List.Perm l₁ l₂)
    (hs₁ : List.Sorted sigLe l₁) (hs₂ : List.Sorted sigLe l₂)
    (hb : ∀ e ∈ l₁, e < 2 ^ 64) : l₁ = l₂ := by
  have hps₁ : List.Sorted (fun a b : Int => a ≤ b) (l₁.map sigKey) :=
    (List.pairwise_map).mpr hs₁
  have hps₂ : List.Sorted (fun a b : Int => a ≤ b) (l₂.map sigKey) :=
    (List.pairwise_map).mpr hs₂
  have hmap : l₁.map sigKey = l₂.map sigKey :=
    List.eq_of_perm_of_sorted (hp.map sigKey) hps₁ hps₂
  exact eq_of_map_sigKey_eq l₁ l₂ hb (fun e he => hb e (hp.symm.subset he)) hmap

theorem qsort_eq_of_perm {l₁ l₂ : List Nat} (hp : List.Perm l₁ l₂)
    (hb : ∀ e ∈ l₁, e < 2 ^ 64) : qsort_elements l₁ = qsort_elements l₂ :=
  sorted_perm_unique
    ((qsort_elements_perm l₁).trans (hp.trans (qsort_elements_perm l₂).symm))
    (qsort_elements_sorted l₁) (qsort_elements_sorted l₂)
    (fun e he => hb e ((qsort_elements_perm l₁).subset he))

-- ----------------------------------------------------------------
-- Pointwise register-bank characterization of the compressed fold
-- ----------------------------------------------------------------

theorem set_getD_self_all (l : List Nat) (i : Nat) :
    l.set i (l.getD i 0) = l := by
  rcases lt_or_ge i l.length with h | h
  · exact set_getD_self h
  · exact List.set_eq_of_length_le h

theorem clamp_eq_contrib (nbits log2 t : Nat) :
    (if (if t >>> log2 = 0 then 0 else ctzll (t >>> log2) + 1) > 2 ^ nbits - 1
     then 2 ^ nbits - 1
     else (if t >>> log2 = 0 then 0 else ctzll (t >>> log2) + 1)) =
    reg_contrib nbits log2 t := by
  unfold reg_contrib
  split_ifs <;> omega

theorem compressed_add_data (o : Multiset_t) (rs : List Nat)
    (h : o.ms_data = .comp rs) (t : Nat) :
    compressed_add o t =
      { o with
        ms_data := .comp (rs.set (t &&& (o.ms_nregs - 1))
          (max (rs.getD (t &&& (o.ms_nregs - 1)) 0)
            (reg_contrib o.ms_nbits o.ms_log2nregs t))) } := by
  have hc : compressed_add o t =
      (if rs.getD (t &&& (o.ms_nregs - 1)) 0 <
          (if (if t >>> o.ms_log2nregs = 0 then 0
               else ctzll (t >>> o.ms_log2nregs) + 1) > 2 ^ o.ms_nbits - 1
           then 2 ^ o.ms_nbits - 1
           else (if t >>> o.ms_log2nregs = 0 then 0
                 else ctzll (t >>> o.ms_log2nregs) + 1))
       then { o with
              ms_data := .comp (rs.set (t &&& (o.ms_nregs - 1))
                (if (if t >>> o.ms_log2nregs = 0 then 0
                     else ctzll (t >>> o.ms_log2nregs) + 1) > 2 ^ o.ms_nbits - 1
                 then 2 ^ o.ms_nbits - 1
                 else (if t >>> o.ms_log2nregs = 0 then 0
                       else ctzll (t >>> o.ms_log2nregs) + 1))) }
       else o) := by
    unfold compressed_add
    rw [h]
  rw [hc, clamp_eq_contrib]
  by_cases hlt : rs.getD (t &&& (o.ms_nregs - 1)) 0 <
      reg_contrib o.ms_nbits o.ms_log2nregs t
  · rw [if_pos hlt]
    have hmax : max (rs.getD (t &&& (o.ms_nregs - 1)) 0)
        (reg_contrib o.ms_nbits o.ms_log2nregs t) =
        reg_contrib o.ms_nbits o.ms_log2nregs t := by omega
    rw [hmax]
  · rw [if_neg hlt]
    have hmax : max (rs.getD (t &&& (o.ms_nregs - 1)) 0)
        (reg_contrib o.ms_nbits o.ms_log2nregs t) =
        rs.getD (t &&& (o.ms_nregs - 1)) 0 := by omega
    rw [hmax, set_getD_self_all, ← h]

theorem foldl_max_eq_sup (w : Nat → Nat) (ts : List Nat) : ∀ acc : Nat,
    ts.foldl (fun acc t => max acc (w t)) acc = acc ⊔ ts.toFinset.sup w := by
  induction ts with
  | nil => intro acc; simp
  | cons t ts ih =>
    intro acc
    rw [List.foldl_cons, ih, List.toFinset_cons, Finset.sup_insert]
    omega

theorem step_as_max (mask j : Nat) (c : Nat → Nat) :
    (fun (acc : Nat) (t : Nat) => if t &&& mask = j then max acc (c t) else acc) =
    (fun (acc : Nat) (t : Nat) => max acc (if t &&& mask = j then c t else 0)) := by
  funext acc t
  split_ifs <;> omega

theorem ceu_data (ts : List Nat) : ∀ (o : Multiset_t) (rs : List Nat),
    o.ms_data = .comp rs → o.ms_nregs ≤ rs.length → 1 ≤ o.ms_nregs →
    ∃ rs2, (compressed_explicit_union o ts).ms_data = .comp rs2 ∧
      rs2.length = rs.length ∧
      ∀ j, j < rs.length → rs2.getD j 0 = ts.foldl (fun acc t =>
        if t &&& (o.ms_nregs - 1) = j then
          max acc (reg_contrib o.ms_nbits o.ms_log2nregs t) else acc)
        (rs.getD j 0) := by
  induction ts with
  | nil =>
    intro o rs h _ _
    exact ⟨rs, h, rfl, fun j _ => rfl⟩
  | cons t ts ih =>
    intro o rs h hlen hpos
    have hstep : compressed_explicit_union o (t :: ts) =
        compressed_explicit_union (compressed_add o t) ts := rfl
    have hadd := compressed_add_data o rs h t
    have hdata : (compressed_add o t).ms_data = .comp
        (rs.set (t &&& (o.ms_nregs - 1))
          (max (rs.getD (t &&& (o.ms_nregs - 1)) 0)
            (reg_contrib o.ms_nbits o.ms_log2nregs t))) := by
      rw [hadd]
    obtain ⟨f1, f2, f3, f4, f5⟩ := compressed_add_fields o t
    have hlen2 : (compressed_add o t).ms_nregs ≤
        (rs.set (t &&& (o.ms_nregs - 1))
          (max (rs.getD (t &&& (o.ms_nregs - 1)) 0)
            (reg_contrib o.ms_nbits o.ms_log2nregs t))).length := by
      rw [f2, List.length_set]
      exact hlen
    have hpos2 : 1 ≤ (compressed_add o t).ms_nregs := by rw [f2]; exact hpos
    obtain ⟨rs2, h1, h2, h3⟩ := ih (compressed_add o t) _ hdata hlen2 hpos2
    have hidx : t &&& (o.ms_nregs - 1) < rs.length := by
      have ha : t &&& (o.ms_nregs - 1) ≤ o.ms_nregs - 1 := Nat.and_le_right
      omega
    refine ⟨rs2, by rw [hstep]; exact h1, by rw [h2, List.length_set], ?_⟩
    intro j hj
    have hj2 : j < (rs.set (t &&& (o.ms_nregs - 1))
        (max (rs.getD (t &&& (o.ms_nregs - 1)) 0)
          (reg_contrib o.ms_nbits o.ms_log2nregs t))).length := by
      rw [List.length_set]; exact hj
    rw [h3 j hj2]
    rw [f1, f2, f3]
    rw [List.foldl_cons]
    by_cases hje : t &&& (o.ms_nregs - 1) = j
    · rw [if_pos hje, hje, getD_set_self _ _ (hje ▸ hidx)]
    · rw [if_neg hje, getD_set_ne _ _ hje]

theorem ceu_ext (o : Multiset_t) (rs : List Nat) (h : o.ms_data = .comp rs)
    (hlen : o.ms_nregs ≤ rs.length) (hpos : 1 ≤ o.ms_nregs)
    (ts ts' : List Nat) (hmem : ∀ t, t ∈ ts ↔ t ∈ ts') :
    compressed_explicit_union o ts = compressed_explicit_union o ts' := by
  obtain ⟨rs2, d2, l2, p2⟩ := ceu_data ts o rs h hlen hpos
  obtain ⟨rs3, d3, l3, p3⟩ := ceu_data ts' o rs h hlen hpos
  obtain ⟨a1, a2, a3, a4, a5, _⟩ := compressed_explicit_union_fields ts o
  obtain ⟨b1, b2, b3, b4, b5, _⟩ := compressed_explicit_union_fields ts' o
  have hts : ts.toFinset = ts'.toFinset := by
    apply Finset.ext
    intro t
    simpa using hmem t
  have hrs : rs2 = rs3 := by
    apply List.ext_getElem (by rw [l2, l3])
    intro i h1 h2
    have hi : i < rs.length := by rw [← l2]; exact h1
    rw [← List.getD_eq_getElem rs2 0 h1, ← List.getD_eq_getElem rs3 0 h2,
      p2 i hi, p3 i hi, step_as_max, foldl_max_eq_sup, foldl_max_eq_sup, hts]
  ext
  · rw [a1, b1]
  · rw [a2, b2]
  · rw [a3, b3]
  · rw [a4, b4]
  · rw [a5, b5]
  · rw [d2, d3, hrs]

theorem canonState_eq (ms0 : Multiset_t) (ts : List Nat) :
    canonState ms0 ts =
      if ts = [] then ms0
      else if expthresh_value ms0.ms_expthresh ms0.ms_nbits ms0.ms_nregs = 0 ∨
          expthresh_value ms0.ms_expthresh ms0.ms_nbits ms0.ms_nregs < ts.dedup.length then
        compressed_explicit_union
          { ms0 with ms_data := .comp (List.replicate ms0.ms_nregs 0) } ts
      else
        { ms0 with ms_data := .expl (qsort_elements ts.dedup) } := rfl

theorem canonState_fields (ms0 : Multiset_t) (ts : List Nat) :
    (canonState ms0 ts).ms_nbits = ms0.ms_nbits ∧
    (canonState ms0 ts).ms_nregs = ms0.ms_nregs ∧
    (canonState ms0 ts).ms_log2nregs = ms0.ms_log2nregs ∧
    (canonState ms0 ts).ms_expthresh = ms0.ms_expthresh ∧
    (canonState ms0 ts).ms_sparseon = ms0.ms_sparseon := by
  rw [canonState_eq]
  split_ifs
  · exact ⟨rfl, rfl, rfl, rfl, rfl⟩
  · obtain ⟨h1, h2, h3, h4, h5, _⟩ :=
      compressed_explicit_union_fields ts
        { ms0 with ms_data := .comp (List.replicate ms0.ms_nregs 0) }
    exact ⟨h1, h2, h3, h4, h5⟩
  · exact ⟨rfl, rfl, rfl, rfl, rfl⟩

theorem dedup_length_append_mem {ts : List Nat} {x : Nat} (hx : x ∈ ts) :
    (ts ++ [x]).dedup.length = ts.dedup.length := by
  rw [← List.card_toFinset, ← List.card_toFinset, List.toFinset_append]
  congr 1
  have : ([x] : List Nat).toFinset = {x} := by simp
  rw [this, Finset.union_comm]
  apply Finset.union_eq_right.mpr
  intro y hy
  simp at hy
  subst hy
  simp [hx]

theorem dedup_perm_append_mem {ts : List Nat} {x : Nat} (hx : x ∈ ts) :
    List.Perm ((ts ++ [x]).dedup) ts.dedup := by
  rw [List.perm_ext_iff_of_nodup (List.nodup_dedup _) (List.nodup_dedup _)]
  intro a
  simp only [List.mem_dedup, List.mem_append, List.mem_singleton]
  constructor
  · rintro (h | h)
    · exact h
    · subst h; exact hx
  · intro h
    exact Or.inl h

theorem dedup_length_append_not_mem {ts : List Nat} {x : Nat} (hx : x ∉ ts) :
    (ts ++ [x]).dedup.length = ts.dedup.length + 1 := by
  rw [← List.card_toFinset, ← List.card_toFinset, List.toFinset_append]
  have h1 : ([x] : List Nat).toFinset = {x} := by simp
  rw [h1, Finset.union_comm]
  show (insert x ts.toFinset).card = ts.toFinset.card + 1
  rw [Finset.card_insert_of_not_mem (by simpa using hx)]

theorem multiset_add_expl_update (ms0 : Multiset_t) (es : List Nat) (x : Nat) :
    multiset_add { ms0 with ms_data := .expl es } x =
      (if bsearch_found es x then { ms0 with ms_data := .expl es }
       else if es.length = expthresh_value ms0.ms_expthresh ms0.ms_nbits ms0.ms_nregs
       then compressed_add (explicit_to_compressed { ms0 with ms_data := .expl es }) x
       else { ms0 with ms_data := .expl (qsort_elements (es ++ [x])) }) := by
  unfold multiset_add
  rfl

theorem add_canon (ms0 : Multiset_t) (h0 : ms0.ms_data = .emptyD)
    (hreg : 1 ≤ ms0.ms_nregs) (ts : List Nat) (x : Nat)
    (hts : ∀ t ∈ ts, t < 2 ^ 64) (hx : x < 2 ^ 64) :
    multiset_add (canonState ms0 ts) x = canonState ms0 (ts ++ [x]) := by
  rw [canonState_eq, canonState_eq]
  rw [if_neg (show ¬(ts ++ [x] = []) from by simp)]
  by_cases hts0 : ts = []
  · subst hts0
    rw [if_pos rfl, multiset_add_empty ms0 h0 x]
    by_cases hE0 : expthresh_value ms0.ms_expthresh ms0.ms_nbits ms0.ms_nregs = 0
    · rw [if_pos hE0, if_pos (Or.inl hE0)]
      rfl
    · have hdx : (([] : List Nat) ++ [x]).dedup = [x] := by simp
      have hnc : ¬(expthresh_value ms0.ms_expthresh ms0.ms_nbits ms0.ms_nregs = 0 ∨
          expthresh_value ms0.ms_expthresh ms0.ms_nbits ms0.ms_nregs <
            (([] : List Nat) ++ [x]).dedup.length) := by
        rw [hdx]
        push_neg
        exact ⟨hE0, by simp; omega⟩
      rw [if_neg hE0, if_neg hnc]
      have hq : qsort_elements ((([] : List Nat) ++ [x]).dedup) = [x] := by
        rw [hdx]
        rfl
      rw [hq]
  · rw [if_neg hts0]
    by_cases hC : expthresh_value ms0.ms_expthresh ms0.ms_nbits ms0.ms_nregs = 0 ∨
        expthresh_value ms0.ms_expthresh ms0.ms_nbits ms0.ms_nregs < ts.dedup.length
    · rw [if_pos hC]
      obtain ⟨rs2, hd2, hl2, _⟩ := ceu_data ts
        { ms0 with ms_data := .comp (List.replicate ms0.ms_nregs 0) }
        (List.replicate ms0.ms_nregs 0) rfl (by simp) hreg
      rw [multiset_add_comp _ rs2 hd2 x]
      have hCx : expthresh_value ms0.ms_expthresh ms0.ms_nbits ms0.ms_nregs = 0 ∨
          expthresh_value ms0.ms_expthresh ms0.ms_nbits ms0.ms_nregs <
            (ts ++ [x]).dedup.length := by
        rcases hC with h | h
        · exact Or.inl h
        · right
          by_cases hm : x ∈ ts
          · rw [dedup_length_append_mem hm]; exact h
          · rw [dedup_length_append_not_mem hm]; omega
      rw [if_pos hCx]
      show compressed_add
          ((ts.foldl compressed_add
            { ms0 with ms_data := .comp (List.replicate ms0.ms_nregs 0) })) x =
        ((ts ++ [x]).foldl compressed_add
          { ms0 with ms_data := .comp (List.replicate ms0.ms_nregs 0) })
      rw [List.foldl_append]
      rfl
    · rw [if_neg hC]
      push_neg at hC
      obtain ⟨hE0, hElen⟩ := hC
      rw [multiset_add_expl_update]
      have hbL : ∀ e ∈ qsort_elements ts.dedup, e < 2 ^ 64 := fun e he =>
        hts e (List.mem_dedup.mp ((qsort_elements_perm ts.dedup).subset he))
      by_cases hmem : x ∈ ts
      · have hb : bsearch_found (qsort_elements ts.dedup) x = true :=
          (bsearch_found_iff hbL hx).mpr
            ((qsort_elements_perm ts.dedup).mem_iff.mpr (List.mem_dedup.mpr hmem))
        rw [if_pos hb]
        have hnc : ¬(expthresh_value ms0.ms_expthresh ms0.ms_nbits ms0.ms_nregs = 0 ∨
            expthresh_value ms0.ms_expthresh ms0.ms_nbits ms0.ms_nregs <
              (ts ++ [x]).dedup.length) := by
          rw [dedup_length_append_mem hmem]
          push_neg
          exact ⟨hE0, hElen⟩
        rw [if_neg hnc]
        have hq : qsort_elements ts.dedup = qsort_elements ((ts ++ [x]).dedup) :=
          qsort_eq_of_perm (dedup_perm_append_mem hmem).symm
            (fun e he => hts e (List.mem_dedup.mp he))
        rw [hq]
      · have hb : ¬(bsearch_found (qsort_elements ts.dedup) x = true) := fun h =>
          hmem (List.mem_dedup.mp
            ((qsort_elements_perm ts.dedup).mem_iff.mp ((bsearch_found_iff hbL hx).mp h)))
        rw [if_neg hb]
        by_cases hfull : ts.dedup.length =
            expthresh_value ms0.ms_expthresh ms0.ms_nbits ms0.ms_nregs
        · rw [if_pos (by rw [qsort_elements_length]; exact hfull)]
          have hCx : expthresh_value ms0.ms_expthresh ms0.ms_nbits ms0.ms_nregs = 0 ∨
              expthresh_value ms0.ms_expthresh ms0.ms_nbits ms0.ms_nregs <
                (ts ++ [x]).dedup.length := by
            right
            rw [dedup_length_append_not_mem hmem]
            omega
          rw [if_pos hCx]
          have h1 : explicit_to_compressed
              { ms0 with ms_data := .expl (qsort_elements ts.dedup) } =
              compressed_explicit_union
                { ms0 with ms_data := .comp (List.replicate ms0.ms_nregs 0) }
                (qsort_elements ts.dedup) := rfl
          have h2 : compressed_add
              (compressed_explicit_union
                { ms0 with ms_data := .comp (List.replicate ms0.ms_nregs 0) }
                (qsort_elements ts.dedup)) x =
              compressed_explicit_union
                { ms0 with ms_data := .comp (List.replicate ms0.ms_nregs 0) }
                (qsort_elements ts.dedup ++ [x]) := by
            show compressed_add
                ((qsort_elements ts.dedup).foldl compressed_add
                  { ms0 with ms_data := .comp (List.replicate ms0.ms_nregs 0) }) x =
              ((qsort_elements ts.dedup ++ [x]).foldl compressed_add
                { ms0 with ms_data := .comp (List.replicate ms0.ms_nregs 0) })
            rw [List.foldl_append]
            rfl
          rw [h1, h2]
          apply ceu_ext
            { ms0 with ms_data := .comp (List.replicate ms0.ms_nregs 0) }
            (List.replicate ms0.ms_nregs 0) rfl (by simp) hreg
          intro t
          simp only [List.mem_append, List.mem_singleton]
          constructor
          · rintro (h | h)
            · exact Or.inl (List.mem_dedup.mp ((qsort_elements_perm ts.dedup).mem_iff.mp h))
            · exact Or.inr h
          · rintro (h | h)
            · exact Or.inl ((qsort_elements_perm ts.dedup).mem_iff.mpr (List.mem_dedup.mpr h))
            · exact Or.inr h
        · rw [if_neg (by rw [qsort_elements_length]; exact hfull)]
          have hnc : ¬(expthresh_value ms0.ms_expthresh ms0.ms_nbits ms0.ms_nregs = 0 ∨
              expthresh_value ms0.ms_expthresh ms0.ms_nbits ms0.ms_nregs <
                (ts ++ [x]).dedup.length) := by
            rw [dedup_length_append_not_mem hmem]
            push_neg
            exact ⟨hE0, by omega⟩
          rw [if_neg hnc]
          have hxq : x ∉ qsort_elements ts.dedup := fun h =>
            hmem (List.mem_dedup.mp ((qsort_elements_perm ts.dedup).mem_iff.mp h))
          have hnd1 : (qsort_elements ts.dedup ++ [x]).Nodup := by
            rw [List.nodup_append]
            refine ⟨(qsort_elements_perm ts.dedup).nodup_iff.mpr (List.nodup_dedup ts),
              List.nodup_singleton x, ?_⟩
            intro a ha hb
            rw [List.mem_singleton] at hb
            subst hb
            exact hxq ha
          have hperm : List.Perm (qsort_elements ts.dedup ++ [x]) ((ts ++ [x]).dedup) := by
            rw [List.perm_ext_iff_of_nodup hnd1 (List.nodup_dedup _)]
            intro a
            simp only [List.mem_append, List.mem_singleton, List.mem_dedup,
              (qsort_elements_perm ts.dedup).mem_iff, List.mem_dedup]
          have hq : qsort_elements (qsort_elements ts.dedup ++ [x]) =
              qsort_elements ((ts ++ [x]).dedup) := by
            apply qsort_eq_of_perm hperm
            intro e he
            rcases List.mem_append.mp he with h | h
            · exact hbL e h
            · rw [List.mem_singleton] at h
              subst h
              exact hx
          rw [hq]

theorem canonState_perm (ms0 : Multiset_t) (hreg : 1 ≤ ms0.ms_nregs)
    {ts ts' : List Nat} (hp : List.Perm ts ts') (hts : ∀ t ∈ ts, t < 2 ^ 64) :
    canonState ms0 ts = canonState ms0 ts' := by
  rw [canonState_eq, canonState_eq]
  have hd : ts.dedup.length = ts'.dedup.length := hp.dedup.length_eq
  by_cases hn : ts = []
  · subst hn
    rw [hp.symm.eq_nil]
  · have hn' : ts' ≠ [] := fun h => hn (by rw [h] at hp; exact hp.eq_nil)
    rw [if_neg hn, if_neg hn', hd]
    by_cases hC : expthresh_value ms0.ms_expthresh ms0.ms_nbits ms0.ms_nregs = 0 ∨
        expthresh_value ms0.ms_expthresh ms0.ms_nbits ms0.ms_nregs < ts'.dedup.length
    · rw [if_pos hC, if_pos hC]
      exact ceu_ext
        { ms0 with ms_data := .comp (List.replicate ms0.ms_nregs 0) }
        (List.replicate ms0.ms_nregs 0) rfl (by simp) hreg ts ts'
        (fun t => hp.mem_iff)
    · rw [if_neg hC, if_neg hC]
      have hq : qsort_elements ts.dedup = qsort_elements ts'.dedup :=
        qsort_eq_of_perm hp.dedup (fun e he => hts e (List.mem_dedup.mp he))
      rw [hq]

theorem addAll_eq_canon (ms0 : Multiset_t) (h0 : ms0.ms_data = .emptyD)
    (hreg : 1 ≤ ms0.ms_nregs) :
    ∀ ts : List Nat, (∀ t ∈ ts, t < 2 ^ 64) →
      ts.foldl multiset_add ms0 = canonState ms0 ts := by
  intro ts
  induction ts using List.reverseRecOn with
  | nil =>
    intro _
    rw [canonState_eq]
    simp
  | append_singleton ts x ih =>
    intro hb
    rw [List.foldl_append, List.foldl_cons, List.foldl_nil,
      ih (fun t ht => hb t (List.mem_append_left _ ht)),
      add_canon ms0 h0 hreg ts x (fun t ht => hb t (List.mem_append_left _ ht))
        (hb x (List.mem_append_right _ (List.mem_singleton_self x)))]

/-- Claim C7: for every validated parameter setting and every finite list of
64-bit tokens, inserting the tokens one by one into a fresh Empty sketch
produces, for every permutation of the list, the same final sketch state
(the whole `Multiset_t`, hence the same tag and the same explicit list or
register array), and therefore the same final cardinality. -/
theorem C7_order_independence (log2m regwidth : Nat) (expthresh : Int)
    (sparseon : Nat)
    (hmods : check_modifiers (Int.ofNat log2m) (Int.ofNat regwidth) expthresh
      (Int.ofNat sparseon) = .ok ())
    (ts ts' : List Nat) (hp : List.Perm ts ts') (hts : ∀ t ∈ ts, t < 2 ^ 64) :
    ts.foldl multiset_add (multiset_empty log2m regwidth expthresh sparseon) =
      ts'.foldl multiset_add (multiset_empty log2m regwidth expthresh sparseon) ∧
    multiset_card
        (ts.foldl multiset_add (multiset_empty log2m regwidth expthresh sparseon)) =
      multiset_card
        (ts'.foldl multiset_add (multiset_empty log2m regwidth expthresh sparseon)) := by
  have hreg : 1 ≤ (multiset_empty log2m regwidth expthresh sparseon).ms_nregs :=
    Nat.one_le_two_pow
  have h1 := addAll_eq_canon (multiset_empty log2m regwidth expthresh sparseon)
    rfl hreg ts hts
  have h2 := addAll_eq_canon (multiset_empty log2m regwidth expthresh sparseon)
    rfl hreg ts' (fun t ht => hts t (hp.mem_iff.mpr ht))
  have hc := canonState_perm (multiset_empty log2m regwidth expthresh sparseon)
    hreg hp hts
  refine ⟨?_, ?_⟩ <;> rw [h1, h2, hc]

/-- Concrete instantiation of C7 at the default parameters with the token
lists [1, 2] and [2, 1]. -/
theorem C7_order_independence_witness :
    ([1, 2] : List Nat).foldl multiset_add (multiset_empty 11 5 (-1) 1) =
      ([2, 1] : List Nat).foldl multiset_add (multiset_empty 11 5 (-1) 1) ∧
    multiset_card (([1, 2] : List Nat).foldl multiset_add (multiset_empty 11 5 (-1) 1)) =
      multiset_card (([2, 1] : List Nat).foldl multiset_add (multiset_empty 11 5 (-1) 1)) :=
  C7_order_independence 11 5 (-1) 1 (by decide) [1, 2] [2, 1]
    (List.Perm.swap 2 1 []) (by decide)

-- ----------------------------------------------------------------
-- Claim C1: round-trip of multiset_pack / multiset_unpack.
-- Byte-level helpers first.
-- ----------------------------------------------------------------

theorem and_255_eq_mod (n : Nat) : n &&& 255 = n % 256 := by
  have h := and_mask_eq_mod n 8
  norm_num at h
  exact h

theorem lor_byte_chain (x0 x1 x2 x3 x4 x5 x6 x7 : Nat)
    (h1 : x1 < 256) (h2 : x2 < 256) (h3 : x3 < 256) (h4 : x4 < 256)
    (h5 : x5 < 256) (h6 : x6 < 256) (h7 : x7 < 256) :
    x0 <<< 56 ||| x1 <<< 48 ||| x2 <<< 40 ||| x3 <<< 32 ||| x4 <<< 24 |||
      x5 <<< 16 ||| x6 <<< 8 ||| x7 <<< 0 =
    x0 * 2 ^ 56 + x1 * 2 ^ 48 + x2 * 2 ^ 40 + x3 * 2 ^ 32 + x4 * 2 ^ 24 +
      x5 * 2 ^ 16 + x6 * 2 ^ 8 + x7 := by
  have s1 : x0 <<< 56 ||| x1 <<< 48 = (x0 * 2 ^ 8 + x1) * 2 ^ 48 := by
    rw [Nat.shiftLeft_eq, Nat.shiftLeft_eq,
      lor_mul_pow_eq_add x0 (show x1 * 2 ^ 48 < 2 ^ 56 by omega)]
    ring
  rw [s1]
  have s2 : (x0 * 2 ^ 8 + x1) * 2 ^ 48 ||| x2 <<< 40 =
      (x0 * 2 ^ 16 + x1 * 2 ^ 8 + x2) * 2 ^ 40 := by
    rw [Nat.shiftLeft_eq, lor_mul_pow_eq_add _ (show x2 * 2 ^ 40 < 2 ^ 48 by omega)]
    ring
  rw [s2]
  have s3 : (x0 * 2 ^ 16 + x1 * 2 ^ 8 + x2) * 2 ^ 40 ||| x3 <<< 32 =
      (x0 * 2 ^ 24 + x1 * 2 ^ 16 + x2 * 2 ^ 8 + x3) * 2 ^ 32 := by
    rw [Nat.shiftLeft_eq, lor_mul_pow_eq_add _ (show x3 * 2 ^ 32 < 2 ^ 40 by omega)]
    ring
  rw [s3]
  have s4 : (x0 * 2 ^ 24 + x1 * 2 ^ 16 + x2 * 2 ^ 8 + x3) * 2 ^ 32 ||| x4 <<< 24 =
      (x0 * 2 ^ 32 + x1 * 2 ^ 24 + x2 * 2 ^ 16 + x3 * 2 ^ 8 + x4) * 2 ^ 24 := by
    rw [Nat.shiftLeft_eq, lor_mul_pow_eq_add _ (show x4 * 2 ^ 24 < 2 ^ 32 by omega)]
    ring
  rw [s4]
  have s5 : (x0 * 2 ^ 32 + x1 * 2 ^ 24 + x2 * 2 ^ 16 + x3 * 2 ^ 8 + x4) * 2 ^ 24 |||
      x5 <<< 16 =
      (x0 * 2 ^ 40 + x1 * 2 ^ 32 + x2 * 2 ^ 24 + x3 * 2 ^ 16 + x4 * 2 ^ 8 + x5) *
        2 ^ 16 := by
    rw [Nat.shiftLeft_eq, lor_mul_pow_eq_add _ (show x5 * 2 ^ 16 < 2 ^ 24 by omega)]
    ring
  rw [s5]
  have s6 : (x0 * 2 ^ 40 + x1 * 2 ^ 32 + x2 * 2 ^ 24 + x3 * 2 ^ 16 + x4 * 2 ^ 8 + x5) *
      2 ^ 16 ||| x6 <<< 8 =
      (x0 * 2 ^ 48 + x1 * 2 ^ 40 + x2 * 2 ^ 32 + x3 * 2 ^ 24 + x4 * 2 ^ 16 + x5 * 2 ^ 8 +
        x6) * 2 ^ 8 := by
    rw [Nat.shiftLeft_eq, lor_mul_pow_eq_add _ (show x6 * 2 ^ 8 < 2 ^ 16 by omega)]
    ring
  rw [s6]
  have s7 : (x0 * 2 ^ 48 + x1 * 2 ^ 40 + x2 * 2 ^ 32 + x3 * 2 ^ 24 + x4 * 2 ^ 16 +
      x5 * 2 ^ 8 + x6) * 2 ^ 8 ||| x7 <<< 0 =
      x0 * 2 ^ 56 + x1 * 2 ^ 48 + x2 * 2 ^ 40 + x3 * 2 ^ 32 + x4 * 2 ^ 24 +
        x5 * 2 ^ 16 + x6 * 2 ^ 8 + x7 := by
    rw [Nat.shiftLeft_eq, lor_mul_pow_eq_add _ (show x7 * 2 ^ 0 < 2 ^ 8 by omega)]
    ring
  rw [s7]

set_option maxHeartbeats 1000000 in
theorem readBE8_writeBE8 (v : Nat) (hv : v < 2 ^ 64) (pre post : List Nat) :
    readBE8 (pre ++ (writeBE8 v ++ post)) pre.length = v := by
  have gg : ∀ j, j < 8 → (pre ++ (writeBE8 v ++ post)).getD (pre.length + j) 0 =
      (writeBE8 v).getD j 0 := by
    intro j hj
    rw [List.getD_append_right _ _ _ _ (by omega)]
    rw [show pre.length + j - pre.length = j by omega]
    refine List.getD_append _ _ _ _ ?_
    show j < (writeBE8 v).length
    simp only [writeBE8, List.length_cons, List.length_nil]
    omega
  have g0 := gg 0 (by norm_num)
  have g1 := gg 1 (by norm_num)
  have g2 := gg 2 (by norm_num)
  have g3 := gg 3 (by norm_num)
  have g4 := gg 4 (by norm_num)
  have g5 := gg 5 (by norm_num)
  have g6 := gg 6 (by norm_num)
  have g7 := gg 7 (by norm_num)
  rw [show pre.length + 0 = pre.length by omega] at g0
  show (pre ++ (writeBE8 v ++ post)).getD pre.length 0 <<< 56 |||
      (pre ++ (writeBE8 v ++ post)).getD (pre.length + 1) 0 <<< 48 |||
      (pre ++ (writeBE8 v ++ post)).getD (pre.length + 2) 0 <<< 40 |||
      (pre ++ (writeBE8 v ++ post)).getD (pre.length + 3) 0 <<< 32 |||
      (pre ++ (writeBE8 v ++ post)).getD (pre.length + 4) 0 <<< 24 |||
      (pre ++ (writeBE8 v ++ post)).getD (pre.length + 5) 0 <<< 16 |||
      (pre ++ (writeBE8 v ++ post)).getD (pre.length + 6) 0 <<< 8 |||
      (pre ++ (writeBE8 v ++ post)).getD (pre.length + 7) 0 <<< 0 = v
  rw [g0, g1, g2, g3, g4, g5, g6, g7]
  show ((v >>> 56) &&& 0xff) <<< 56 ||| ((v >>> 48) &&& 0xff) <<< 48 |||
      ((v >>> 40) &&& 0xff) <<< 40 ||| ((v >>> 32) &&& 0xff) <<< 32 |||
      ((v >>> 24) &&& 0xff) <<< 24 ||| ((v >>> 16) &&& 0xff) <<< 16 |||
      ((v >>> 8) &&& 0xff) <<< 8 ||| ((v >>> 0) &&& 0xff) <<< 0 = v
  simp only [Nat.shiftRight_eq_div_pow, and_255_eq_mod]
  rw [lor_byte_chain _ _ _ _ _ _ _ _ (Nat.mod_lt _ (by norm_num))
    (Nat.mod_lt _ (by norm_num)) (Nat.mod_lt _ (by norm_num))
    (Nat.mod_lt _ (by norm_num)) (Nat.mod_lt _ (by norm_num))
    (Nat.mod_lt _ (by norm_num)) (Nat.mod_lt _ (by norm_num))]
  omega

theorem explicit_decode (pre : List Nat) (hpre : pre.length = 3) (es : List Nat)
    (hb : ∀ e ∈ es, e < 2 ^ 64) (k : Nat) (hk : k < es.length) :
    readBE8 (pre ++ es.flatMap writeBE8) (3 + 8 * k) = es.getD k 0 := by
  have hsplit : es = es.take k ++ (es.getD k 0 :: es.drop (k + 1)) := by
    rw [List.getD_eq_getElem es 0 hk, ← List.drop_eq_getElem_cons hk,
      List.take_append_drop]
  have hv : es.getD k 0 < 2 ^ 64 := by
    rw [List.getD_eq_getElem es 0 hk]
    exact hb _ (List.getElem_mem hk)
  have hlen : (pre ++ (es.take k).flatMap writeBE8).length = 3 + 8 * k := by
    rw [List.length_append, hpre, length_flatMap_writeBE8, List.length_take]
    omega
  have hmain := readBE8_writeBE8 (es.getD k 0) hv
    (pre ++ (es.take k).flatMap writeBE8) ((es.drop (k + 1)).flatMap writeBE8)
  rw [hlen, List.append_assoc] at hmain
  conv_lhs => rw [hsplit]
  rw [List.flatMap_append, List.flatMap_cons]
  exact hmain

theorem explicit_decode_map (pre : List Nat) (hpre : pre.length = 3)
    (es : List Nat) (hb : ∀ e ∈ es, e < 2 ^ 64) :
    (List.range es.length).map
      (fun ii => readBE8 (pre ++ es.flatMap writeBE8) (3 + 8 * ii)) = es := by
  apply List.ext_getElem (by simp)
  intro i h1 h2
  simp only [List.getElem_map, List.getElem_range]
  rw [explicit_decode pre hpre es hb i h2, List.getD_eq_getElem es 0 h2]

theorem integer_log2_count_pow (k : Nat) : integer_log2_count (2 ^ k) = k + 1 := by
  induction k with
  | zero =>
    rw [integer_log2_count]
    norm_num
    rw [integer_log2_count]
    norm_num
  | succ n ih =>
    rw [integer_log2_count]
    have h2 : (2 : Nat) ^ (n + 1) ≠ 0 := by positivity
    simp only [h2, dite_false]
    rw [show (2 : Nat) ^ (n + 1) / 2 = 2 ^ n by rw [pow_succ]; omega, ih]

theorem encode_expthresh_pow (k : Nat) : encode_expthresh ((2 : Int) ^ k) = k + 1 := by
  unfold encode_expthresh
  have hpos : (0 : Int) < 2 ^ k := by positivity
  rw [if_neg (by omega), if_neg (by omega)]
  unfold integer_log2
  have ht : ((2 : Int) ^ k).toNat = 2 ^ k := by
    rw [show ((2 : Int) ^ k) = ((2 ^ k : Nat) : Int) by push_cast; ring, Int.toNat_natCast]
  rw [ht, integer_log2_count_pow]
  omega

theorem encode_expthresh_le_63 {e : Int}
    (he : e = -1 ∨ e = 0 ∨ ∃ k, k ≤ 32 ∧ e = (2 : Int) ^ k) :
    encode_expthresh e ≤ 63 := by
  rcases he with h | h | ⟨k, hk, h⟩
  · subst h; decide
  · subst h; decide
  · subst h; rw [encode_expthresh_pow]; omega

theorem decode_encode_expthresh {e : Int}
    (he : e = -1 ∨ e = 0 ∨ ∃ k, k ≤ 32 ∧ e = (2 : Int) ^ k) :
    decode_expthresh (encode_expthresh e) = e := by
  rcases he with h | h | ⟨k, hk, h⟩
  · subst h; decide
  · subst h; decide
  · subst h
    rw [encode_expthresh_pow]
    unfold decode_expthresh
    rw [if_neg (by omega), if_neg (by omega)]
    norm_num

theorem pack_header_bytes (type nbits log2 : Nat) (e : Int) (sp : Nat)
    (ht : type < 16) (hn1 : 1 ≤ nbits) (hn8 : nbits ≤ 8) (hl : log2 ≤ 31)
    (hs : sp ≤ 1) (he : encode_expthresh e ≤ 63) :
    pack_header 1 type nbits log2 e sp =
      [16 + type, (nbits - 1) * 32 + log2, sp * 64 + encode_expthresh e] := by
  unfold pack_header
  have hb0 : ((1 <<< 4) ||| type) % 256 = 16 + type := by
    rw [show (1 <<< 4 : Nat) = 1 * 2 ^ 4 from rfl,
      lor_mul_pow_eq_add 1 (show type < 2 ^ 4 from ht)]
    omega
  have hsub : (nbits + (2 ^ 64 - 1)) % 2 ^ 64 = nbits - 1 := by omega
  have hb1 : (((((nbits + (2 ^ 64 - 1)) % 2 ^ 64) <<< 5) % 2 ^ 64) ||| log2) % 256 =
      (nbits - 1) * 32 + log2 := by
    rw [hsub, Nat.shiftLeft_eq,
      show (nbits - 1) * 2 ^ 5 % 2 ^ 64 = (nbits - 1) * 2 ^ 5 by omega,
      lor_mul_pow_eq_add (nbits - 1) (show log2 < 2 ^ 5 by omega)]
    omega
  have hb2 : ((sp <<< 6) ||| encode_expthresh e) % 256 =
      sp * 64 + encode_expthresh e := by
    rw [Nat.shiftLeft_eq,
      lor_mul_pow_eq_add sp (show encode_expthresh e < 2 ^ 6 by omega)]
    omega
  rw [hb0, hb1, hb2]

theorem unpack_header_of_packed (ms : Multiset_t) (type : Nat) (ht : type < 16)
    (hwf : wf_params ms) (rest : List Nat) (d : MSData) :
    unpack_header (pack_header 1 type ms.ms_nbits ms.ms_log2nregs ms.ms_expthresh
      ms.ms_sparseon ++ rest) d = { ms with ms_data := d } := by
  obtain ⟨hnr, hl, hn1, hn8, hsp, he⟩ := hwf
  have henc := encode_expthresh_le_63 he
  rw [pack_header_bytes _ _ _ _ _ ht hn1 hn8 hl hsp henc]
  have hg1 : (([16 + type, (ms.ms_nbits - 1) * 32 + ms.ms_log2nregs,
      ms.ms_sparseon * 64 + encode_expthresh ms.ms_expthresh] : List Nat) ++ rest).getD 1 0 =
      (ms.ms_nbits - 1) * 32 + ms.ms_log2nregs := by
    rw [List.getD_append _ _ _ _ (by norm_num)]
    rfl
  have hg2 : (([16 + type, (ms.ms_nbits - 1) * 32 + ms.ms_log2nregs,
      ms.ms_sparseon * 64 + encode_expthresh ms.ms_expthresh] : List Nat) ++ rest).getD 2 0 =
      ms.ms_sparseon * 64 + encode_expthresh ms.ms_expthresh := by
    rw [List.getD_append _ _ _ _ (by norm_num)]
    rfl
  unfold unpack_header
  rw [hg1, hg2]
  have hx1 : ((ms.ms_nbits - 1) * 32 + ms.ms_log2nregs) >>> 5 + 1 = ms.ms_nbits := by
    rw [Nat.shiftRight_eq_div_pow]
    omega
  have hx2 : ((ms.ms_nbits - 1) * 32 + ms.ms_log2nregs) &&& 0x1f = ms.ms_log2nregs := by
    rw [show (0x1f : Nat) = 2 ^ 5 - 1 by norm_num, and_mask_eq_mod]
    omega
  have hx3 : (ms.ms_sparseon * 64 + encode_expthresh ms.ms_expthresh) &&& 0x3f =
      encode_expthresh ms.ms_expthresh := by
    rw [show (0x3f : Nat) = 2 ^ 6 - 1 by norm_num, and_mask_eq_mod]
    omega
  have hx4 : ((ms.ms_sparseon * 64 + encode_expthresh ms.ms_expthresh) >>> 6) &&& 0x1 =
      ms.ms_sparseon := by
    rw [Nat.shiftRight_eq_div_pow, show (0x1 : Nat) = 2 ^ 1 - 1 by norm_num,
      and_mask_eq_mod]
    omega
  rw [hx1, hx2, hx3, hx4, decode_encode_expthresh he]
  ext
  · rfl
  · show 2 ^ ms.ms_log2nregs = ms.ms_nregs
    omega
  · rfl
  · rfl
  · rfl
  · rfl

theorem idealMem_zero : (fun _ => (0 : Nat)) = idealMem 0 0 := by
  funext i
  unfold idealMem
  simp

theorem load64be_idealMem (V S p : Nat) :
    load64be (idealMem V S) p = V * 2 ^ (8 * (p + 8)) / 2 ^ S % 2 ^ 64 := by
  have hbyte : ∀ j, j ≤ 7 → idealMem V S (p + j) =
      V * 2 ^ (8 * (p + 8)) / 2 ^ S / 2 ^ (8 * (7 - j)) % 256 := by
    intro j hj
    unfold idealMem
    congr 1
    rw [Nat.div_div_eq_div_mul]
    have hsplit : V * 2 ^ (8 * (p + 8)) = V * 2 ^ (8 * (p + j + 1)) * 2 ^ (8 * (7 - j)) := by
      rw [mul_assoc, ← pow_add]
      congr 2
      omega
    rw [hsplit, mul_comm (V * 2 ^ (8 * (p + j + 1))) (2 ^ (8 * (7 - j))),
      mul_comm (2 ^ S) (2 ^ (8 * (7 - j))),
      Nat.mul_div_mul_left _ _ (Nat.two_pow_pos _)]
  have h0 := hbyte 0 (by norm_num)
  have h1 := hbyte 1 (by norm_num)
  have h2 := hbyte 2 (by norm_num)
  have h3 := hbyte 3 (by norm_num)
  have h4 := hbyte 4 (by norm_num)
  have h5 := hbyte 5 (by norm_num)
  have h6 := hbyte 6 (by norm_num)
  have h7 := hbyte 7 (by norm_num)
  rw [show p + 0 = p by omega] at h0
  show idealMem V S p * 2 ^ 56 + idealMem V S (p + 1) * 2 ^ 48 +
      idealMem V S (p + 2) * 2 ^ 40 + idealMem V S (p + 3) * 2 ^ 32 +
      idealMem V S (p + 4) * 2 ^ 24 + idealMem V S (p + 5) * 2 ^ 16 +
      idealMem V S (p + 6) * 2 ^ 8 + idealMem V S (p + 7) =
    V * 2 ^ (8 * (p + 8)) / 2 ^ S % 2 ^ 64
  rw [h0, h1, h2, h3, h4, h5, h6, h7]
  generalize V * 2 ^ (8 * (p + 8)) / 2 ^ S = X
  norm_num
  omega

theorem mul_pow_mod_256 (a : Nat) {e : Nat} (h : 8 ≤ e) : a * 2 ^ e % 256 = 0 := by
  rw [show e = (e - 8) + 8 by omega, pow_add, ← mul_assoc,
    show (2 : Nat) ^ 8 = 256 by norm_num]
  exact Nat.mul_mod_left _ 256

theorem idealMem_high (V S i : Nat) (hi : S ≤ 8 * i) : idealMem V S i = 0 := by
  unfold idealMem
  rw [mul_pow_div_pow_le V (show S ≤ 8 * (i + 1) by omega)]
  exact mul_pow_mod_256 V (by omega)

theorem pack_low_byte (V w val S i : Nat) (hval : val < 2 ^ w) (hi : 8 * (i + 1) ≤ S) :
    idealMem (V * 2 ^ w + val) (S + w) i = idealMem V S i := by
  unfold idealMem
  congr 1
  rw [mul_pow_div_pow_ge _ (show 8 * (i + 1) ≤ S + w by omega),
    mul_pow_div_pow_ge V (show 8 * (i + 1) ≤ S from hi),
    show S + w - 8 * (i + 1) = w + (S - 8 * (i + 1)) by omega, pow_add,
    ← Nat.div_div_eq_div_mul]
  congr 1
  rw [add_mul_pow_div_pow V val (le_refl w), Nat.sub_self, pow_zero, mul_one,
    Nat.div_eq_of_lt hval, Nat.add_zero]

theorem pack_window_byte (V w val p s : Nat) (hs : s ≤ 7) (hw : w + s ≤ 64)
    (hval : val < 2 ^ w) (j : Nat) (hj : j ≤ 7) :
    idealMem (V * 2 ^ w + val) (8 * p + s + w) (p + j) =
      (V % 2 ^ s * 2 ^ w + val) * 2 ^ (64 - w - s) / 2 ^ (8 * (7 - j)) % 256 := by
  have hvK : val < 2 ^ (s + w) :=
    lt_of_lt_of_le hval (Nat.pow_le_pow_right (by norm_num) (by omega))
  have hVs : V % 2 ^ s < 2 ^ s := Nat.mod_lt _ (Nat.two_pow_pos s)
  have hMlt : V % 2 ^ s * 2 ^ w + val < 2 ^ (s + w) := by
    rw [pow_add]
    have h1 : V % 2 ^ s * 2 ^ w + val < (V % 2 ^ s + 1) * 2 ^ w := by
      rw [add_mul, one_mul]
      omega
    have h2 : (V % 2 ^ s + 1) * 2 ^ w ≤ 2 ^ s * 2 ^ w :=
      Nat.mul_le_mul_right _ (by omega)
    omega
  have hM : V % 2 ^ s * 2 ^ w + val = (V * 2 ^ w + val) % 2 ^ (s + w) := by
    have h1 : V * 2 ^ w % 2 ^ (s + w) = V % 2 ^ s * 2 ^ w := by
      have h := mul_pow_mod_pow V (show w ≤ s + w by omega)
      rwa [show s + w - w = s by omega] at h
    rw [Nat.add_mod, h1, Nat.mod_eq_of_lt hvK, Nat.mod_eq_of_lt hMlt]
  show (V * 2 ^ w + val) * 2 ^ (8 * (p + j + 1)) / 2 ^ (8 * p + s + w) % 256 = _
  rcases le_or_lt (s + w) (8 * (j + 1)) with hc | hc
  · have e1 : (V * 2 ^ w + val) * 2 ^ (8 * (p + j + 1)) / 2 ^ (8 * p + s + w) =
        (V * 2 ^ w + val) * 2 ^ (8 * (j + 1) - (s + w)) := by
      rw [mul_pow_div_pow_le _ (show 8 * p + s + w ≤ 8 * (p + j + 1) by omega),
        show 8 * (p + j + 1) - (8 * p + s + w) = 8 * (j + 1) - (s + w) by omega]
    have e2 : (V % 2 ^ s * 2 ^ w + val) * 2 ^ (64 - w - s) / 2 ^ (8 * (7 - j)) =
        (V * 2 ^ w + val) % 2 ^ (s + w) * 2 ^ (8 * (j + 1) - (s + w)) := by
      rw [hM, mul_pow_div_pow_le _ (show 8 * (7 - j) ≤ 64 - w - s by omega),
        show 64 - w - s - 8 * (7 - j) = 8 * (j + 1) - (s + w) by omega]
    rw [e1, e2]
    have hdecomp : V * 2 ^ w + val =
        2 ^ (s + w) * ((V * 2 ^ w + val) / 2 ^ (s + w)) +
          (V * 2 ^ w + val) % 2 ^ (s + w) := (Nat.div_add_mod _ _).symm
    conv_lhs => rw [hdecomp]
    rw [add_mul, mul_comm (2 ^ (s + w)) ((V * 2 ^ w + val) / 2 ^ (s + w)), mul_assoc,
      ← pow_add]
    have hz : (V * 2 ^ w + val) / 2 ^ (s + w) *
        2 ^ (s + w + (8 * (j + 1) - (s + w))) % 256 = 0 :=
      mul_pow_mod_256 _ (by omega)
    omega
  · have e1 : (V * 2 ^ w + val) * 2 ^ (8 * (p + j + 1)) / 2 ^ (8 * p + s + w) =
        (V * 2 ^ w + val) / 2 ^ (s + w - 8 * (j + 1)) := by
      rw [mul_pow_div_pow_ge _ (show 8 * (p + j + 1) ≤ 8 * p + s + w by omega),
        show 8 * p + s + w - 8 * (p + j + 1) = s + w - 8 * (j + 1) by omega]
    have e2 : (V % 2 ^ s * 2 ^ w + val) * 2 ^ (64 - w - s) / 2 ^ (8 * (7 - j)) =
        (V * 2 ^ w + val) / 2 ^ (s + w - 8 * (j + 1)) % 2 ^ (8 * (j + 1)) := by
      rw [hM, mul_pow_div_pow_ge _ (show 64 - w - s ≤ 8 * (7 - j) by omega),
        show 8 * (7 - j) - (64 - w - s) = s + w - 8 * (j + 1) by omega,
        mod_pow_div_pow _ (show s + w - 8 * (j + 1) ≤ s + w by omega),
        show s + w - (s + w - 8 * (j + 1)) = 8 * (j + 1) by omega]
    rw [e1, e2]
    have hmm := mod_pow_mod_pow ((V * 2 ^ w + val) / 2 ^ (s + w - 8 * (j + 1)))
      (show 8 ≤ 8 * (j + 1) by omega)
    norm_num at hmm
    exact hmm.symm

theorem store64be_other (m : Mem) (p qw i : Nat) (hi : i < p ∨ p + 7 < i) :
    store64be m p qw i = m i := by
  show (if i = p then _ else if i = p + 1 then _ else if i = p + 2 then _
    else if i = p + 3 then _ else if i = p + 4 then _ else if i = p + 5 then _
    else if i = p + 6 then _ else if i = p + 7 then _ else m i) = m i
  split_ifs with c1 c2 c3 c4 c5 c6 c7 c8
  all_goals first | rfl | omega

theorem store64be_window (m : Mem) (p qw j : Nat) (hj : j ≤ 7) :
    store64be m p qw (p + j) = qw / 2 ^ (8 * (7 - j)) % 256 := by
  interval_cases j <;> simp [store64be] <;> norm_num

theorem bitstream_pack_step (w V S val : Nat) (hw : w + S % 8 ≤ 64)
    (hval : val < 2 ^ w) :
    bitstream_pack (idealMem V S) ⟨w, S / 8, S % 8⟩ val =
      (idealMem (V * 2 ^ w + val) (S + w), ⟨w, (S + w) / 8, (S + w) % 8⟩) := by
  have hpair : bitstream_pack (idealMem V S) ⟨w, S / 8, S % 8⟩ val =
      (store64be (idealMem V S) (S / 8)
        ((load64be (idealMem V S) (S / 8) ||| (val <<< (64 - w - S % 8))) % 2 ^ 64),
       ⟨w, S / 8 + (S % 8 + w) / 8, (S % 8 + w) % 8⟩) := rfl
  rw [hpair]
  have hqw : load64be (idealMem V S) (S / 8) = V % 2 ^ (S % 8) * 2 ^ (64 - S % 8) := by
    rw [load64be_idealMem]
    have h1 : V * 2 ^ (8 * (S / 8 + 8)) / 2 ^ S = V * 2 ^ (64 - S % 8) := by
      rw [mul_pow_div_pow_le V (show S ≤ 8 * (S / 8 + 8) by omega),
        show 8 * (S / 8 + 8) - S = 64 - S % 8 by omega]
    rw [h1]
    have h2 := mul_pow_mod_pow V (show 64 - S % 8 ≤ 64 by omega)
    rwa [show 64 - (64 - S % 8) = S % 8 by omega] at h2
  have hvK : val < 2 ^ (S % 8 + w) :=
    lt_of_lt_of_le hval (Nat.pow_le_pow_right (by norm_num) (by omega))
  have hVs : V % 2 ^ (S % 8) < 2 ^ (S % 8) := Nat.mod_lt _ (Nat.two_pow_pos _)
  have hMlt : V % 2 ^ (S % 8) * 2 ^ w + val < 2 ^ (S % 8 + w) := by
    rw [pow_add]
    have h1 : V % 2 ^ (S % 8) * 2 ^ w + val < (V % 2 ^ (S % 8) + 1) * 2 ^ w := by
      rw [add_mul, one_mul]
      omega
    have h2 : (V % 2 ^ (S % 8) + 1) * 2 ^ w ≤ 2 ^ (S % 8) * 2 ^ w :=
      Nat.mul_le_mul_right _ (by omega)
    omega
  have hqw2 : (load64be (idealMem V S) (S / 8) ||| (val <<< (64 - w - S % 8))) % 2 ^ 64 =
      (V % 2 ^ (S % 8) * 2 ^ w + val) * 2 ^ (64 - w - S % 8) := by
    rw [hqw, Nat.shiftLeft_eq]
    have hb : val * 2 ^ (64 - w - S % 8) < 2 ^ (64 - S % 8) := by
      have hx : (2 : Nat) ^ (64 - S % 8) = 2 ^ w * 2 ^ (64 - w - S % 8) := by
        rw [← pow_add]
        congr 1
        omega
      rw [hx]
      exact Nat.mul_lt_mul_of_lt_of_le hval (le_refl _) (Nat.two_pow_pos _)
    rw [lor_mul_pow_eq_add _ hb]
    have hre : V % 2 ^ (S % 8) * 2 ^ (64 - S % 8) + val * 2 ^ (64 - w - S % 8) =
        (V % 2 ^ (S % 8) * 2 ^ w + val) * 2 ^ (64 - w - S % 8) := by
      rw [show (64 : Nat) - S % 8 = w + (64 - w - S % 8) by omega, pow_add]
      ring
    rw [hre]
    apply Nat.mod_eq_of_lt
    calc (V % 2 ^ (S % 8) * 2 ^ w + val) * 2 ^ (64 - w - S % 8) <
        2 ^ (S % 8 + w) * 2 ^ (64 - w - S % 8) :=
          Nat.mul_lt_mul_of_lt_of_le hMlt (le_refl _) (Nat.two_pow_pos _)
      _ ≤ 2 ^ 64 := by
          rw [← pow_add]
          exact Nat.pow_le_pow_right (by norm_num) (by omega)
  rw [hqw2]
  refine Prod.ext ?_ ?_
  · show store64be (idealMem V S) (S / 8)
        ((V % 2 ^ (S % 8) * 2 ^ w + val) * 2 ^ (64 - w - S % 8)) =
      idealMem (V * 2 ^ w + val) (S + w)
    funext i
    rcases Nat.lt_or_ge i (S / 8) with hi | hi
    · rw [store64be_other _ _ _ _ (Or.inl hi)]
      exact (pack_low_byte V w val S i hval (by omega)).symm
    · rcases Nat.lt_or_ge i (S / 8 + 8) with hi8 | hi8
      · obtain ⟨j, hj, rfl⟩ : ∃ j, j ≤ 7 ∧ i = S / 8 + j := ⟨i - S / 8, by omega, by omega⟩
        rw [store64be_window _ _ _ j hj]
        have hwnd := pack_window_byte V w val (S / 8) (S % 8) (by omega) hw hval j hj
        rw [show 8 * (S / 8) + S % 8 + w = S + w by omega] at hwnd
        exact hwnd.symm
      · rw [store64be_other _ _ _ _ (Or.inr (by omega))]
        rw [idealMem_high V S i (by omega), idealMem_high _ (S + w) i (by omega)]
  · have hc1 : S / 8 + (S % 8 + w) / 8 = (S + w) / 8 := by omega
    have hc2 : (S % 8 + w) % 8 = (S + w) % 8 := by omega
    show (⟨w, S / 8 + (S % 8 + w) / 8, (S % 8 + w) % 8⟩ : BWC) =
      ⟨w, (S + w) / 8, (S + w) % 8⟩
    rw [hc1, hc2]

theorem concatV_concat (w : Nat) (vs : List Nat) (v : Nat) :
    concatV w (vs ++ [v]) = concatV w vs * 2 ^ w + v := by
  unfold concatV
  rw [List.foldl_append]
  rfl

theorem concatV_lt (w : Nat) (vs : List Nat) (hb : ∀ v ∈ vs, v < 2 ^ w) :
    concatV w vs < 2 ^ (w * vs.length) := by
  induction vs using List.reverseRecOn with
  | nil => simp [concatV]
  | append_singleton vs v ih =>
    rw [concatV_concat]
    have hv : v < 2 ^ w := hb v (List.mem_append_right _ (List.mem_singleton_self v))
    have hC : concatV w vs < 2 ^ (w * vs.length) :=
      ih (fun x hx => hb x (List.mem_append_left _ hx))
    rw [List.length_append, List.length_singleton,
      show w * (vs.length + 1) = w * vs.length + w by ring, pow_add]
    have h1 : concatV w vs * 2 ^ w + v < (concatV w vs + 1) * 2 ^ w := by
      rw [add_mul, one_mul]
      omega
    have h2 : (concatV w vs + 1) * 2 ^ w ≤ 2 ^ (w * vs.length) * 2 ^ w :=
      Nat.mul_le_mul_right _ (by omega)
    omega

theorem concatV_slice (w : Nat) (vs : List Nat) (hb : ∀ v ∈ vs, v < 2 ^ w) :
    ∀ k, k < vs.length →
      concatV w vs / 2 ^ (w * (vs.length - k - 1)) % 2 ^ w = vs.getD k 0 := by
  induction vs using List.reverseRecOn with
  | nil => intro k hk; simp at hk
  | append_singleton vs v ih =>
    intro k hk
    have hv : v < 2 ^ w := hb v (List.mem_append_right _ (List.mem_singleton_self v))
    rw [show (vs ++ [v]).length = vs.length + 1 by simp] at hk
    rw [concatV_concat, List.length_append, List.length_singleton]
    rcases Nat.lt_or_ge k vs.length with hklt | hkge
    · rw [show vs.length + 1 - k - 1 = (vs.length - k - 1) + 1 by omega, mul_add,
        mul_one, pow_add, mul_comm (2 ^ (w * (vs.length - k - 1))) (2 ^ w),
        ← Nat.div_div_eq_div_mul,
        add_mul_pow_div_pow (concatV w vs) v (le_refl w), Nat.sub_self, pow_zero,
        mul_one, Nat.div_eq_of_lt hv, Nat.add_zero,
        ih (fun x hx => hb x (List.mem_append_left _ hx)) k hklt,
        List.getD_append _ _ _ _ hklt]
    · have hkeq : k = vs.length := by omega
      subst hkeq
      rw [show vs.length + 1 - vs.length - 1 = 0 by omega, Nat.mul_zero, pow_zero,
        Nat.div_one, Nat.add_mod, Nat.mul_mod_left, Nat.zero_add,
        Nat.mod_mod_of_dvd v (dvd_refl _), Nat.mod_eq_of_lt hv,
        List.getD_append_right _ _ _ _ (le_refl _), Nat.sub_self]
      rfl

theorem pack_fold (w : Nat) (hw : w ≤ 57) (vs : List Nat)
    (hvs : ∀ v ∈ vs, v < 2 ^ w) :
    vs.foldl (fun (mc : Mem × BWC) r => bitstream_pack mc.1 mc.2 r)
      ((fun _ => 0), ⟨w, 0, 0⟩) =
      (idealMem (concatV w vs) (w * vs.length),
       ⟨w, w * vs.length / 8, w * vs.length % 8⟩) := by
  induction vs using List.reverseRecOn with
  | nil =>
    rw [List.foldl_nil]
    refine Prod.ext ?_ ?_
    · exact idealMem_zero
    · show (⟨w, 0, 0⟩ : BWC) = ⟨w, w * [].length / 8, w * [].length % 8⟩
      norm_num
  | append_singleton vs v ih =>
    have hv : v < 2 ^ w := hvs v (List.mem_append_right _ (List.mem_singleton_self v))
    rw [List.foldl_append, ih (fun x hx => hvs x (List.mem_append_left _ hx)),
      List.foldl_cons, List.foldl_nil]
    have hstep := bitstream_pack_step w (concatV w vs) (w * vs.length) v
      (by omega) hv
    rw [hstep, concatV_concat]
    have hlen : (vs ++ [v]).length = vs.length + 1 := by simp
    rw [hlen, show w * (vs.length + 1) = w * vs.length + w by ring]

theorem memOf_range_map (mem : Mem) (n V S : Nat) (hmem : mem = idealMem V S)
    (hS : S ≤ 8 * n) : memOf ((List.range n).map mem) = idealMem V S := by
  funext i
  show ((List.range n).map mem).getD i 0 = idealMem V S i
  rcases Nat.lt_or_ge i n with h | h
  · rw [List.getD_eq_getElem _ 0 (by simpa using h)]
    simp [hmem]
  · rw [List.getD_eq_default _ 0 (by simpa using h),
      idealMem_high V S i (by omega)]

theorem range'_concat_one (s n : Nat) :
    List.range' s (n + 1) = List.range' s n ++ [s + n] := by
  induction n generalizing s with
  | zero => simp
  | succ m ih =>
    rw [List.range'_succ, ih (s + 1), List.range'_succ, List.cons_append,
      show s + 1 + m = s + (m + 1) by omega]

theorem bitstream_unpack_step (w V Stot S : Nat) (hw : w ≤ 32) (hS : S + w ≤ Stot) :
    bitstream_unpack (idealMem V Stot) ⟨w, 2 ^ w - 1, S / 8, S % 8⟩ =
      (V / 2 ^ (Stot - S - w) % 2 ^ w,
       ⟨w, 2 ^ w - 1, (S + w) / 8, (S + w) % 8⟩) := by
  have hpair : bitstream_unpack (idealMem V Stot) ⟨w, 2 ^ w - 1, S / 8, S % 8⟩ =
      (((load64be (idealMem V Stot) (S / 8) >>> (64 - w - S % 8)) &&& 0xffffffff) &&&
         (2 ^ w - 1),
       ⟨w, 2 ^ w - 1, S / 8 + (S % 8 + w) / 8, (S % 8 + w) % 8⟩) := rfl
  rw [hpair]
  refine Prod.ext ?_ ?_
  · show ((load64be (idealMem V Stot) (S / 8) >>> (64 - w - S % 8)) &&& 0xffffffff) &&&
        (2 ^ w - 1) = V / 2 ^ (Stot - S - w) % 2 ^ w
    rw [load64be_idealMem, Nat.shiftRight_eq_div_pow,
      show (0xffffffff : Nat) = 2 ^ 32 - 1 by norm_num, and_mask_eq_mod,
      and_mask_eq_mod,
      mod_pow_div_pow _ (show 64 - w - S % 8 ≤ 64 by omega)]
    rw [mod_pow_mod_pow _ (show w ≤ 32 from hw),
      mod_pow_mod_pow _ (show w ≤ 64 - (64 - w - S % 8) by omega)]
    congr 1
    rw [Nat.div_div_eq_div_mul, ← pow_add,
      mul_pow_div_pow_ge V (show 8 * (S / 8 + 8) ≤ Stot + (64 - w - S % 8) by omega),
      show Stot + (64 - w - S % 8) - 8 * (S / 8 + 8) = Stot - S - w by omega]
  · show (⟨w, 2 ^ w - 1, S / 8 + (S % 8 + w) / 8, (S % 8 + w) % 8⟩ : BRC) =
      ⟨w, 2 ^ w - 1, (S + w) / 8, (S + w) % 8⟩
    rw [show S / 8 + (S % 8 + w) / 8 = (S + w) / 8 by omega,
      show (S % 8 + w) % 8 = (S + w) % 8 by omega]

theorem read_iter_gen (upd : List Nat → Nat → List Nat) (w : Nat) (hw : w ≤ 32)
    (vs : List Nat) (hb : ∀ v ∈ vs, v < 2 ^ w) :
    ∀ (n k : Nat), k + n ≤ vs.length → ∀ (st0 : List Nat),
    (List.range n).foldl (fun (ac : List Nat × BRC) _ =>
        (upd ac.1
          (bitstream_unpack (idealMem (concatV w vs) (w * vs.length)) ac.2).1,
         (bitstream_unpack (idealMem (concatV w vs) (w * vs.length)) ac.2).2))
      (st0, ⟨w, 2 ^ w - 1, w * k / 8, w * k % 8⟩) =
      (((List.range' k n).map (fun j => vs.getD j 0)).foldl upd st0,
       ⟨w, 2 ^ w - 1, w * (k + n) / 8, w * (k + n) % 8⟩) := by
  intro n
  induction n with
  | zero =>
    intro k hk st0
    simp
  | succ n ih =>
    intro k hk st0
    rw [List.range_succ, List.foldl_append, ih k (by omega) st0,
      List.foldl_cons, List.foldl_nil]
    have hmul : w * (k + n) + w ≤ w * vs.length := by
      rw [show w * (k + n) + w = w * (k + n + 1) by ring]
      exact Nat.mul_le_mul_left w (by omega)
    have hstep := bitstream_unpack_step w (concatV w vs) (w * vs.length)
      (w * (k + n)) hw hmul
    rw [hstep]
    have hexp : w * vs.length - w * (k + n) - w = w * (vs.length - (k + n) - 1) := by
      rw [Nat.mul_sub, Nat.mul_sub, Nat.mul_one]
    have hval : concatV w vs / 2 ^ (w * vs.length - w * (k + n) - w) % 2 ^ w =
        vs.getD (k + n) 0 := by
      rw [hexp]
      exact concatV_slice w vs hb (k + n) (by omega)
    show (upd (((List.range' k n).map (fun j => vs.getD j 0)).foldl upd st0)
        (concatV w vs / 2 ^ (w * vs.length - w * (k + n) - w) % 2 ^ w),
      (⟨w, 2 ^ w - 1, (w * (k + n) + w) / 8, (w * (k + n) + w) % 8⟩ : BRC)) = _
    rw [hval, range'_concat_one, List.map_append, List.foldl_append,
      List.map_cons, List.map_nil, List.foldl_cons, List.foldl_nil,
      show w * (k + n) + w = w * (k + (n + 1)) by ring]

theorem foldl_append_singleton (l : List Nat) :
    ∀ a0 : List Nat, l.foldl (fun a v => a ++ [v]) a0 = a0 ++ l := by
  induction l with
  | nil => intro a0; simp
  | cons x xs ih =>
    intro a0
    rw [List.foldl_cons, ih (a0 ++ [x]), List.append_assoc, List.singleton_append]

theorem map_range'_getD (l : List Nat) (n : Nat) (hn : n = l.length) :
    (List.range' 0 n).map (fun j => l.getD j 0) = l := by
  subst hn
  rw [← List.range_eq_range']
  apply List.ext_getElem (by simp)
  intro i h1 h2
  simp only [List.getElem_map, List.getElem_range]
  rw [List.getD_eq_getElem l 0 h2]

theorem read_iter_dense0 (w : Nat) (hw : w ≤ 32) (vs : List Nat)
    (hb : ∀ v ∈ vs, v < 2 ^ w) (n : Nat) (hn : n ≤ vs.length) (st0 : List Nat) :
    (List.range n).foldl (fun (ac : List Nat × BRC) _ =>
        let r := bitstream_unpack (idealMem (concatV w vs) (w * vs.length)) ac.2
        (ac.1 ++ [r.1], r.2))
      (st0, ⟨w, 2 ^ w - 1, 0, 0⟩) =
      (st0 ++ (List.range' 0 n).map (fun j => vs.getD j 0),
       ⟨w, 2 ^ w - 1, w * n / 8, w * n % 8⟩) := by
  have h := read_iter_gen (fun a v => a ++ [v]) w hw vs hb n 0 (by omega) st0
  rw [Nat.mul_zero, Nat.zero_div, Nat.zero_mod, Nat.zero_add,
    foldl_append_singleton] at h
  exact h

theorem compressed_pack_eval (regs : List Nat) (w : Nat) (hw : w ≤ 57)
    (hb : ∀ r ∈ regs, r < 2 ^ w) :
    compressed_pack regs w ((w * regs.length + 7) / 8) =
      .ok (idealMem (concatV w regs) (w * regs.length)) := by
  unfold compressed_pack
  rw [if_neg (show ¬((w * regs.length + 7) / 8 * 8 < w * regs.length) by omega),
    if_neg (show ¬((w * regs.length + 7) / 8 * 8 - w * regs.length ≥ 8) by omega),
    pack_fold w hw regs hb]

theorem compressed_unpack_eval (regs : List Nat) (w : Nat) (hw : w ≤ 32)
    (hb : ∀ r ∈ regs, r < 2 ^ w) (body : List Nat)
    (hbody : memOf body = idealMem (concatV w regs) (w * regs.length))
    (hlen : body.length = (w * regs.length + 7) / 8) :
    compressed_unpack w regs.length body = .ok regs := by
  unfold compressed_unpack
  rw [if_neg (show ¬(body.length * 8 < w * regs.length) by omega),
    if_neg (show ¬(body.length * 8 - w * regs.length ≥ 8) by omega)]
  simp only [hbody]
  rw [read_iter_dense0 w hw regs hb regs.length (le_refl _) [],
    List.nil_append, map_range'_getD regs regs.length rfl]

theorem foldl_ite_filter {β : Type} (p : Nat → Prop) [DecidablePred p]
    (f : β → Nat → β) :
    ∀ (l : List Nat) (init : β),
    l.foldl (fun acc x => if p x then f acc x else acc) init =
      (l.filter (fun x => decide (p x))).foldl f init := by
  intro l
  induction l with
  | nil => intro init; rfl
  | cons x xs ih =>
    intro init
    rw [List.foldl_cons, List.filter_cons]
    by_cases hx : p x
    · rw [if_pos hx, ih (f init x), if_pos (decide_eq_true hx), List.foldl_cons]
    · rw [if_neg hx, ih init, if_neg (by simpa using hx)]

theorem numfilled_acc (regs : List Nat) :
    ∀ acc : Nat, regs.foldl (fun n r => if r > 0 then n + 1 else n) acc =
      acc + (regs.filter (fun r => decide (r ≠ 0))).length := by
  induction regs with
  | nil => intro acc; simp
  | cons r rs ih =>
    intro acc
    rw [List.foldl_cons, List.filter_cons]
    by_cases hr : r = 0
    · subst hr
      rw [if_neg (by omega), if_neg (by simp)]
      exact ih acc
    · rw [if_pos (by omega), if_pos (by simpa using hr), ih (acc + 1),
        List.length_cons]
      omega

theorem numfilled_eq_filter_range (regs : List Nat) (nregs : Nat)
    (hlen : regs.length = nregs) :
    numfilled regs =
      ((List.range nregs).filter (fun ndx => decide (regs.getD ndx 0 ≠ 0))).length := by
  subst hlen
  unfold numfilled
  rw [numfilled_acc regs 0, Nat.zero_add]
  have hmap : List.range regs.length = (List.range regs.length).map id := by simp
  have h1 : (List.range regs.length).filter (fun ndx => decide (regs.getD ndx 0 ≠ 0)) =
      (List.range regs.length).filter
        ((fun r => decide (r ≠ 0)) ∘ (fun ndx => regs.getD ndx 0)) := rfl
  have h2 : (List.range regs.length).map (fun ndx => regs.getD ndx 0) = regs := by
    apply List.ext_getElem (by simp)
    intro i hi1 hi2
    simp only [List.getElem_map, List.getElem_range]
    rw [List.getD_eq_getElem regs 0 hi2]
  have h3 := @List.filter_map Nat Nat (fun r => decide (r ≠ 0))
    (fun ndx => regs.getD ndx 0) (List.range regs.length)
  have h4 : (((List.range regs.length).filter
      ((fun r => decide (r ≠ 0)) ∘ (fun ndx => regs.getD ndx 0))).map
        (fun ndx => regs.getD ndx 0)).length =
      ((List.range regs.length).filter
        ((fun r => decide (r ≠ 0)) ∘ (fun ndx => regs.getD ndx 0))).length :=
    List.length_map _ _
  rw [h1, ← h4, ← h3, h2]

theorem foldl_congr_mem {α β : Type} (l : List α) (f g : β → α → β)
    (h : ∀ a ∈ l, ∀ b, f b a = g b a) : ∀ init, l.foldl f init = l.foldl g init := by
  induction l with
  | nil => intro init; rfl
  | cons x xs ih =>
    intro init
    rw [List.foldl_cons, List.foldl_cons, h x (by simp)]
    exact ih (fun a ha b => h a (by simp [ha]) b) _

theorem foldl_set_length (idxs : List Nat) (g : Nat → Nat) :
    ∀ init : List Nat,
      (idxs.foldl (fun acc ndx => acc.set ndx (g ndx)) init).length = init.length := by
  induction idxs with
  | nil => intro init; rfl
  | cons a as ih =>
    intro init
    rw [List.foldl_cons, ih (init.set a (g a)), List.length_set]

theorem scatter_getD (g : Nat → Nat) :
    ∀ (idxs : List Nat), idxs.Nodup → ∀ (init : List Nat) (i : Nat), i < init.length →
    (idxs.foldl (fun acc ndx => acc.set ndx (g ndx)) init).getD i 0 =
      if i ∈ idxs then g i else init.getD i 0 := by
  intro idxs
  induction idxs with
  | nil =>
    intro _ init i _
    simp
  | cons a as ih =>
    intro hnd init i hi
    obtain ⟨ha, hnd'⟩ := List.nodup_cons.mp hnd
    rw [List.foldl_cons]
    by_cases hia : i = a
    · subst hia
      rw [ih hnd' (init.set i (g i)) i (by rw [List.length_set]; exact hi),
        if_neg ha, getD_set_self _ _ hi, if_pos (List.mem_cons_self i as)]
    · rw [ih hnd' (init.set a (g a)) i (by rw [List.length_set]; exact hi),
        getD_set_ne _ _ (fun h => hia h.symm)]
      by_cases hmem : i ∈ as
      · rw [if_pos hmem, if_pos (by simp [hmem])]
      · rw [if_neg hmem, if_neg (by simp [hia, hmem])]

theorem scatter_filter_range (regs : List Nat) (nregs : Nat)
    (hlen : regs.length = nregs) :
    ((List.range nregs).filter (fun ndx => decide (regs.getD ndx 0 ≠ 0))).foldl
      (fun acc ndx => acc.set ndx (regs.getD ndx 0)) (List.replicate nregs 0) =
    regs := by
  subst hlen
  apply List.ext_getElem
  · rw [foldl_set_length, List.length_replicate]
  intro i h1 h2
  have hnd : ((List.range regs.length).filter
      (fun ndx => decide (regs.getD ndx 0 ≠ 0))).Nodup :=
    (List.nodup_range _).filter _
  have hg := scatter_getD (fun ndx => regs.getD ndx 0) _ hnd
    (List.replicate regs.length 0) i (by simpa using h2)
  rw [← List.getD_eq_getElem _ 0 h1, ← List.getD_eq_getElem regs 0 h2, hg]
  have hmem : i ∈ (List.range regs.length).filter
      (fun ndx => decide (regs.getD ndx 0 ≠ 0)) ↔ regs.getD i 0 ≠ 0 := by
    rw [List.mem_filter, List.mem_range]
    simp [h2]
  by_cases hz : regs.getD i 0 = 0
  · rw [if_neg (fun hm => (hmem.mp hm) hz),
      List.getD_eq_getElem _ 0 (by simpa using h2), List.getElem_replicate, hz]
  · rw [if_pos (hmem.mpr hz)]

theorem read_iter_scatter0 (w nb : Nat) (hw : w ≤ 32) (vs : List Nat)
    (hb : ∀ v ∈ vs, v < 2 ^ w) (n : Nat) (hn : n ≤ vs.length) (st0 : List Nat) :
    (List.range n).foldl (fun (ac : List Nat × BRC) _ =>
        let r := bitstream_unpack (idealMem (concatV w vs) (w * vs.length)) ac.2
        (ac.1.set (r.1 >>> nb) (r.1 &&& (2 ^ nb - 1)), r.2))
      (st0, ⟨w, 2 ^ w - 1, 0, 0⟩) =
      (((List.range' 0 n).map (fun j => vs.getD j 0)).foldl
         (fun a v => a.set (v >>> nb) (v &&& (2 ^ nb - 1))) st0,
       ⟨w, 2 ^ w - 1, w * n / 8, w * n % 8⟩) := by
  have h := read_iter_gen (fun a v => a.set (v >>> nb) (v &&& (2 ^ nb - 1))) w hw vs hb
    n 0 (by omega) st0
  rw [Nat.mul_zero, Nat.zero_div, Nat.zero_mod, Nat.zero_add] at h
  exact h

theorem chunk_bound (regs : List Nat) (w log2 : Nat) (hlen : regs.length = 2 ^ log2)
    (hb : ∀ r ∈ regs, r < 2 ^ w) :
    ∀ v ∈ ((List.range (2 ^ log2)).filter
        (fun ndx => decide (regs.getD ndx 0 ≠ 0))).map
      (fun ndx => ndx * 2 ^ w + regs.getD ndx 0), v < 2 ^ (log2 + w) := by
  intro v hv
  obtain ⟨ndx, hndx, rfl⟩ := List.mem_map.mp hv
  have hlt : ndx < 2 ^ log2 := List.mem_range.mp (List.mem_filter.mp hndx).1
  have hreg : regs.getD ndx 0 < 2 ^ w := by
    rw [List.getD_eq_getElem regs 0 (by omega)]
    exact hb _ (List.getElem_mem _)
  have h1 : ndx * 2 ^ w + regs.getD ndx 0 < (ndx + 1) * 2 ^ w := by
    rw [add_mul, one_mul]
    omega
  have h2 : (ndx + 1) * 2 ^ w ≤ 2 ^ log2 * 2 ^ w := Nat.mul_le_mul_right _ (by omega)
  rw [pow_add]
  omega

theorem sparse_pack_eval (regs : List Nat) (w log2 : Nat) (hcw : log2 + w ≤ 32)
    (hlen : regs.length = 2 ^ log2) (hb : ∀ r ∈ regs, r < 2 ^ w) :
    sparse_pack regs w (2 ^ log2) log2 (numfilled regs)
        (((log2 + w) * numfilled regs + 7) / 8) =
      .ok (idealMem
        (concatV (log2 + w)
          (((List.range (2 ^ log2)).filter
              (fun ndx => decide (regs.getD ndx 0 ≠ 0))).map
            (fun ndx => ndx * 2 ^ w + regs.getD ndx 0)))
        ((log2 + w) * numfilled regs)) := by
  unfold sparse_pack
  have hc1 : ¬(((log2 + w) * numfilled regs + 7) / 8 * 8 <
      numfilled regs * (log2 + w)) := by
    rw [mul_comm (numfilled regs) (log2 + w)]
    generalize (log2 + w) * numfilled regs = B
    omega
  have hc2 : ¬(((log2 + w) * numfilled regs + 7) / 8 * 8 -
      numfilled regs * (log2 + w) ≥ 8) := by
    rw [mul_comm (numfilled regs) (log2 + w)]
    generalize (log2 + w) * numfilled regs = B
    omega
  rw [if_neg hc1, if_neg hc2,
    foldl_ite_filter (fun ndx => regs.getD ndx 0 ≠ 0)
      (fun (mc : Mem × BWC) ndx =>
        bitstream_pack mc.1 mc.2 (((ndx <<< w) ||| regs.getD ndx 0) % 2 ^ 32))]
  have hpt : ∀ ndx ∈ (List.range (2 ^ log2)).filter
      (fun ndx => decide (regs.getD ndx 0 ≠ 0)), ∀ mc : Mem × BWC,
      bitstream_pack mc.1 mc.2 (((ndx <<< w) ||| regs.getD ndx 0) % 2 ^ 32) =
      bitstream_pack mc.1 mc.2 (ndx * 2 ^ w + regs.getD ndx 0) := by
    intro ndx hndx mc
    have hlt : ndx < 2 ^ log2 := List.mem_range.mp (List.mem_filter.mp hndx).1
    have hreg : regs.getD ndx 0 < 2 ^ w := by
      rw [List.getD_eq_getElem regs 0 (by omega)]
      exact hb _ (List.getElem_mem _)
    congr 1
    rw [shiftLeft_lor_eq_add ndx hreg]
    apply Nat.mod_eq_of_lt
    have h1 : ndx * 2 ^ w + regs.getD ndx 0 < (ndx + 1) * 2 ^ w := by
      rw [add_mul, one_mul]
      omega
    have h2 : (ndx + 1) * 2 ^ w ≤ 2 ^ log2 * 2 ^ w := Nat.mul_le_mul_right _ (by omega)
    have h3 : (2 : Nat) ^ log2 * 2 ^ w ≤ 2 ^ 32 := by
      rw [← pow_add]
      exact Nat.pow_le_pow_right (by norm_num) hcw
    omega
  have hcongr := foldl_congr_mem
    ((List.range (2 ^ log2)).filter (fun ndx => decide (regs.getD ndx 0 ≠ 0)))
    (fun (mc : Mem × BWC) ndx =>
      bitstream_pack mc.1 mc.2 (((ndx <<< w) ||| regs.getD ndx 0) % 2 ^ 32))
    (fun (mc : Mem × BWC) ndx =>
      bitstream_pack mc.1 mc.2 (ndx * 2 ^ w + regs.getD ndx 0))
    hpt ((fun _ => 0), ⟨log2 + w, 0, 0⟩)
  rw [hcongr, ← List.foldl_map (fun ndx => ndx * 2 ^ w + regs.getD ndx 0)
      (fun (mc : Mem × BWC) v => bitstream_pack mc.1 mc.2 v),
    pack_fold (log2 + w) (by omega) _ (chunk_bound regs w log2 hlen hb),
    List.length_map, ← numfilled_eq_filter_range regs (2 ^ log2) hlen]

theorem sparse_unpack_eval (regs : List Nat) (w log2 : Nat)
    (hcw : log2 + w ≤ 32) (hlen : regs.length = 2 ^ log2)
    (hb : ∀ r ∈ regs, r < 2 ^ w) (body : List Nat) (nf : Nat)
    (hnf : nf = numfilled regs)
    (hbody : memOf body = idealMem
      (concatV (log2 + w)
        (((List.range (2 ^ log2)).filter
            (fun ndx => decide (regs.getD ndx 0 ≠ 0))).map
          (fun ndx => ndx * 2 ^ w + regs.getD ndx 0)))
      ((log2 + w) * numfilled regs))
    (hblen : body.length = ((log2 + w) * numfilled regs + 7) / 8) :
    sparse_unpack w log2 nf (List.replicate (2 ^ log2) 0) body = .ok regs := by
  have hchlen : (((List.range (2 ^ log2)).filter
      (fun ndx => decide (regs.getD ndx 0 ≠ 0))).map
        (fun ndx => ndx * 2 ^ w + regs.getD ndx 0)).length = numfilled regs := by
    rw [List.length_map, ← numfilled_eq_filter_range regs (2 ^ log2) hlen]
  unfold sparse_unpack
  have hpad : ¬(body.length * 8 - (log2 + w) * nf ≥ 8) := by
    rw [hnf, hblen]
    generalize (log2 + w) * numfilled regs = B
    omega
  rw [if_neg hpad]
  have hcmul : (log2 + w) * numfilled regs =
      (log2 + w) * (((List.range (2 ^ log2)).filter
        (fun ndx => decide (regs.getD ndx 0 ≠ 0))).map
          (fun ndx => ndx * 2 ^ w + regs.getD ndx 0)).length := by
    rw [hchlen]
  rw [hcmul] at hbody
  simp only [hbody]
  rw [read_iter_scatter0 (log2 + w) w hcw _
      (chunk_bound regs w log2 hlen hb) nf (by rw [hchlen, hnf]) _,
    map_range'_getD _ nf (by rw [hchlen, hnf]),
    List.foldl_map (fun ndx => ndx * 2 ^ w + regs.getD ndx 0)
      (fun (a : List Nat) (v : Nat) => a.set (v >>> w) (v &&& (2 ^ w - 1)))]
  have hpt : ∀ ndx ∈ (List.range (2 ^ log2)).filter
      (fun ndx => decide (regs.getD ndx 0 ≠ 0)), ∀ a : List Nat,
      a.set ((ndx * 2 ^ w + regs.getD ndx 0) >>> w)
        ((ndx * 2 ^ w + regs.getD ndx 0) &&& (2 ^ w - 1)) =
      a.set ndx (regs.getD ndx 0) := by
    intro ndx hndx a
    have hlt : ndx < 2 ^ log2 := List.mem_range.mp (List.mem_filter.mp hndx).1
    have hreg : regs.getD ndx 0 < 2 ^ w := by
      rw [List.getD_eq_getElem regs 0 (by omega)]
      exact hb _ (List.getElem_mem _)
    have hshift : (ndx * 2 ^ w + regs.getD ndx 0) >>> w = ndx := by
      rw [Nat.shiftRight_eq_div_pow, add_mul_pow_div_pow ndx _ (le_refl w),
        Nat.sub_self, pow_zero, mul_one, Nat.div_eq_of_lt hreg, Nat.add_zero]
    have hmask : (ndx * 2 ^ w + regs.getD ndx 0) &&& (2 ^ w - 1) = regs.getD ndx 0 := by
      rw [and_mask_eq_mod, Nat.add_mod, Nat.mul_mod_left, Nat.zero_add,
        Nat.mod_mod_of_dvd _ (dvd_refl _), Nat.mod_eq_of_lt hreg]
    rw [hshift, hmask]
  rw [foldl_congr_mem _ _ _ hpt (List.replicate (2 ^ log2) 0),
    scatter_filter_range regs (2 ^ log2) hlen]

theorem unpack_bytes_empty (b1 b2 : Nat) :
    multiset_unpack [17, b1, b2] = .ok (unpack_header [17, b1, b2] .emptyD) := by
  simp only [multiset_unpack]
  rw [show ([17, b1, b2] : List Nat).getD 0 0 = 17 from rfl,
    show ((17 : Nat) >>> 4) &&& 0xf = 1 from by decide,
    show (17 : Nat) &&& 0xf = MST_EMPTY from by decide,
    if_neg (show ¬(1 ≠ 1) from by omega), if_pos rfl,
    if_neg (show ¬(([17, b1, b2] : List Nat).length ≠ 3) from by simp)]

theorem unpack_bytes_undefined (b1 b2 : Nat) :
    multiset_unpack [16, b1, b2] = .ok (unpack_header [16, b1, b2] .undefinedD) := by
  simp only [multiset_unpack]
  rw [show ([16, b1, b2] : List Nat).getD 0 0 = 16 from rfl,
    show ((16 : Nat) >>> 4) &&& 0xf = 1 from by decide,
    show (16 : Nat) &&& 0xf = MST_UNDEFINED from by decide,
    if_neg (show ¬(1 ≠ 1) from by omega),
    if_neg (show ¬(MST_UNDEFINED = MST_EMPTY) from by decide),
    if_neg (show ¬(MST_UNDEFINED = MST_EXPLICIT) from by decide),
    if_neg (show ¬(MST_UNDEFINED = MST_COMPRESSED) from by decide),
    if_pos rfl,
    if_neg (show ¬(([16, b1, b2] : List Nat).length ≠ 3) from by simp)]

theorem roundtrip_empty (ms : Multiset_t) (hwf : wf_params ms)
    (h0 : ms.ms_data = .emptyD) (max_sparse : Int) :
    multiset_pack max_sparse ms (multiset_packed_size max_sparse ms) =
      .ok (pack_header 1 MST_EMPTY ms.ms_nbits ms.ms_log2nregs ms.ms_expthresh
        ms.ms_sparseon) ∧
    multiset_unpack (pack_header 1 MST_EMPTY ms.ms_nbits ms.ms_log2nregs
      ms.ms_expthresh ms.ms_sparseon) = .ok ms := by
  obtain ⟨hnr, hl, hn1, hn8, hsp, he⟩ := hwf
  constructor
  · unfold multiset_pack
    rw [h0]
  · rw [pack_header_bytes _ _ _ _ _ (by decide) hn1 hn8 hl hsp
      (encode_expthresh_le_63 he),
      show (16 : Nat) + MST_EMPTY = 17 from rfl, unpack_bytes_empty]
    have hu := unpack_header_of_packed ms MST_EMPTY (by decide)
      ⟨hnr, hl, hn1, hn8, hsp, he⟩ [] .emptyD
    rw [List.append_nil, pack_header_bytes _ _ _ _ _ (by decide) hn1 hn8 hl hsp
      (encode_expthresh_le_63 he),
      show (16 : Nat) + MST_EMPTY = 17 from rfl] at hu
    rw [hu]
    rw [show { ms with ms_data := .emptyD } = ms from by rw [← h0]]

theorem roundtrip_undefined (ms : Multiset_t) (hwf : wf_params ms)
    (h0 : ms.ms_data = .undefinedD) (max_sparse : Int) :
    multiset_pack max_sparse ms (multiset_packed_size max_sparse ms) =
      .ok (pack_header 1 MST_UNDEFINED ms.ms_nbits ms.ms_log2nregs ms.ms_expthresh
        ms.ms_sparseon) ∧
    multiset_unpack (pack_header 1 MST_UNDEFINED ms.ms_nbits ms.ms_log2nregs
      ms.ms_expthresh ms.ms_sparseon) = .ok ms := by
  obtain ⟨hnr, hl, hn1, hn8, hsp, he⟩ := hwf
  constructor
  · unfold multiset_pack
    rw [h0]
  · rw [pack_header_bytes _ _ _ _ _ (by decide) hn1 hn8 hl hsp
      (encode_expthresh_le_63 he),
      show (16 : Nat) + MST_UNDEFINED = 16 from rfl, unpack_bytes_undefined]
    have hu := unpack_header_of_packed ms MST_UNDEFINED (by decide)
      ⟨hnr, hl, hn1, hn8, hsp, he⟩ [] .undefinedD
    rw [List.append_nil, pack_header_bytes _ _ _ _ _ (by decide) hn1 hn8 hl hsp
      (encode_expthresh_le_63 he),
      show (16 : Nat) + MST_UNDEFINED = 16 from rfl] at hu
    rw [hu]
    rw [show { ms with ms_data := .undefinedD } = ms from by rw [← h0]]

theorem roundtrip_explicit (ms : Multiset_t) (hwf : wf_params ms) (es : List Nat)
    (h0 : ms.ms_data = .expl es) (hdata : wf_data ms) (max_sparse : Int) :
    multiset_pack max_sparse ms (multiset_packed_size max_sparse ms) =
      .ok (pack_header 1 MST_EXPLICIT ms.ms_nbits ms.ms_log2nregs ms.ms_expthresh
        ms.ms_sparseon ++ es.flatMap writeBE8) ∧
    multiset_unpack (pack_header 1 MST_EXPLICIT ms.ms_nbits ms.ms_log2nregs
      ms.ms_expthresh ms.ms_sparseon ++ es.flatMap writeBE8) = .ok ms := by
  obtain ⟨hnr, hl, hn1, hn8, hsp, he⟩ := hwf
  have hd : es.length * 8 ≤ MS_MAXDATA ∧ ascending_pairs es = true ∧
      ∀ e ∈ es, e < 2 ^ 64 := by
    have h2 := hdata
    unfold wf_data at h2
    rw [h0] at h2
    exact h2
  obtain ⟨hmax, hasc, hbnd⟩ := hd
  constructor
  · unfold multiset_pack
    rw [h0]
  · rw [pack_header_bytes _ _ _ _ _ (by decide) hn1 hn8 hl hsp
      (encode_expthresh_le_63 he)]
    simp only [multiset_unpack]
    have hget0 : (([16 + MST_EXPLICIT, (ms.ms_nbits - 1) * 32 + ms.ms_log2nregs,
        ms.ms_sparseon * 64 + encode_expthresh ms.ms_expthresh] : List Nat) ++
          es.flatMap writeBE8).getD 0 0 = 18 := by
      rw [List.getD_append _ _ _ _ (by norm_num)]
      rfl
    rw [hget0, show ((18 : Nat) >>> 4) &&& 0xf = 1 from by decide,
      show (18 : Nat) &&& 0xf = MST_EXPLICIT from by decide,
      if_neg (show ¬(1 ≠ 1) from by omega),
      if_neg (show ¬(MST_EXPLICIT = MST_EMPTY) from by decide),
      if_pos rfl]
    have hlen : (([16 + MST_EXPLICIT, (ms.ms_nbits - 1) * 32 + ms.ms_log2nregs,
        ms.ms_sparseon * 64 + encode_expthresh ms.ms_expthresh] : List Nat) ++
          es.flatMap writeBE8).length = 3 + 8 * es.length := by
      rw [List.length_append, length_flatMap_writeBE8]
      norm_num
    rw [hlen,
      if_neg (show ¬((3 + 8 * es.length - 3) % 8 ≠ 0) from by omega),
      if_neg (show ¬(3 + 8 * es.length - 3 > MS_MAXDATA) from by
        have h3 := hmax
        unfold MS_MAXDATA at h3 ⊢
        omega),
      show (3 + 8 * es.length - 3) / 8 = es.length by omega,
      explicit_decode_map _ (by simp) es hbnd, if_pos hasc]
    have hu := unpack_header_of_packed ms MST_EXPLICIT (by decide)
      ⟨hnr, hl, hn1, hn8, hsp, he⟩ (es.flatMap writeBE8) (.expl es)
    rw [pack_header_bytes _ _ _ _ _ (by decide) hn1 hn8 hl hsp
      (encode_expthresh_le_63 he)] at hu
    rw [hu, show { ms with ms_data := .expl es } = ms from by rw [← h0]]

theorem multiset_pack_comp (max_sparse : Int) (ms : Multiset_t) (rs : List Nat)
    (h : ms.ms_data = .comp rs) (i_size : Nat) :
    multiset_pack max_sparse ms i_size =
      (if ms.ms_sparseon ≠ 0 ∧
          ((max_sparse ≠ -1 ∧ (numfilled rs : Int) ≤ max_sparse) ∨
           (max_sparse = -1 ∧ numfilled rs * (ms.ms_log2nregs + ms.ms_nbits) <
             ms.ms_nregs * ms.ms_nbits)) then
        (sparse_pack rs ms.ms_nbits ms.ms_nregs ms.ms_log2nregs (numfilled rs)
            (i_size - 3)).map
          (fun mem => pack_header 1 MST_SPARSE ms.ms_nbits ms.ms_log2nregs
            ms.ms_expthresh ms.ms_sparseon ++ (List.range (i_size - 3)).map mem)
      else
        (compressed_pack rs ms.ms_nbits (i_size - 3)).map
          (fun mem => pack_header 1 MST_COMPRESSED ms.ms_nbits ms.ms_log2nregs
            ms.ms_expthresh ms.ms_sparseon ++ (List.range (i_size - 3)).map mem)) := by
  unfold multiset_pack
  rw [h]

theorem multiset_packed_size_comp (max_sparse : Int) (ms : Multiset_t) (rs : List Nat)
    (h : ms.ms_data = .comp rs) :
    multiset_packed_size max_sparse ms =
      (if ms.ms_sparseon ≠ 0 ∧
          ((max_sparse ≠ -1 ∧ (numfilled rs : Int) ≤ max_sparse) ∨
           (max_sparse = -1 ∧ numfilled rs * (ms.ms_log2nregs + ms.ms_nbits) <
             ms.ms_nregs * ms.ms_nbits)) then
        3 + (numfilled rs * (ms.ms_log2nregs + ms.ms_nbits) + 7) / 8
      else 3 + (ms.ms_nregs * ms.ms_nbits + 7) / 8) := by
  unfold multiset_packed_size
  rw [h]

theorem roundtrip_comp_dense (ms : Multiset_t) (hwf : wf_params ms) (rs : List Nat)
    (h0 : ms.ms_data = .comp rs) (hdata : wf_data ms) (max_sparse : Int)
    (hnosp : ¬(ms.ms_sparseon ≠ 0 ∧
      ((max_sparse ≠ -1 ∧ (numfilled rs : Int) ≤ max_sparse) ∨
       (max_sparse = -1 ∧ numfilled rs * (ms.ms_log2nregs + ms.ms_nbits) <
         ms.ms_nregs * ms.ms_nbits)))) :
    multiset_pack max_sparse ms (multiset_packed_size max_sparse ms) =
      .ok (pack_header 1 MST_COMPRESSED ms.ms_nbits ms.ms_log2nregs ms.ms_expthresh
        ms.ms_sparseon ++
        (List.range ((ms.ms_nregs * ms.ms_nbits + 7) / 8)).map
          (idealMem (concatV ms.ms_nbits rs) (ms.ms_nbits * rs.length))) ∧
    multiset_unpack (pack_header 1 MST_COMPRESSED ms.ms_nbits ms.ms_log2nregs
      ms.ms_expthresh ms.ms_sparseon ++
      (List.range ((ms.ms_nregs * ms.ms_nbits + 7) / 8)).map
        (idealMem (concatV ms.ms_nbits rs) (ms.ms_nbits * rs.length))) = .ok ms := by
  obtain ⟨hnr, hl, hn1, hn8, hsp, he⟩ := hwf
  have hd : rs.length = ms.ms_nregs ∧ ms.ms_nregs ≤ MS_MAXDATA ∧
      ∀ r ∈ rs, r < 2 ^ ms.ms_nbits := by
    have h2 := hdata
    unfold wf_data at h2
    rw [h0] at h2
    exact h2
  obtain ⟨hrslen, hmax, hb⟩ := hd
  have hsz : multiset_packed_size max_sparse ms =
      3 + (ms.ms_nregs * ms.ms_nbits + 7) / 8 := by
    rw [multiset_packed_size_comp max_sparse ms rs h0, if_neg hnosp]
  have hmm : (ms.ms_nregs * ms.ms_nbits + 7) / 8 = (ms.ms_nbits * rs.length + 7) / 8 := by
    rw [hrslen, mul_comm]
  constructor
  · rw [multiset_pack_comp max_sparse ms rs h0, if_neg hnosp, hsz,
      Nat.add_sub_cancel_left, hmm, compressed_pack_eval rs ms.ms_nbits (by omega) hb]
    rw [← hmm]
    rfl
  · rw [pack_header_bytes _ _ _ _ _ (by decide) hn1 hn8 hl hsp
      (encode_expthresh_le_63 he)]
    simp only [multiset_unpack]
    have hget0 : (([16 + MST_COMPRESSED, (ms.ms_nbits - 1) * 32 + ms.ms_log2nregs,
        ms.ms_sparseon * 64 + encode_expthresh ms.ms_expthresh] : List Nat) ++
        (List.range ((ms.ms_nregs * ms.ms_nbits + 7) / 8)).map
          (idealMem (concatV ms.ms_nbits rs) (ms.ms_nbits * rs.length))).getD 0 0 =
        20 := by
      rw [List.getD_append _ _ _ _ (by norm_num)]
      rfl
    have hget1 : (([16 + MST_COMPRESSED, (ms.ms_nbits - 1) * 32 + ms.ms_log2nregs,
        ms.ms_sparseon * 64 + encode_expthresh ms.ms_expthresh] : List Nat) ++
        (List.range ((ms.ms_nregs * ms.ms_nbits + 7) / 8)).map
          (idealMem (concatV ms.ms_nbits rs) (ms.ms_nbits * rs.length))).getD 1 0 =
        (ms.ms_nbits - 1) * 32 + ms.ms_log2nregs := by
      rw [List.getD_append _ _ _ _ (by norm_num)]
      rfl
    rw [hget0, hget1, show ((20 : Nat) >>> 4) &&& 0xf = 1 from by decide,
      show (20 : Nat) &&& 0xf = MST_COMPRESSED from by decide,
      if_neg (show ¬(1 ≠ 1) from by omega),
      if_neg (show ¬(MST_COMPRESSED = MST_EMPTY) from by decide),
      if_neg (show ¬(MST_COMPRESSED = MST_EXPLICIT) from by decide),
      if_pos rfl]
    have hx1 : ((ms.ms_nbits - 1) * 32 + ms.ms_log2nregs) >>> 5 + 1 = ms.ms_nbits := by
      rw [Nat.shiftRight_eq_div_pow]
      omega
    have hx2 : ((ms.ms_nbits - 1) * 32 + ms.ms_log2nregs) &&& 0x1f =
        ms.ms_log2nregs := by
      rw [show (0x1f : Nat) = 2 ^ 5 - 1 by norm_num, and_mask_eq_mod]
      omega
    rw [hx1, hx2]
    have hlen : (([16 + MST_COMPRESSED, (ms.ms_nbits - 1) * 32 + ms.ms_log2nregs,
        ms.ms_sparseon * 64 + encode_expthresh ms.ms_expthresh] : List Nat) ++
        (List.range ((ms.ms_nregs * ms.ms_nbits + 7) / 8)).map
          (idealMem (concatV ms.ms_nbits rs) (ms.ms_nbits * rs.length))).length =
        3 + (ms.ms_nregs * ms.ms_nbits + 7) / 8 := by
      rw [List.length_append, List.length_map, List.length_range]
      norm_num
    rw [hlen,
      if_neg (show ¬(3 + (ms.ms_nregs * ms.ms_nbits + 7) / 8 - 3 ≠
        (ms.ms_nbits * 2 ^ ms.ms_log2nregs + 7) / 8) from by
          rw [Nat.add_sub_cancel_left, ← hnr, mul_comm ms.ms_nbits ms.ms_nregs]
          omega),
      if_neg (show ¬(2 ^ ms.ms_log2nregs > MS_MAXDATA) from by
        rw [← hnr]
        omega)]
    have hdrop : (([16 + MST_COMPRESSED, (ms.ms_nbits - 1) * 32 + ms.ms_log2nregs,
        ms.ms_sparseon * 64 + encode_expthresh ms.ms_expthresh] : List Nat) ++
        (List.range ((ms.ms_nregs * ms.ms_nbits + 7) / 8)).map
          (idealMem (concatV ms.ms_nbits rs) (ms.ms_nbits * rs.length))).drop 3 =
        (List.range ((ms.ms_nregs * ms.ms_nbits + 7) / 8)).map
          (idealMem (concatV ms.ms_nbits rs) (ms.ms_nbits * rs.length)) := by
      simp
    rw [hdrop, show (2 : Nat) ^ ms.ms_log2nregs = rs.length from by rw [hrslen, hnr],
      compressed_unpack_eval rs ms.ms_nbits (by omega) hb _
        (memOf_range_map _ _ _ _ rfl (by
          rw [hrslen, mul_comm ms.ms_nbits ms.ms_nregs]
          generalize ms.ms_nregs * ms.ms_nbits = B
          omega))
        (by
          rw [List.length_map, List.length_range, hrslen,
            mul_comm ms.ms_nbits ms.ms_nregs])]
    have hu := unpack_header_of_packed ms MST_COMPRESSED (by decide)
      ⟨hnr, hl, hn1, hn8, hsp, he⟩
      ((List.range ((ms.ms_nregs * ms.ms_nbits + 7) / 8)).map
        (idealMem (concatV ms.ms_nbits rs) (ms.ms_nbits * rs.length))) (.comp rs)
    rw [pack_header_bytes _ _ _ _ _ (by decide) hn1 hn8 hl hsp
      (encode_expthresh_le_63 he)] at hu
    simp only [Except.map]
    rw [hu, show { ms with ms_data := .comp rs } = ms from by rw [← h0]]

theorem roundtrip_comp_sparse (ms : Multiset_t) (hwf : wf_params ms) (rs : List Nat)
    (h0 : ms.ms_data = .comp rs) (hdata : wf_data ms) (max_sparse : Int)
    (hspc : ms.ms_sparseon ≠ 0 ∧
      ((max_sparse ≠ -1 ∧ (numfilled rs : Int) ≤ max_sparse) ∨
       (max_sparse = -1 ∧ numfilled rs * (ms.ms_log2nregs + ms.ms_nbits) <
         ms.ms_nregs * ms.ms_nbits)))
    (h8 : 8 ≤ ms.ms_log2nregs + ms.ms_nbits) :
    ∃ bytes, multiset_pack max_sparse ms (multiset_packed_size max_sparse ms) =
        .ok bytes ∧
      multiset_unpack bytes = .ok ms := by
  obtain ⟨hnr, hl, hn1, hn8, hsp, he⟩ := hwf
  have hd : rs.length = ms.ms_nregs ∧ ms.ms_nregs ≤ MS_MAXDATA ∧
      ∀ r ∈ rs, r < 2 ^ ms.ms_nbits := by
    have h2 := hdata
    unfold wf_data at h2
    rw [h0] at h2
    exact h2
  obtain ⟨hrslen, hmax, hb⟩ := hd
  have hl17 : ms.ms_log2nregs ≤ 17 := by
    by_contra hcon
    push_neg at hcon
    have h18 : (2 : Nat) ^ 18 ≤ 2 ^ ms.ms_log2nregs :=
      Nat.pow_le_pow_right (by norm_num) (by omega)
    rw [← hnr] at h18
    norm_num at h18
    unfold MS_MAXDATA at hmax
    omega
  have hcw : ms.ms_log2nregs + ms.ms_nbits ≤ 32 := by omega
  have hsz : multiset_packed_size max_sparse ms =
      3 + (numfilled rs * (ms.ms_log2nregs + ms.ms_nbits) + 7) / 8 := by
    rw [multiset_packed_size_comp max_sparse ms rs h0, if_pos hspc]
  have hmm : (numfilled rs * (ms.ms_log2nregs + ms.ms_nbits) + 7) / 8 =
      ((ms.ms_log2nregs + ms.ms_nbits) * numfilled rs + 7) / 8 := by
    rw [mul_comm]
  have hlen2 : rs.length = 2 ^ ms.ms_log2nregs := by rw [hrslen, hnr]
  have hpk : multiset_pack max_sparse ms (multiset_packed_size max_sparse ms) =
      .ok (pack_header 1 MST_SPARSE ms.ms_nbits ms.ms_log2nregs ms.ms_expthresh
        ms.ms_sparseon ++
        (List.range (((ms.ms_log2nregs + ms.ms_nbits) * numfilled rs + 7) / 8)).map
          (idealMem
            (concatV (ms.ms_log2nregs + ms.ms_nbits)
              (((List.range (2 ^ ms.ms_log2nregs)).filter
                  (fun ndx => decide (rs.getD ndx 0 ≠ 0))).map
                (fun ndx => ndx * 2 ^ ms.ms_nbits + rs.getD ndx 0)))
            ((ms.ms_log2nregs + ms.ms_nbits) * numfilled rs))) := by
    rw [multiset_pack_comp max_sparse ms rs h0, if_pos hspc, hsz,
      Nat.add_sub_cancel_left, hmm, hnr,
      sparse_pack_eval rs ms.ms_nbits ms.ms_log2nregs hcw hlen2 hb]
    rfl
  refine ⟨_, hpk, ?_⟩
  rw [pack_header_bytes _ _ _ _ _ (by decide) hn1 hn8 hl hsp
    (encode_expthresh_le_63 he)]
  simp only [multiset_unpack]
  have hget0 : (([16 + MST_SPARSE, (ms.ms_nbits - 1) * 32 + ms.ms_log2nregs,
      ms.ms_sparseon * 64 + encode_expthresh ms.ms_expthresh] : List Nat) ++
      (List.range (((ms.ms_log2nregs + ms.ms_nbits) * numfilled rs + 7) / 8)).map
        (idealMem
          (concatV (ms.ms_log2nregs + ms.ms_nbits)
            (((List.range (2 ^ ms.ms_log2nregs)).filter
                (fun ndx => decide (rs.getD ndx 0 ≠ 0))).map
              (fun ndx => ndx * 2 ^ ms.ms_nbits + rs.getD ndx 0)))
          ((ms.ms_log2nregs + ms.ms_nbits) * numfilled rs))).getD 0 0 = 19 := by
    rw [List.getD_append _ _ _ _ (by norm_num)]
    rfl
  have hget1 : (([16 + MST_SPARSE, (ms.ms_nbits - 1) * 32 + ms.ms_log2nregs,
      ms.ms_sparseon * 64 + encode_expthresh ms.ms_expthresh] : List Nat) ++
      (List.range (((ms.ms_log2nregs + ms.ms_nbits) * numfilled rs + 7) / 8)).map
        (idealMem
          (concatV (ms.ms_log2nregs + ms.ms_nbits)
            (((List.range (2 ^ ms.ms_log2nregs)).filter
                (fun ndx => decide (rs.getD ndx 0 ≠ 0))).map
              (fun ndx => ndx * 2 ^ ms.ms_nbits + rs.getD ndx 0)))
          ((ms.ms_log2nregs + ms.ms_nbits) * numfilled rs))).getD 1 0 =
      (ms.ms_nbits - 1) * 32 + ms.ms_log2nregs := by
    rw [List.getD_append _ _ _ _ (by norm_num)]
    rfl
  rw [hget0, hget1, show ((19 : Nat) >>> 4) &&& 0xf = 1 from by decide,
    show (19 : Nat) &&& 0xf = MST_SPARSE from by decide,
    if_neg (show ¬(1 ≠ 1) from by omega),
    if_neg (show ¬(MST_SPARSE = MST_EMPTY) from by decide),
    if_neg (show ¬(MST_SPARSE = MST_EXPLICIT) from by decide),
    if_neg (show ¬(MST_SPARSE = MST_COMPRESSED) from by decide),
    if_neg (show ¬(MST_SPARSE = MST_UNDEFINED) from by decide),
    if_pos rfl]
  have hlen : (([16 + MST_SPARSE, (ms.ms_nbits - 1) * 32 + ms.ms_log2nregs,
      ms.ms_sparseon * 64 + encode_expthresh ms.ms_expthresh] : List Nat) ++
      (List.range (((ms.ms_log2nregs + ms.ms_nbits) * numfilled rs + 7) / 8)).map
        (idealMem
          (concatV (ms.ms_log2nregs + ms.ms_nbits)
            (((List.range (2 ^ ms.ms_log2nregs)).filter
                (fun ndx => decide (rs.getD ndx 0 ≠ 0))).map
              (fun ndx => ndx * 2 ^ ms.ms_nbits + rs.getD ndx 0)))
          ((ms.ms_log2nregs + ms.ms_nbits) * numfilled rs))).length =
      3 + ((ms.ms_log2nregs + ms.ms_nbits) * numfilled rs + 7) / 8 := by
    rw [List.length_append, List.length_map, List.length_range]
    norm_num
  have hx1 : ((ms.ms_nbits - 1) * 32 + ms.ms_log2nregs) >>> 5 + 1 = ms.ms_nbits := by
    rw [Nat.shiftRight_eq_div_pow]
    omega
  have hx2 : ((ms.ms_nbits - 1) * 32 + ms.ms_log2nregs) &&& 0x1f = ms.ms_log2nregs := by
    rw [show (0x1f : Nat) = 2 ^ 5 - 1 by norm_num, and_mask_eq_mod]
    omega
  rw [hlen,
    if_neg (show ¬(3 + ((ms.ms_log2nregs + ms.ms_nbits) * numfilled rs + 7) / 8 < 3)
      from by omega),
    hx1, hx2,
    if_neg (show ¬(2 ^ ms.ms_log2nregs > MS_MAXDATA) from by rw [← hnr]; omega)]
  have hdrop : (([16 + MST_SPARSE, (ms.ms_nbits - 1) * 32 + ms.ms_log2nregs,
      ms.ms_sparseon * 64 + encode_expthresh ms.ms_expthresh] : List Nat) ++
      (List.range (((ms.ms_log2nregs + ms.ms_nbits) * numfilled rs + 7) / 8)).map
        (idealMem
          (concatV (ms.ms_log2nregs + ms.ms_nbits)
            (((List.range (2 ^ ms.ms_log2nregs)).filter
                (fun ndx => decide (rs.getD ndx 0 ≠ 0))).map
              (fun ndx => ndx * 2 ^ ms.ms_nbits + rs.getD ndx 0)))
          ((ms.ms_log2nregs + ms.ms_nbits) * numfilled rs))).drop 3 =
      (List.range (((ms.ms_log2nregs + ms.ms_nbits) * numfilled rs + 7) / 8)).map
        (idealMem
          (concatV (ms.ms_log2nregs + ms.ms_nbits)
            (((List.range (2 ^ ms.ms_log2nregs)).filter
                (fun ndx => decide (rs.getD ndx 0 ≠ 0))).map
              (fun ndx => ndx * 2 ^ ms.ms_nbits + rs.getD ndx 0)))
          ((ms.ms_log2nregs + ms.ms_nbits) * numfilled rs)) := by
    simp
  rw [hdrop]
  have hnfv : (3 + ((ms.ms_log2nregs + ms.ms_nbits) * numfilled rs + 7) / 8 - 3) * 8 /
      (ms.ms_log2nregs + ms.ms_nbits) = numfilled rs := by
    rw [Nat.add_sub_cancel_left]
    have h0cw : 0 < ms.ms_log2nregs + ms.ms_nbits := by omega
    have hrew : ((ms.ms_log2nregs + ms.ms_nbits) * numfilled rs + 7) / 8 * 8 =
        (ms.ms_log2nregs + ms.ms_nbits) * numfilled rs +
          (((ms.ms_log2nregs + ms.ms_nbits) * numfilled rs + 7) / 8 * 8 -
            (ms.ms_log2nregs + ms.ms_nbits) * numfilled rs) := by
      generalize (ms.ms_log2nregs + ms.ms_nbits) * numfilled rs = X
      omega
    rw [hrew, Nat.mul_add_div h0cw, Nat.div_eq_of_lt (by
      generalize hX : (ms.ms_log2nregs + ms.ms_nbits) * numfilled rs = X
      omega)]
    omega
  rw [sparse_unpack_eval rs ms.ms_nbits ms.ms_log2nregs hcw hlen2 hb _ _ hnfv
    (memOf_range_map _ _ _ _ rfl (by
      generalize (ms.ms_log2nregs + ms.ms_nbits) * numfilled rs = X
      omega))
    (by rw [List.length_map, List.length_range])]
  have hu := unpack_header_of_packed ms MST_SPARSE (by decide)
    ⟨hnr, hl, hn1, hn8, hsp, he⟩
    ((List.range (((ms.ms_log2nregs + ms.ms_nbits) * numfilled rs + 7) / 8)).map
      (idealMem
        (concatV (ms.ms_log2nregs + ms.ms_nbits)
          (((List.range (2 ^ ms.ms_log2nregs)).filter
              (fun ndx => decide (rs.getD ndx 0 ≠ 0))).map
            (fun ndx => ndx * 2 ^ ms.ms_nbits + rs.getD ndx 0)))
        ((ms.ms_log2nregs + ms.ms_nbits) * numfilled rs))) (.comp rs)
  rw [pack_header_bytes _ _ _ _ _ (by decide) hn1 hn8 hl hsp
    (encode_expthresh_le_63 he)] at hu
  simp only [Except.map]
  rw [hu, show { ms with ms_data := .comp rs } = ms from by rw [← h0]]

/-- Claim C1 counterexample: regwidth 0 passes check_modifiers (hll.c:1584
accepts 0 <= regwidth <= 7), but pack_header's size_t expression
`(ms_nbits - 1) << 5` underflows, so the Empty sketch with log2m = 0,
regwidth = 0 encodes to 0x11 0xE0 0x7F and decodes to a sketch with
regwidth 8: the round-trip does not preserve the parameters. -/
theorem C1_counterexample :
    check_modifiers 0 0 (-1) 1 = .ok () ∧
    multiset_pack (-1) (multiset_empty 0 0 (-1) 1)
        (multiset_packed_size (-1) (multiset_empty 0 0 (-1) 1)) =
      .ok [17, 224, 127] ∧
    multiset_unpack [17, 224, 127] =
      .ok { ms_nbits := 8, ms_nregs := 1, ms_log2nregs := 0, ms_expthresh := -1,
            ms_sparseon := 1, ms_data := .emptyD } ∧
    (multiset_empty 0 0 (-1) 1).ms_nbits = 0 :=
  ⟨by decide, by decide, by decide, rfl⟩

/-- Claim C1 (amended): for every well-formed in-memory sketch (coherent
register count, 1 <= regwidth <= 8, log2m <= 31, legal expthresh, in-range
payload) such that, whenever the encoder would emit a Sparse frame, the
sparse chunk size log2m + regwidth is at least 8 (the spec's own sparse
invariant), encoding at the exact packed size succeeds and decoding the
resulting bytes returns exactly the original sketch: same four parameters,
same representation tag (a Sparse frame is materialized back as the Dense
register bank it encodes), same token list or register array, and hence
the same cardinality. -/
theorem C1_roundtrip (max_sparse : Int) (ms : Multiset_t) (hwf : wf ms)
    (hsparse : ∀ rs, ms.ms_data = .comp rs →
      (ms.ms_sparseon ≠ 0 ∧
        ((max_sparse ≠ -1 ∧ (numfilled rs : Int) ≤ max_sparse) ∨
         (max_sparse = -1 ∧ numfilled rs * (ms.ms_log2nregs + ms.ms_nbits) <
           ms.ms_nregs * ms.ms_nbits))) →
      8 ≤ ms.ms_log2nregs + ms.ms_nbits) :
    ∃ bytes, multiset_pack max_sparse ms (multiset_packed_size max_sparse ms) =
        .ok bytes ∧ multiset_unpack bytes = .ok ms := by
  obtain ⟨hp, hd⟩ := hwf
  rcases hms : ms.ms_data with _ | _ | es | rs
  · exact ⟨_, (roundtrip_undefined ms hp hms max_sparse).1,
      (roundtrip_undefined ms hp hms max_sparse).2⟩
  · exact ⟨_, (roundtrip_empty ms hp hms max_sparse).1,
      (roundtrip_empty ms hp hms max_sparse).2⟩
  · exact ⟨_, (roundtrip_explicit ms hp es hms hd max_sparse).1,
      (roundtrip_explicit ms hp es hms hd max_sparse).2⟩
  · by_cases hc : ms.ms_sparseon ≠ 0 ∧
        ((max_sparse ≠ -1 ∧ (numfilled rs : Int) ≤ max_sparse) ∨
         (max_sparse = -1 ∧ numfilled rs * (ms.ms_log2nregs + ms.ms_nbits) <
           ms.ms_nregs * ms.ms_nbits))
    · exact roundtrip_comp_sparse ms hp rs hms hd max_sparse hc (hsparse rs hms hc)
    · exact ⟨_, (roundtrip_comp_dense ms hp rs hms hd max_sparse hc).1,
        (roundtrip_comp_dense ms hp rs hms hd max_sparse hc).2⟩

/-- Concrete instantiation of the amended C1 round-trip: a Dense sketch
with log2m = 3, regwidth = 5 and a partially filled register bank. -/
theorem C1_roundtrip_witness :
    ∃ bytes,
      multiset_pack (-1)
          { ms_nbits := 5, ms_nregs := 8, ms_log2nregs := 3, ms_expthresh := -1,
            ms_sparseon := 1, ms_data := .comp [1, 0, 2, 0, 0, 0, 0, 3] }
          (multiset_packed_size (-1)
            { ms_nbits := 5, ms_nregs := 8, ms_log2nregs := 3, ms_expthresh := -1,
              ms_sparseon := 1, ms_data := .comp [1, 0, 2, 0, 0, 0, 0, 3] }) =
        .ok bytes ∧
      multiset_unpack bytes =
        .ok { ms_nbits := 5, ms_nregs := 8, ms_log2nregs := 3, ms_expthresh := -1,
              ms_sparseon := 1, ms_data := .comp [1, 0, 2, 0, 0, 0, 0, 3] } :=
  C1_roundtrip (-1)
    { ms_nbits := 5, ms_nregs := 8, ms_log2nregs := 3, ms_expthresh := -1,
      ms_sparseon := 1, ms_data := .comp [1, 0, 2, 0, 0, 0, 0, 3] }
    (by decide) (fun rs hrs hc => by decide)
